import Mathlib

/-!
Verification of the dysmalpy forward kinematic model core (`dysmalpy/models.py`).

The embedding works over exact rationals.  Calls into external numeric
libraries (numpy/scipy transcendental functions: sqrt, log, arctan, powers,
the hypergeometric and incomplete-gamma special functions, and pi itself)
are modelled as abstract function parameters, bundled in `RealFns` and
`Trig`; theorems take as hypotheses exactly the algebraic facts about these
functions that the real-number implementations satisfy (for example the
Pythagorean identity for cos/sin, or that a square root squares back to its
argument on the concrete nonnegative inputs at which it is used).
-/

set_option maxHeartbeats 1000000

namespace Dysmalpy

/-- Abstract stand-ins for the numpy/scipy real-valued library functions used
by `models.py`.  `tenPow x` stands for `10 ** x`, `powf x y` for `x ** y`,
`cbrt x` for `x ** (1/3)`, `piQ` for `np.pi`, `gammainc a x` for the
regularized lower incomplete gamma `scipy.special.gammainc`, `gammafn` for
`scipy.special.gamma`, and `hyp2f1` for `scipy.special.hyp2f1`. -/
structure RealFns where
  sqrt : ℚ → ℚ
  log : ℚ → ℚ
  atan : ℚ → ℚ
  powf : ℚ → ℚ → ℚ
  cbrt : ℚ → ℚ
  tenPow : ℚ → ℚ
  hyp2f1 : ℚ → ℚ → ℚ → ℚ → ℚ
  gammainc : ℚ → ℚ → ℚ
  gammafn : ℚ → ℚ
  piQ : ℚ

/-- Abstract degree-argument trigonometry: `cosdeg t` stands for
`np.cos(np.pi/180 * t)` and `sindeg t` for `np.sin(np.pi/180 * t)`; the
degree-to-radian conversion done at every trig call in `models.py` is folded
into the oracle so angles stay rational. -/
structure Trig where
  cosdeg : ℚ → ℚ
  sindeg : ℚ → ℚ

/-- The Pythagorean identity for the trig oracle at angle `t` (degrees). -/
def Trig.Pyth (T : Trig) (t : ℚ) : Prop :=
  T.cosdeg t ^ 2 + T.sindeg t ^ 2 = 1

instance (T : Trig) (t : ℚ) : Decidable (T.Pyth t) := by
  unfold Trig.Pyth; infer_instance

/-! ## Geometry (models.py, class Geometry) -/

/-- Parameters of the `Geometry` component: inclination `inc`, position angle
`pa` (both degrees), and the sky-plane pixel shifts.  `vel_shift` is applied
only at the velocity-field level and plays no role in the coordinate
transforms. -/
structure Geometry where
  inc : ℚ
  pa : ℚ
  xshift : ℚ
  yshift : ℚ

/-- `Geometry.coord_transform` (models.py lines 5173-5196): transform sky
coordinates to the galaxy frame.  The in-plane rotation angle is `pa - 90`
degrees; the shifts are removed in the sky system first, then the rotation
about the line of sight, then the inclination. -/
def Geometry.coord_transform (T : Trig) (g : Geometry) (x y z : ℚ) :
    ℚ × ℚ × ℚ :=
  let cpa := T.cosdeg (g.pa - 90)
  let spa := T.sindeg (g.pa - 90)
  let cinc := T.cosdeg g.inc
  let sinc := T.sindeg g.inc
  let xsky := x - g.xshift
  let ysky := y - g.yshift
  let zsky := z
  let xtmp := xsky * cpa + ysky * spa
  let ytmp := -xsky * spa + ysky * cpa
  let ztmp := zsky
  (xtmp, ytmp * cinc - ztmp * sinc, ytmp * sinc + ztmp * cinc)

/-- `Geometry.inverse_coord_transform` (models.py lines 5198-5219): transform
galaxy-frame coordinates back to sky coordinates, undoing the inclination,
then the `pa - 90` degree rotation, then restoring the shifts. -/
def Geometry.inverse_coord_transform (T : Trig) (g : Geometry)
    (xgal ygal zgal : ℚ) : ℚ × ℚ × ℚ :=
  let cpa := T.cosdeg (g.pa - 90)
  let spa := T.sindeg (g.pa - 90)
  let cinc := T.cosdeg g.inc
  let sinc := T.sindeg g.inc
  let xtmp := xgal
  let ytmp := ygal * cinc + zgal * sinc
  let ztmp := -ygal * sinc + zgal * cinc
  (xtmp * cpa - ytmp * spa + g.xshift,
   xtmp * spa + ytmp * cpa + g.yshift,
   ztmp)

/-! ## KinematicOptions: pressure support (models.py, class KinematicOptions) -/

/-- Configuration object `KinematicOptions` (models.py lines 5444-5452).
`pressure_support_re` and `pressure_support_n` are resolved through
`get_pressure_support_param`; the resolved values appear in `PressureModel`
below. -/
structure KinematicOptions where
  adiabatic_contract : Bool
  pressure_support : Bool
  pressure_support_type : ℤ

/-- The data `get_asymm_drift_profile` reads off the `ModelSet` argument:
`dispersion` is `model.dispersion_profile`, `pre` and `pn` are the values
returned by `get_pressure_support_param(model, 're')` / `(model, 'n')`,
`bn` is the scipy value `gammaincinv(2 pn, 0.5)` (external special
function), and `dlnrhogas_dlnr` is `model.get_dlnrhogas_dlnr` (used only by
pressure-support type 3). -/
structure PressureModel where
  dispersion : ℚ → ℚ
  pre : ℚ
  pn : ℚ
  bn : ℚ
  dlnrhogas_dlnr : ℚ → ℚ

/-- `KinematicOptions.get_asymm_drift_profile` (models.py lines 5673-5726):
the three closed forms of the asymmetric-drift velocity. -/
def get_asymm_drift_profile (F : RealFns) (ko : KinematicOptions)
    (m : PressureModel) (r : ℚ) : ℚ :=
  let sigma := m.dispersion r
  if ko.pressure_support_type = 1 then
    F.sqrt (336 / 100 * (r / m.pre) * sigma ^ 2)
  else if ko.pressure_support_type = 2 then
    F.sqrt (2 * (m.bn / m.pn) * F.powf (r / m.pre) (1 / m.pn) * sigma ^ 2)
  else
    F.sqrt (-(m.dlnrhogas_dlnr r) * sigma ^ 2)

/-- `KinematicOptions.apply_pressure_support` (models.py lines 5601-5635):
`v_rot^2 = v_circ^2 - v_drift^2`, clamped to zero before the square root. -/
def apply_pressure_support (F : RealFns) (ko : KinematicOptions)
    (m : PressureModel) (r vel : ℚ) : ℚ :=
  if ko.pressure_support then
    let vel_asymm_drift := get_asymm_drift_profile F ko m r
    let vel_squared := vel ^ 2 - vel_asymm_drift ^ 2
    let vel_squared := if vel_squared < 0 then 0 else vel_squared
    F.sqrt vel_squared
  else vel

/-- `KinematicOptions.correct_for_pressure_support` (models.py lines
5637-5671): invert the asymmetric-drift correction,
`v_circ^2 = v_rot^2 + v_drift^2` (with the same clamp-guard structure). -/
def correct_for_pressure_support (F : RealFns) (ko : KinematicOptions)
    (m : PressureModel) (r vel : ℚ) : ℚ :=
  if ko.pressure_support then
    let vel_asymm_drift := get_asymm_drift_profile F ko m r
    let vel_squared := vel ^ 2 + vel_asymm_drift ^ 2
    let vel_squared := if vel_squared < 0 then 0 else vel_squared
    F.sqrt vel_squared
  else vel

/-! ## DarkMatterHalo.calc_mvirial_from_fdm (models.py lines 3739-3808)

The halo's own circular velocity at the trial virial masses is abstracted as
`vcircDM : trial mvirial → radius → velocity` (the code copies the halo and
overwrites `mvirial` before each evaluation), and the baryon component's
circular velocity as `vcircBar`.  The result of the scipy root finder
`brentq` on a located bracket `[a, b]` is represented symbolically by
`MvirialResult.brentqRoot a b`; `valueError` is the `raise ValueError` that
the `except` clause issues when a bracket endpoint selection fails.  The
`np.isfinite(vsqr_dm_re_target)` guard cannot fire over exact rationals
(the denominator `1/fdm - 1` is nonzero for `0 < fdm < 1`) and is omitted;
the debug-only `adiabatic_contract=True` branch is outside this embedding. -/

/-- Outcome of `calc_mvirial_from_fdm`: the NaN / plus-minus-infinity
sentinels, a symbolic `brentq` invocation on the located bracket, or the
`ValueError` raised when no sign-change bracket exists. -/
inductive MvirialResult
  | nan
  | posInf
  | negInf
  | brentqRoot (a b : ℚ)
  | valueError
deriving DecidableEq

/-- The trial mass scan `mtest = np.arange(-5, 50, 1.0)`. -/
def mtestList : List ℚ := (List.range 55).map fun i : ℕ => (i : ℚ) - 5

/-- The `(mtest, vtest)` pairs of the bracket scan: `vtest[i]` is the
minimization function `_minfunc_vdm_mvir_from_fdm` at trial mass
`mtest[i]`, i.e. the halo circular velocity squared minus the target
`vsqr_bar_re / (1/fdm - 1)`. -/
def fdmScanPairs (vcircDM : ℚ → ℚ → ℚ) (vcircBar : ℚ → ℚ)
    (fdm r_fdm : ℚ) : List (ℚ × ℚ) :=
  mtestList.zip (mtestList.map fun m =>
    (vcircDM m r_fdm) ^ 2 - (vcircBar r_fdm) ^ 2 / (1 / fdm - 1))

/-- `DarkMatterHalo.calc_mvirial_from_fdm` (models.py lines 3739-3808),
default `adiabatic_contract=False` path.  `a = mtest[vtest < 0][-1]` and
`b = mtest[vtest > 0][0]` are the bracket endpoints; if either selection is
empty the `except` clause re-raises as `ValueError`. -/
def calc_mvirial_from_fdm (vcircDM : ℚ → ℚ → ℚ) (vcircBar : ℚ → ℚ)
    (fdm r_fdm : ℚ) : MvirialResult :=
  if fdm > 1 ∨ fdm < 0 then .nan
  else if fdm = 1 then .posInf
  else if fdm = 0 then .negInf
  else if fdm < 1 / 10000000000 then .negInf
  else if r_fdm < 0 then .nan
  else
    let pairs := fdmScanPairs vcircDM vcircBar fdm r_fdm
    match (pairs.filter fun p => p.2 < 0).getLast?,
          (pairs.filter fun p => p.2 > 0).head? with
    | some pa, some pb => .brentqRoot pa.1 pb.1
    | _, _ => .valueError

/-! ## KinematicOptions.apply_adiabatic_contract: per-radius solve and the
convergence guard (models.py lines 5550-5584)

The scipy `newton` call for a sample radius is abstracted as
`newton : ℚ → Option ℚ` (`none` models the exception scipy raises on
non-convergence, caught by the `except` clause).  `modifySmall` is the
optional `adiabatic_contract_modify_small_values` hack flag (absent by
default).  The function returns the per-radius results `rprime_all_1d`, the
`converged` flags, and the pair (contracted radii, radius grid) retained as
the interpolation basis after the convergence guard. -/

/-- Boolean-mask selection, `arr[mask]` in numpy. -/
def selectMask {α : Type} (mask : List Bool) (l : List α) : List α :=
  (mask.zip l).filterMap fun p => if p.1 then some p.2 else none

/-- Largest element of a list (`max(r1d)` on a nonempty numpy array). -/
def maxQ (l : List ℚ) : ℚ := l.foldl max (l.headD 0)

/-- One iteration of the per-radius Newton loop (models.py lines 5551-5571):
on failure fall back to the identity and flag non-convergence; the optional
small-value hack can additionally toss a converged result. -/
def acRadiusStep (newton : ℚ → Option ℚ) (modifySmall : Bool)
    (r1d : List ℚ) (ri : ℚ) : ℚ × Bool :=
  let step := match newton ri with
    | some v => (v, true)
    | none => (ri, false)
  if modifySmall ∧ (step.1 < 0 ∨ step.1 > 5 * maxQ r1d) then (ri, false)
  else step

/-- The per-radius results and the convergence guard of
`apply_adiabatic_contract` (models.py lines 5550-5584): returns
`(rprime_all_1d, converged, rprime kept, r1d kept)` where the last two lists
are the interpolation basis used to build `vhalo_adi_interp_map_3d`. -/
def apply_adiabatic_contract_basis (newton : ℚ → Option ℚ)
    (modifySmall : Bool) (r1d : List ℚ) :
    List ℚ × List Bool × List ℚ × List ℚ :=
  let rc := r1d.map (acRadiusStep newton modifySmall r1d)
  let rprime_all := rc.map Prod.fst
  let converged := rc.map Prod.snd
  let nconv := converged.count true
  if (nconv : ℚ) < r1d.length ∧ (9 : ℚ) / 10 * r1d.length ≤ (nconv : ℚ) then
    (rprime_all, converged, selectMask converged rprime_all,
     selectMask converged r1d)
  else
    (rprime_all, converged, rprime_all, r1d)

/-! ## Dark matter halo family (models.py, classes DarkMatterHalo, NFW,
LinearNFW, TwoPowerHalo, Burkert, Einasto, DekelZhao)

`hz` is the cosmology value `cosmo.H(z).value` and `gNewUnit` the constant
`G.to(u.pc / u.Msun * (u.km / u.s) ** 2).value`; both are plain floats in
the source, carried here as rational parameters. -/

/-- Parameters shared by every halo variant and used by `calc_rvir`. -/
structure HaloPars where
  mvirial : ℚ
  hz : ℚ
  gNewUnit : ℚ

/-- `DarkMatterHalo.calc_rvir` (models.py lines 3693-3719):
`rvir = (10**mvirial * (g*1e-3) / (10*hz*1e-3)**2) ** (1/3)`.  Note the
`10 ** mvirial`: every subclass, including the linear-mass `LinearNFW`,
inherits this method unchanged. -/
def calc_rvir (F : RealFns) (p : HaloPars) : ℚ :=
  F.cbrt (F.tenPow p.mvirial * (p.gNewUnit * (1 / 1000)) /
    (10 * p.hz * (1 / 1000)) ^ 2)

/-- NFW parameters (models.py lines 4847-4849): log virial mass and
concentration. -/
structure NFWPars extends HaloPars where
  conc : ℚ

/-- `NFW.calc_rho0` (models.py lines 4891-4904). -/
def NFW_calc_rho0 (F : RealFns) (p : NFWPars) : ℚ :=
  let rvirial := calc_rvir F p.toHaloPars
  let aa := F.tenPow p.mvirial / (4 * F.piQ * rvirial ^ 3) * p.conc ^ 3
  let bb := 1 / (F.log (1 + p.conc) - p.conc / (1 + p.conc))
  aa * bb

/-- `NFW.enclosed_mass` (models.py lines 4866-4889). -/
def NFW_enclosed_mass (F : RealFns) (p : NFWPars) (r : ℚ) : ℚ :=
  let rho0 := NFW_calc_rho0 F p
  let rvirial := calc_rvir F p.toHaloPars
  let rs := rvirial / p.conc
  let aa := 4 * F.piQ * rho0 * rvirial ^ 3 / p.conc ^ 3
  let bb := |F.log ((rs + r) / rs) - r / (rs + r)|
  aa * bb

/-- `LinearNFW.calc_rho0` (models.py lines 5034-5047): as `NFW.calc_rho0`
but with the virial mass in linear units (`self.mvirial`, no `10 **`). -/
def LinearNFW_calc_rho0 (F : RealFns) (p : NFWPars) : ℚ :=
  let rvirial := calc_rvir F p.toHaloPars
  let aa := p.mvirial / (4 * F.piQ * rvirial ^ 3) * p.conc ^ 3
  let bb := 1 / (F.log (1 + p.conc) - p.conc / (1 + p.conc))
  aa * bb

/-- `LinearNFW.enclosed_mass` (models.py lines 5009-5032). -/
def LinearNFW_enclosed_mass (F : RealFns) (p : NFWPars) (r : ℚ) : ℚ :=
  let rho0 := LinearNFW_calc_rho0 F p
  let rvirial := calc_rvir F p.toHaloPars
  let rs := rvirial / p.conc
  let aa := 4 * F.piQ * rho0 * rvirial ^ 3 / p.conc ^ 3
  let bb := |F.log ((rs + r) / rs) - r / (rs + r)|
  aa * bb

/-- TwoPowerHalo parameters (models.py class TwoPowerHalo): inner slope
`alpha`, outer slope `beta`. -/
structure TwoPowerPars extends HaloPars where
  conc : ℚ
  alpha : ℚ
  beta : ℚ

/-- `TwoPowerHalo.enclosed_mass` (models.py lines 3902-3923). -/
def TwoPowerHalo_enclosed_mass (F : RealFns) (p : TwoPowerPars) (r : ℚ) : ℚ :=
  let rvirial := calc_rvir F p.toHaloPars
  let rs := rvirial / p.conc
  let aa := F.tenPow p.mvirial * F.powf (r / rvirial) (3 - p.alpha)
  let bb := F.hyp2f1 (3 - p.alpha) (p.beta - p.alpha) (4 - p.alpha) (-(r / rs)) /
      F.hyp2f1 (3 - p.alpha) (p.beta - p.alpha) (4 - p.alpha) (-p.conc)
  aa * bb

/-- Burkert parameters (models.py class Burkert): core radius `rB`. -/
structure BurkertPars extends HaloPars where
  rB : ℚ

/-- `Burkert.I` (models.py lines 4096-4099). -/
def Burkert_I (F : RealFns) (p : BurkertPars) (r : ℚ) : ℚ :=
  25 / 100 * (F.log (r ^ 2 + p.rB ^ 2) + 2 * F.log (r + p.rB) -
    2 * F.atan (r / p.rB) - 4 * F.log p.rB)

/-- `Burkert.enclosed_mass` (models.py lines 4101-4120). -/
def Burkert_enclosed_mass (F : RealFns) (p : BurkertPars) (r : ℚ) : ℚ :=
  let rvir := calc_rvir F p.toHaloPars
  let Irvir := Burkert_I F p rvir
  let aa := F.tenPow p.mvirial / Irvir
  let bb := Burkert_I F p r
  aa * bb

/-- Einasto parameters (models.py class Einasto), in the `nEinasto`
parameterization used by `enclosed_mass`. -/
structure EinastoPars extends HaloPars where
  conc : ℚ
  nEinasto : ℚ

/-- `Einasto.calc_rho0` (models.py lines 4379-4397). -/
def Einasto_calc_rho0 (F : RealFns) (p : EinastoPars) : ℚ :=
  let rvir := calc_rvir F p.toHaloPars
  let rs := rvir / p.conc
  let h := rs / F.powf (2 * p.nEinasto) p.nEinasto
  let incomp_gam := F.gammainc (3 * p.nEinasto)
      (2 * p.nEinasto * F.powf p.conc (1 / p.nEinasto)) *
    F.gammafn (3 * p.nEinasto)
  F.tenPow p.mvirial / (4 * F.piQ * p.nEinasto * F.powf h 3 * incomp_gam)

/-- `Einasto.enclosed_mass` (models.py lines 4351-4377). -/
def Einasto_enclosed_mass (F : RealFns) (p : EinastoPars) (r : ℚ) : ℚ :=
  let rvirial := calc_rvir F p.toHaloPars
  let rs := rvirial / p.conc
  let h := rs / F.powf (2 * p.nEinasto) p.nEinasto
  let rho0 := Einasto_calc_rho0 F p
  let incomp_gam := F.gammainc (3 * p.nEinasto)
      (2 * p.nEinasto * F.powf (r / rs) (1 / p.nEinasto)) *
    F.gammafn (3 * p.nEinasto)
  4 * F.piQ * rho0 * F.powf h 3 * p.nEinasto * incomp_gam

/-- Dekel-Zhao parameters (models.py class DekelZhao): inner-slope proxy
`s1` and concentration proxy `c2`. -/
structure DekelZhaoPars extends HaloPars where
  s1 : ℚ
  c2 : ℚ

/-- `DekelZhao.calc_a_c` (models.py lines 4654-4670). -/
def DekelZhao_calc_a_c (F : RealFns) (p : DekelZhaoPars) : ℚ × ℚ :=
  let r12 := F.sqrt (1 / 100)
  let c12 := F.sqrt p.c2
  let a := (3 / 2 * p.s1 - 2 * (7 / 2 - p.s1) * r12 * c12) /
    (3 / 2 - (7 / 2 - p.s1) * r12 * c12)
  let c := ((p.s1 - 2) / ((7 / 2 - p.s1) * r12 - 3 / 2 / c12)) ^ 2
  (a, c)

/-- `DekelZhao.calc_mu` (models.py lines 4699-4706). -/
def DekelZhao_calc_mu (F : RealFns) (p : DekelZhaoPars) : ℚ :=
  let ac := DekelZhao_calc_a_c F p
  F.powf ac.2 (ac.1 - 3) * F.powf (1 + F.sqrt ac.2) (2 * (3 - ac.1))

/-- `DekelZhao.enclosed_mass` (models.py lines 4630-4652). -/
def DekelZhao_enclosed_mass (F : RealFns) (p : DekelZhaoPars) (r : ℚ) : ℚ :=
  let mvir := F.tenPow p.mvirial
  let rvir := calc_rvir F p.toHaloPars
  let ac := DekelZhao_calc_a_c F p
  let rc := rvir / ac.2
  let x := r / rc
  let mu := DekelZhao_calc_mu F p
  mu * mvir / (F.powf x (ac.1 - 3) * F.powf (1 + F.sqrt x) (2 * (3 - ac.1)))

/-! ## Theorems: C5 (geometry inverse round-trip) -/

/-- C5: for every Geometry (any inc, pa, xshift, yshift) and every sky
coordinate (x, y, z), `inverse_coord_transform` applied to the output of
`coord_transform` returns (x, y, z) exactly, given only the Pythagorean
identity of the trig oracle at the two angles used; and both transforms
apply the in-plane rotation with angle `pa - 90` degrees (second and third
conjuncts exhibit the rotation formulas). -/
theorem geometry_inverse_coord_transform_roundtrip (T : Trig) (g : Geometry)
    (x y z : ℚ) (hpa : T.Pyth (g.pa - 90)) (hinc : T.Pyth g.inc) :
    g.inverse_coord_transform T (g.coord_transform T x y z).1
        (g.coord_transform T x y z).2.1 (g.coord_transform T x y z).2.2
      = (x, y, z) ∧
    (g.coord_transform T x y z).1 =
      (x - g.xshift) * T.cosdeg (g.pa - 90) +
        (y - g.yshift) * T.sindeg (g.pa - 90) ∧
    (g.inverse_coord_transform T x y z).1 =
      x * T.cosdeg (g.pa - 90) -
        (y * T.cosdeg g.inc + z * T.sindeg g.inc) * T.sindeg (g.pa - 90) +
        g.xshift := by
  simp only [Trig.Pyth] at hpa hinc
  refine ⟨?_, by simp [Geometry.coord_transform], by simp [Geometry.inverse_coord_transform]⟩
  simp only [Geometry.coord_transform, Geometry.inverse_coord_transform, Prod.mk.injEq]
  refine ⟨?_, ?_, ?_⟩
  · linear_combination (x - g.xshift) * hpa +
      T.sindeg (g.pa - 90) * ((x - g.xshift) * T.sindeg (g.pa - 90) -
        (y - g.yshift) * T.cosdeg (g.pa - 90)) * hinc
  · linear_combination (y - g.yshift) * hpa +
      T.cosdeg (g.pa - 90) * (-(x - g.xshift) * T.sindeg (g.pa - 90) +
        (y - g.yshift) * T.cosdeg (g.pa - 90)) * hinc
  · linear_combination z * hinc

/-- Concrete trig oracle for the C5 witness (a rational point on the unit
circle, so the Pythagorean hypothesis holds at every angle). -/
def exTrigC5 : Trig := ⟨fun _ => 3 / 5, fun _ => 4 / 5⟩

/-- Concrete geometry for the C5 witness. -/
def exGeomC5 : Geometry := ⟨45, 30, 1, 2⟩

/-- Witness for C5 at a concrete geometry and sky point. -/
theorem geometry_inverse_coord_transform_roundtrip_witness :
    exTrigC5.Pyth (exGeomC5.pa - 90) ∧ exTrigC5.Pyth exGeomC5.inc ∧
    (exGeomC5.inverse_coord_transform exTrigC5
        (exGeomC5.coord_transform exTrigC5 7 (-3) 2).1
        (exGeomC5.coord_transform exTrigC5 7 (-3) 2).2.1
        (exGeomC5.coord_transform exTrigC5 7 (-3) 2).2.2
      = (7, -3, 2) ∧
    (exGeomC5.coord_transform exTrigC5 7 (-3) 2).1 =
      (7 - exGeomC5.xshift) * exTrigC5.cosdeg (exGeomC5.pa - 90) +
        (-3 - exGeomC5.yshift) * exTrigC5.sindeg (exGeomC5.pa - 90) ∧
    (exGeomC5.inverse_coord_transform exTrigC5 7 (-3) 2).1 =
      7 * exTrigC5.cosdeg (exGeomC5.pa - 90) -
        ((-3) * exTrigC5.cosdeg exGeomC5.inc + 2 * exTrigC5.sindeg exGeomC5.inc) *
          exTrigC5.sindeg (exGeomC5.pa - 90) + exGeomC5.xshift) :=
  ⟨by norm_num [Trig.Pyth, exTrigC5], by norm_num [Trig.Pyth, exTrigC5],
   geometry_inverse_coord_transform_roundtrip exTrigC5 exGeomC5 7 (-3) 2
     (by norm_num [Trig.Pyth, exTrigC5]) (by norm_num [Trig.Pyth, exTrigC5])⟩

/-! ## Theorems: C4 (pressure support type 1 round-trip and clamping) -/

/-- C4: with pressure support enabled and type 1, applying
`apply_pressure_support` then `correct_for_pressure_support` at the same
radius returns the original circular velocity whenever the drift term does
not trigger the clamp (first conjunct); and `apply_pressure_support` clamps
a negative `v_rot^2` to zero before the square root (second conjunct, for a
velocity `vel2` whose square is below the drift term).  The square-root
oracle hypotheses `hw`, `hv`, `hz` are the defining facts of the real
square root at the three concrete arguments where it is applied. -/
theorem pressure_support_type1_roundtrip (F : RealFns) (ko : KinematicOptions)
    (m : PressureModel) (r vel vel2 : ℚ)
    (hps : ko.pressure_support = true)
    (htype : ko.pressure_support_type = 1)
    (hnoclamp : (F.sqrt (336 / 100 * (r / m.pre) * (m.dispersion r) ^ 2)) ^ 2 ≤ vel ^ 2)
    (hw : (F.sqrt (vel ^ 2 - (F.sqrt (336 / 100 * (r / m.pre) * (m.dispersion r) ^ 2)) ^ 2)) ^ 2
        = vel ^ 2 - (F.sqrt (336 / 100 * (r / m.pre) * (m.dispersion r) ^ 2)) ^ 2)
    (hv : F.sqrt (vel ^ 2) = vel)
    (hclamp : vel2 ^ 2 < (F.sqrt (336 / 100 * (r / m.pre) * (m.dispersion r) ^ 2)) ^ 2)
    (hz : F.sqrt 0 = 0) :
    correct_for_pressure_support F ko m r (apply_pressure_support F ko m r vel) = vel ∧
    apply_pressure_support F ko m r vel2 = 0 := by
  have hvad : get_asymm_drift_profile F ko m r =
      F.sqrt (336 / 100 * (r / m.pre) * (m.dispersion r) ^ 2) := by
    simp [get_asymm_drift_profile, htype]
  constructor
  · simp only [apply_pressure_support, correct_for_pressure_support, hps, if_true, hvad]
    rw [if_neg (show ¬(vel ^ 2 -
        F.sqrt (336 / 100 * (r / m.pre) * m.dispersion r ^ 2) ^ 2 < 0) by
      push_neg; linarith)]
    rw [hw]
    rw [if_neg (show ¬(vel ^ 2 -
        F.sqrt (336 / 100 * (r / m.pre) * m.dispersion r ^ 2) ^ 2 +
        F.sqrt (336 / 100 * (r / m.pre) * m.dispersion r ^ 2) ^ 2 < 0) by
      push_neg; nlinarith [sq_nonneg vel])]
    have hsum : vel ^ 2 - F.sqrt (336 / 100 * (r / m.pre) * m.dispersion r ^ 2) ^ 2 +
        F.sqrt (336 / 100 * (r / m.pre) * m.dispersion r ^ 2) ^ 2 = vel ^ 2 := by ring
    rw [hsum, hv]
  · simp only [apply_pressure_support, hps, if_true, hvad]
    rw [if_pos (by linarith), hz]

/-- Concrete square-root oracle for the C4 witness: correct at the arguments
0, 9, 16 and 25 occurring in the witness computation. -/
def sqrtC4 : ℚ → ℚ :=
  fun x => if x = 9 then 3 else if x = 16 then 4 else if x = 25 then 5 else 0

/-- Concrete numeric oracle for the C4 witness. -/
def realFnsC4 : RealFns :=
  ⟨sqrtC4, fun _ => 0, fun _ => 0, fun _ _ => 0, fun _ => 0, fun _ => 0,
   fun _ _ _ _ => 0, fun _ _ => 0, fun _ => 0, 0⟩

/-- KinematicOptions for the C4 witness: pressure support on, type 1. -/
def koC4 : KinematicOptions := ⟨false, true, 1⟩

/-- Pressure model for the C4 witness: constant unit dispersion, effective
radius 1 kpc. -/
def pmC4 : PressureModel := ⟨fun _ => 1, 1, 1, 0, fun _ => 0⟩

/-- Witness for C4 at radius 75/28 kpc (drift term squared = 9), circular
velocity 5 (round-trips), and velocity 1 (clamped to zero). -/
theorem pressure_support_type1_roundtrip_witness :
    koC4.pressure_support = true ∧
    koC4.pressure_support_type = 1 ∧
    (realFnsC4.sqrt (336 / 100 * ((75 / 28) / pmC4.pre) * (pmC4.dispersion (75 / 28)) ^ 2)) ^ 2 ≤ (5 : ℚ) ^ 2 ∧
    (correct_for_pressure_support realFnsC4 koC4 pmC4 (75 / 28)
        (apply_pressure_support realFnsC4 koC4 pmC4 (75 / 28) 5) = 5 ∧
     apply_pressure_support realFnsC4 koC4 pmC4 (75 / 28) 1 = 0) :=
  ⟨rfl, rfl, by norm_num [realFnsC4, sqrtC4, pmC4],
   pressure_support_type1_roundtrip realFnsC4 koC4 pmC4 (75 / 28) 5 1
     rfl rfl (by norm_num [realFnsC4, sqrtC4, pmC4])
     (by norm_num [realFnsC4, sqrtC4, pmC4])
     (by norm_num [realFnsC4, sqrtC4, pmC4])
     (by norm_num [realFnsC4, sqrtC4, pmC4])
     (by norm_num [realFnsC4, sqrtC4, pmC4])⟩

/-! ## Theorems: C2 (calc_mvirial_from_fdm boundaries and the no-bracket path) -/

/-- C2 (amended): `calc_mvirial_from_fdm` returns the NaN sentinel for
`fdm` outside [0, 1], plus-infinity for `fdm = 1`, minus-infinity for
`fdm = 0`; and when the scan over trial masses finds no sign-change bracket
it raises `ValueError` (it does not return NaN). -/
theorem calc_mvirial_from_fdm_boundaries (vcircDM : ℚ → ℚ → ℚ)
    (vcircBar : ℚ → ℚ) (fdm r_fdm : ℚ) :
    (fdm > 1 ∨ fdm < 0 →
      calc_mvirial_from_fdm vcircDM vcircBar fdm r_fdm = .nan) ∧
    (fdm = 1 →
      calc_mvirial_from_fdm vcircDM vcircBar fdm r_fdm = .posInf) ∧
    (fdm = 0 →
      calc_mvirial_from_fdm vcircDM vcircBar fdm r_fdm = .negInf) ∧
    (0 < fdm → fdm < 1 → ¬fdm < 1 / 10000000000 → ¬r_fdm < 0 →
      (((fdmScanPairs vcircDM vcircBar fdm r_fdm).filter
          fun p => p.2 < 0).getLast? = none ∨
       ((fdmScanPairs vcircDM vcircBar fdm r_fdm).filter
          fun p => p.2 > 0).head? = none) →
      calc_mvirial_from_fdm vcircDM vcircBar fdm r_fdm = .valueError) := by
  refine ⟨?_, ?_, ?_, ?_⟩
  · intro h
    simp only [calc_mvirial_from_fdm]
    rw [if_pos h]
  · intro h
    subst h
    simp only [calc_mvirial_from_fdm]
    rw [if_neg (by norm_num)]
    simp
  · intro h
    subst h
    simp only [calc_mvirial_from_fdm]
    rw [if_neg (by norm_num), if_neg (by norm_num)]
    simp
  · intro h1 h2 h3 h4 h5
    simp only [calc_mvirial_from_fdm]
    rw [if_neg (by push_neg; exact ⟨by linarith, by linarith⟩),
      if_neg (by linarith), if_neg (by linarith), if_neg h3, if_neg h4]
    rcases h5 with h | h
    · rw [h]
    · rw [h]
      cases hx : ((fdmScanPairs vcircDM vcircBar fdm r_fdm).filter
          fun p => p.2 < 0).getLast? <;> rfl

/-- Counterexample for C2 as stated: with a halo whose circular velocity is
identically zero and a unit-velocity baryon at `fdm = 1/2`, the trial-mass
scan finds no positive value, and the code raises `ValueError` instead of
returning NaN. -/
theorem calc_mvirial_from_fdm_no_bracket_counterexample :
    calc_mvirial_from_fdm (fun _ _ => 0) (fun _ => 1) (1 / 2) 1 = .valueError ∧
    MvirialResult.valueError ≠ MvirialResult.nan := by
  constructor
  · exact (calc_mvirial_from_fdm_boundaries (fun _ _ => 0) (fun _ => 1)
      (1 / 2) 1).2.2.2 (by norm_num) (by norm_num) (by norm_num) (by norm_num)
      (Or.inr (by norm_num [fdmScanPairs, mtestList, List.range_succ]))
  · intro h
    exact MvirialResult.noConfusion h

/-- Witness for C2 (amended), exercising all four boundary behaviors at
concrete inputs. -/
theorem calc_mvirial_from_fdm_boundaries_witness :
    calc_mvirial_from_fdm (fun _ _ => 0) (fun _ => 1) 2 1 = .nan ∧
    calc_mvirial_from_fdm (fun _ _ => 0) (fun _ => 1) 1 1 = .posInf ∧
    calc_mvirial_from_fdm (fun _ _ => 0) (fun _ => 1) 0 1 = .negInf ∧
    calc_mvirial_from_fdm (fun _ _ => 1) (fun _ => 0) (1 / 2) 1 = .valueError :=
  ⟨(calc_mvirial_from_fdm_boundaries _ _ 2 1).1 (Or.inl (by norm_num)),
   (calc_mvirial_from_fdm_boundaries _ _ 1 1).2.1 rfl,
   (calc_mvirial_from_fdm_boundaries _ _ 0 1).2.2.1 rfl,
   (calc_mvirial_from_fdm_boundaries (fun _ _ => 1) (fun _ => 0)
      (1 / 2) 1).2.2.2 (by norm_num) (by norm_num) (by norm_num) (by norm_num)
      (Or.inl (by norm_num [fdmScanPairs, mtestList, List.range_succ]))⟩

/-! ## Theorems: C3 (adiabatic contraction fallback and convergence guard) -/

/-- Projection lemma: the `rprime_all_1d` list returned by
`apply_adiabatic_contract_basis` is the per-radius step results, in both
branches of the convergence guard. -/
theorem apply_adiabatic_contract_basis_fst (newton : ℚ → Option ℚ)
    (modifySmall : Bool) (r1d : List ℚ) :
    (apply_adiabatic_contract_basis newton modifySmall r1d).1 =
      (r1d.map (acRadiusStep newton modifySmall r1d)).map Prod.fst := by
  simp only [apply_adiabatic_contract_basis]
  split_ifs <;> rfl

/-- Projection lemma: the `converged` flags returned by
`apply_adiabatic_contract_basis`, in both branches of the guard. -/
theorem apply_adiabatic_contract_basis_conv (newton : ℚ → Option ℚ)
    (modifySmall : Bool) (r1d : List ℚ) :
    (apply_adiabatic_contract_basis newton modifySmall r1d).2.1 =
      (r1d.map (acRadiusStep newton modifySmall r1d)).map Prod.snd := by
  simp only [apply_adiabatic_contract_basis]
  split_ifs <;> rfl

/-- C3 (amended): every per-radius Newton solve that fails to converge falls
back to the identity and is marked non-converged (first conjunct); the
converged subset of radii is kept as the interpolation basis exactly when
some solve fails but the converged count is still at least 90% of the
sample (second conjunct), while failures of more than ~10% of the radii
leave the full radius grid, identity fallbacks included, as the basis
(third conjunct). -/
theorem adiabatic_contract_fallback_and_guard (newton : ℚ → Option ℚ)
    (modifySmall : Bool) (r1d : List ℚ) :
    (∀ i (h : i < r1d.length), newton r1d[i] = none →
      (apply_adiabatic_contract_basis newton modifySmall r1d).1.getD i 0 =
        r1d[i] ∧
      (apply_adiabatic_contract_basis newton modifySmall r1d).2.1.getD i true =
        false) ∧
    ((((apply_adiabatic_contract_basis newton modifySmall r1d).2.1.count true : ℚ) <
        r1d.length ∧
      (9 : ℚ) / 10 * r1d.length ≤
        ((apply_adiabatic_contract_basis newton modifySmall r1d).2.1.count true : ℚ)) →
      (apply_adiabatic_contract_basis newton modifySmall r1d).2.2 =
        (selectMask (apply_adiabatic_contract_basis newton modifySmall r1d).2.1
          (apply_adiabatic_contract_basis newton modifySmall r1d).1,
         selectMask (apply_adiabatic_contract_basis newton modifySmall r1d).2.1
          r1d)) ∧
    (¬(((apply_adiabatic_contract_basis newton modifySmall r1d).2.1.count true : ℚ) <
        r1d.length ∧
      (9 : ℚ) / 10 * r1d.length ≤
        ((apply_adiabatic_contract_basis newton modifySmall r1d).2.1.count true : ℚ)) →
      (apply_adiabatic_contract_basis newton modifySmall r1d).2.2 =
        ((apply_adiabatic_contract_basis newton modifySmall r1d).1, r1d)) := by
  have hfst := apply_adiabatic_contract_basis_fst newton modifySmall r1d
  have hconv := apply_adiabatic_contract_basis_conv newton modifySmall r1d
  refine ⟨?_, ?_, ?_⟩
  · intro i h hnone
    have hstep : acRadiusStep newton modifySmall r1d r1d[i] =
        (r1d[i], false) := by
      simp [acRadiusStep, hnone]
    constructor
    · rw [hfst, List.map_map]
      rw [List.getD_eq_getElem _ _ (by simpa using h)]
      simp [hstep]
    · rw [hconv, List.map_map]
      rw [List.getD_eq_getElem _ _ (by simpa using h)]
      simp [hstep]
  · intro hc
    rw [hconv] at hc
    rw [hfst, hconv]
    simp only [apply_adiabatic_contract_basis]
    rw [if_pos hc]
  · intro hc
    rw [hconv] at hc
    rw [hfst]
    simp only [apply_adiabatic_contract_basis]
    rw [if_neg hc]

/-- Newton oracle for the C3 counterexample: fails on radii 1 and 2 (20% of
the ten sample radii), converges elsewhere. -/
def exNewtonC3 : ℚ → Option ℚ :=
  fun r => if r = 1 ∨ r = 2 then none else some (r + 1)

/-- Ten sample radii for the C3 counterexample and witness. -/
def exR1dC3 : List ℚ := [1, 2, 3, 4, 5, 6, 7, 8, 9, 10]

/-- Counterexample for C3 as stated: with 20% of the radii failing to
converge (more than ~10%), the kept interpolation basis is the full radius
grid, not the converged subset (which differs from it). -/
theorem adiabatic_contract_guard_counterexample :
    (((apply_adiabatic_contract_basis exNewtonC3 false exR1dC3).2.1.count true : ℚ) <
      (9 : ℚ) / 10 * (exR1dC3.length : ℚ)) ∧
    (apply_adiabatic_contract_basis exNewtonC3 false exR1dC3).2.2.2 = exR1dC3 ∧
    selectMask (apply_adiabatic_contract_basis exNewtonC3 false exR1dC3).2.1
      exR1dC3 ≠ exR1dC3 := by
  refine ⟨?_, ?_, ?_⟩ <;>
    norm_num [apply_adiabatic_contract_basis, acRadiusStep, exNewtonC3,
      exR1dC3, selectMask, List.filterMap_cons]

/-- Newton oracle for the C3 witness: fails only on radius 1 (10% of the
ten sample radii), so the guard keeps the converged subset. -/
def exNewtonC3b : ℚ → Option ℚ :=
  fun r => if r = 1 then none else some (r + 1)

/-- Witness for C3 (amended): the failing radius falls back to the identity
and is flagged, and with exactly one failure out of ten the converged
subset is kept as the interpolation basis. -/
theorem adiabatic_contract_guard_witness :
    exNewtonC3b 1 = none ∧
    ((apply_adiabatic_contract_basis exNewtonC3b false exR1dC3).1.getD 0 0 = 1 ∧
     (apply_adiabatic_contract_basis exNewtonC3b false exR1dC3).2.1.getD 0 true =
       false) ∧
    (apply_adiabatic_contract_basis exNewtonC3b false exR1dC3).2.2 =
      (selectMask (apply_adiabatic_contract_basis exNewtonC3b false exR1dC3).2.1
        (apply_adiabatic_contract_basis exNewtonC3b false exR1dC3).1,
       selectMask (apply_adiabatic_contract_basis exNewtonC3b false exR1dC3).2.1
        exR1dC3) :=
  ⟨by norm_num [exNewtonC3b],
   (adiabatic_contract_fallback_and_guard exNewtonC3b false exR1dC3).1 0
     (by norm_num [exR1dC3]) (by norm_num [exNewtonC3b, exR1dC3]),
   (adiabatic_contract_fallback_and_guard exNewtonC3b false exR1dC3).2.1
     (by norm_num [apply_adiabatic_contract_basis, acRadiusStep, exNewtonC3b,
       exR1dC3])⟩

/-! ## Theorems: C8 (enclosed mass at the virial radius) -/

/-- NFW: enclosed mass at `calc_rvir()` equals `10**mvirial` exactly, for
any nonzero virial radius and concentration, provided the NFW normalization
integral `log(1+c) - c/(1+c)` is positive (true of the real logarithm for
every `c > 0`). -/
theorem NFW_enclosed_mass_rvir (F : RealFns) (p : NFWPars)
    (hrv : calc_rvir F p.toHaloPars ≠ 0) (hc : p.conc ≠ 0)
    (hpi : F.piQ ≠ 0)
    (hX : 0 < F.log (1 + p.conc) - p.conc / (1 + p.conc)) :
    NFW_enclosed_mass F p (calc_rvir F p.toHaloPars) = F.tenPow p.mvirial := by
  have hX' : F.log (1 + p.conc) - p.conc / (1 + p.conc) ≠ 0 := ne_of_gt hX
  simp only [NFW_enclosed_mass, NFW_calc_rho0]
  set R := calc_rvir F p.toHaloPars with hR
  have h1 : (R / p.conc + R) / (R / p.conc) = 1 + p.conc := by
    field_simp
    ring
  have h2 : R / (R / p.conc + R) = p.conc / (1 + p.conc) := by
    rw [show R / p.conc + R = (1 + p.conc) * R / p.conc by field_simp; ring]
    rw [div_div_eq_mul_div, mul_comm R p.conc, mul_div_mul_right _ _ hrv]
  rw [h1, h2, abs_of_pos hX]
  set X := F.log (1 + p.conc) - p.conc / (1 + p.conc) with hXdef
  field_simp
  ring

/-- LinearNFW: the same cancellation, but the result is the linear-units
`mvirial` itself, not `10**mvirial`. -/
theorem LinearNFW_enclosed_mass_rvir (F : RealFns) (p : NFWPars)
    (hrv : calc_rvir F p.toHaloPars ≠ 0) (hc : p.conc ≠ 0)
    (hpi : F.piQ ≠ 0)
    (hX : 0 < F.log (1 + p.conc) - p.conc / (1 + p.conc)) :
    LinearNFW_enclosed_mass F p (calc_rvir F p.toHaloPars) = p.mvirial := by
  have hX' : F.log (1 + p.conc) - p.conc / (1 + p.conc) ≠ 0 := ne_of_gt hX
  simp only [LinearNFW_enclosed_mass, LinearNFW_calc_rho0]
  set R := calc_rvir F p.toHaloPars with hR
  have h1 : (R / p.conc + R) / (R / p.conc) = 1 + p.conc := by
    field_simp
    ring
  have h2 : R / (R / p.conc + R) = p.conc / (1 + p.conc) := by
    rw [show R / p.conc + R = (1 + p.conc) * R / p.conc by field_simp; ring]
    rw [div_div_eq_mul_div, mul_comm R p.conc, mul_div_mul_right _ _ hrv]
  rw [h1, h2, abs_of_pos hX]
  set X := F.log (1 + p.conc) - p.conc / (1 + p.conc) with hXdef
  field_simp
  ring

/-- TwoPowerHalo: enclosed mass at the virial radius equals `10**mvirial`,
using `1 ** x = 1` and the cancellation of the two identical hypergeometric
values. -/
theorem TwoPowerHalo_enclosed_mass_rvir (F : RealFns) (p : TwoPowerPars)
    (hrv : calc_rvir F p.toHaloPars ≠ 0)
    (hpow1 : F.powf 1 (3 - p.alpha) = 1)
    (hhyp : F.hyp2f1 (3 - p.alpha) (p.beta - p.alpha) (4 - p.alpha)
      (-p.conc) ≠ 0) :
    TwoPowerHalo_enclosed_mass F p (calc_rvir F p.toHaloPars) =
      F.tenPow p.mvirial := by
  simp only [TwoPowerHalo_enclosed_mass]
  rw [div_self hrv, hpow1]
  rw [show calc_rvir F p.toHaloPars / (calc_rvir F p.toHaloPars / p.conc) =
      p.conc by rw [div_div_eq_mul_div, mul_comm, mul_div_assoc, div_self hrv, mul_one]]
  rw [div_self hhyp]
  ring

/-- Burkert: enclosed mass at the virial radius equals `10**mvirial`
(immediate cancellation of `I(rvir)`). -/
theorem Burkert_enclosed_mass_rvir (F : RealFns) (p : BurkertPars)
    (hI : Burkert_I F p (calc_rvir F p.toHaloPars) ≠ 0) :
    Burkert_enclosed_mass F p (calc_rvir F p.toHaloPars) =
      F.tenPow p.mvirial := by
  simp only [Burkert_enclosed_mass]
  rw [div_mul_cancel₀ _ hI]

/-- Einasto: enclosed mass at the virial radius equals `10**mvirial`; the
incomplete-gamma factor evaluated at `rvir/rs = conc` matches the one in
`calc_rho0` and cancels. -/
theorem Einasto_enclosed_mass_rvir (F : RealFns) (p : EinastoPars)
    (hrv : calc_rvir F p.toHaloPars ≠ 0)
    (hn : p.nEinasto ≠ 0) (hpi : F.piQ ≠ 0)
    (hh : F.powf (calc_rvir F p.toHaloPars / p.conc /
      F.powf (2 * p.nEinasto) p.nEinasto) 3 ≠ 0)
    (hinc : F.gammainc (3 * p.nEinasto)
        (2 * p.nEinasto * F.powf p.conc (1 / p.nEinasto)) *
      F.gammafn (3 * p.nEinasto) ≠ 0) :
    Einasto_enclosed_mass F p (calc_rvir F p.toHaloPars) =
      F.tenPow p.mvirial := by
  simp only [Einasto_enclosed_mass, Einasto_calc_rho0]
  rw [show calc_rvir F p.toHaloPars / (calc_rvir F p.toHaloPars / p.conc) =
      p.conc by rw [div_div_eq_mul_div, mul_comm, mul_div_assoc, div_self hrv, mul_one]]
  obtain ⟨hG1, hG2⟩ := mul_ne_zero_iff.mp hinc
  set G1 := F.gammainc (3 * p.nEinasto)
    (2 * p.nEinasto * F.powf p.conc (1 / p.nEinasto)) with hG1def
  set G2 := F.gammafn (3 * p.nEinasto) with hG2def
  set H := F.powf (calc_rvir F p.toHaloPars / p.conc /
    F.powf (2 * p.nEinasto) p.nEinasto) 3 with hHdef
  field_simp
  ring

/-- DekelZhao: enclosed mass at the virial radius equals `10**mvirial`; the
`mu` normalization matches the denominator at `x = c` and cancels. -/
theorem DekelZhao_enclosed_mass_rvir (F : RealFns) (p : DekelZhaoPars)
    (hrv : calc_rvir F p.toHaloPars ≠ 0)
    (hp1 : F.powf (DekelZhao_calc_a_c F p).2
      ((DekelZhao_calc_a_c F p).1 - 3) ≠ 0)
    (hp2 : F.powf (1 + F.sqrt (DekelZhao_calc_a_c F p).2)
      (2 * (3 - (DekelZhao_calc_a_c F p).1)) ≠ 0) :
    DekelZhao_enclosed_mass F p (calc_rvir F p.toHaloPars) =
      F.tenPow p.mvirial := by
  simp only [DekelZhao_enclosed_mass, DekelZhao_calc_mu]
  rw [show calc_rvir F p.toHaloPars /
      (calc_rvir F p.toHaloPars / (DekelZhao_calc_a_c F p).2) =
      (DekelZhao_calc_a_c F p).2 by
    rw [div_div_eq_mul_div, mul_comm, mul_div_assoc, div_self hrv, mul_one]]
  rw [mul_div_assoc, mul_comm]
  rw [div_mul_cancel₀ _ (mul_ne_zero hp1 hp2)]

/-- C8 (amended): for every halo variant, the enclosed mass evaluated at
`calc_rvir()` reproduces the virial mass exactly: `10**mvirial` for the
log-mass variants NFW, TwoPowerHalo, Burkert, Einasto and DekelZhao, but
the linear-units `mvirial` itself for the linear-mass variant LinearNFW.
The first conjunct is the virial definition `calc_rvir` solves:
`Rvir^3 * (10 H(z) * 1e-3)^2 = 10**mvirial * (G * 1e-3)` in the code's
unit convention (i.e. `Mvir = 100 H(z)^2/G * Rvir^3`). -/
theorem halo_enclosed_mass_rvir_roundtrip (F : RealFns)
    (pN : NFWPars) (pT : TwoPowerPars) (pB : BurkertPars)
    (pE : EinastoPars) (pD : DekelZhaoPars) (pL : NFWPars)
    (hcb : F.cbrt (F.tenPow pN.mvirial * (pN.gNewUnit * (1 / 1000)) /
        (10 * pN.hz * (1 / 1000)) ^ 2) ^ 3 =
      F.tenPow pN.mvirial * (pN.gNewUnit * (1 / 1000)) /
        (10 * pN.hz * (1 / 1000)) ^ 2)
    (hNrv : calc_rvir F pN.toHaloPars ≠ 0) (hNc : pN.conc ≠ 0)
    (hNpi : F.piQ ≠ 0)
    (hNX : 0 < F.log (1 + pN.conc) - pN.conc / (1 + pN.conc))
    (hTrv : calc_rvir F pT.toHaloPars ≠ 0)
    (hTpow1 : F.powf 1 (3 - pT.alpha) = 1)
    (hThyp : F.hyp2f1 (3 - pT.alpha) (pT.beta - pT.alpha) (4 - pT.alpha)
      (-pT.conc) ≠ 0)
    (hBI : Burkert_I F pB (calc_rvir F pB.toHaloPars) ≠ 0)
    (hErv : calc_rvir F pE.toHaloPars ≠ 0) (hEn : pE.nEinasto ≠ 0)
    (hEpi : F.piQ ≠ 0)
    (hEh : F.powf (calc_rvir F pE.toHaloPars / pE.conc /
      F.powf (2 * pE.nEinasto) pE.nEinasto) 3 ≠ 0)
    (hEinc : F.gammainc (3 * pE.nEinasto)
        (2 * pE.nEinasto * F.powf pE.conc (1 / pE.nEinasto)) *
      F.gammafn (3 * pE.nEinasto) ≠ 0)
    (hDrv : calc_rvir F pD.toHaloPars ≠ 0)
    (hDp1 : F.powf (DekelZhao_calc_a_c F pD).2
      ((DekelZhao_calc_a_c F pD).1 - 3) ≠ 0)
    (hDp2 : F.powf (1 + F.sqrt (DekelZhao_calc_a_c F pD).2)
      (2 * (3 - (DekelZhao_calc_a_c F pD).1)) ≠ 0)
    (hLrv : calc_rvir F pL.toHaloPars ≠ 0) (hLc : pL.conc ≠ 0)
    (hLpi : F.piQ ≠ 0)
    (hLX : 0 < F.log (1 + pL.conc) - pL.conc / (1 + pL.conc)) :
    (calc_rvir F pN.toHaloPars) ^ 3 =
      F.tenPow pN.mvirial * (pN.gNewUnit * (1 / 1000)) /
        (10 * pN.hz * (1 / 1000)) ^ 2 ∧
    NFW_enclosed_mass F pN (calc_rvir F pN.toHaloPars) =
      F.tenPow pN.mvirial ∧
    TwoPowerHalo_enclosed_mass F pT (calc_rvir F pT.toHaloPars) =
      F.tenPow pT.mvirial ∧
    Burkert_enclosed_mass F pB (calc_rvir F pB.toHaloPars) =
      F.tenPow pB.mvirial ∧
    Einasto_enclosed_mass F pE (calc_rvir F pE.toHaloPars) =
      F.tenPow pE.mvirial ∧
    DekelZhao_enclosed_mass F pD (calc_rvir F pD.toHaloPars) =
      F.tenPow pD.mvirial ∧
    LinearNFW_enclosed_mass F pL (calc_rvir F pL.toHaloPars) = pL.mvirial :=
  ⟨by simpa [calc_rvir] using hcb,
   NFW_enclosed_mass_rvir F pN hNrv hNc hNpi hNX,
   TwoPowerHalo_enclosed_mass_rvir F pT hTrv hTpow1 hThyp,
   Burkert_enclosed_mass_rvir F pB hBI,
   Einasto_enclosed_mass_rvir F pE hErv hEn hEpi hEh hEinc,
   DekelZhao_enclosed_mass_rvir F pD hDrv hDp1 hDp2,
   LinearNFW_enclosed_mass_rvir F pL hLrv hLc hLpi hLX⟩

/-- Concrete numeric oracle for the C8 counterexample and witness.  The
values are consistent stand-ins for the real functions at the arguments
used: `cbrt 8 = 2`, `sqrt(1/100) = 1/10`, `sqrt 4 = 2`, `log 5 = 2`
(the real value 1.609... just needs to exceed 4/5), `10^12` stands in as
1000. -/
def realFnsC8 : RealFns :=
  ⟨fun x => if x = 1 / 100 then 1 / 10 else 2,
   fun x => if x = 5 then 2 else 1,
   fun _ => 1 / 2,
   fun x _ => if x = 1 then 1 else 3,
   fun _ => 2,
   fun _ => 1000,
   fun _ _ _ _ => 5,
   fun _ _ => 7,
   fun _ => 11,
   22 / 7⟩

/-- Halo base parameters for the C8 counterexample and witness: the
`calc_rvir` argument evaluates to 8 and the virial radius to 2. -/
def haloParsC8 : HaloPars := ⟨12, 100, 8⟩

/-- LinearNFW parameters for the C8 counterexample. -/
def pLinC8 : NFWPars := ⟨haloParsC8, 4⟩

/-- Counterexample for C8 as stated: for the linear-mass variant LinearNFW
(with linear virial mass 12), the enclosed mass at the virial radius is the
linear `mvirial = 12`, not `10**mvirial` (which the oracle evaluates as
1000). -/
theorem LinearNFW_enclosed_mass_rvir_counterexample :
    LinearNFW_enclosed_mass realFnsC8 pLinC8
        (calc_rvir realFnsC8 pLinC8.toHaloPars) = 12 ∧
    realFnsC8.tenPow pLinC8.mvirial = 1000 ∧ (12 : ℚ) ≠ 1000 := by
  refine ⟨?_, by norm_num [realFnsC8, pLinC8, haloParsC8], by norm_num⟩
  have h := LinearNFW_enclosed_mass_rvir realFnsC8 pLinC8
    (by norm_num [calc_rvir, realFnsC8])
    (by norm_num [pLinC8, haloParsC8])
    (by norm_num [realFnsC8])
    (by norm_num [pLinC8, haloParsC8, realFnsC8])
  simpa [pLinC8, haloParsC8] using h

/-- TwoPowerHalo parameters for the C8 witness. -/
def pTwoC8 : TwoPowerPars := ⟨haloParsC8, 4, 1, 3⟩

/-- Burkert parameters for the C8 witness. -/
def pBurC8 : BurkertPars := ⟨haloParsC8, 1⟩

/-- Einasto parameters for the C8 witness. -/
def pEinC8 : EinastoPars := ⟨haloParsC8, 4, 2⟩

/-- DekelZhao parameters for the C8 witness. -/
def pDekC8 : DekelZhaoPars := ⟨haloParsC8, 1, 4⟩

/-- Witness for C8 (amended) at the concrete oracle and parameters. -/
theorem halo_enclosed_mass_rvir_roundtrip_witness :
    (calc_rvir realFnsC8 pLinC8.toHaloPars) ^ 3 =
      realFnsC8.tenPow pLinC8.mvirial * (pLinC8.gNewUnit * (1 / 1000)) /
        (10 * pLinC8.hz * (1 / 1000)) ^ 2 ∧
    NFW_enclosed_mass realFnsC8 pLinC8 (calc_rvir realFnsC8 pLinC8.toHaloPars) =
      realFnsC8.tenPow pLinC8.mvirial ∧
    TwoPowerHalo_enclosed_mass realFnsC8 pTwoC8
        (calc_rvir realFnsC8 pTwoC8.toHaloPars) =
      realFnsC8.tenPow pTwoC8.mvirial ∧
    Burkert_enclosed_mass realFnsC8 pBurC8
        (calc_rvir realFnsC8 pBurC8.toHaloPars) =
      realFnsC8.tenPow pBurC8.mvirial ∧
    Einasto_enclosed_mass realFnsC8 pEinC8
        (calc_rvir realFnsC8 pEinC8.toHaloPars) =
      realFnsC8.tenPow pEinC8.mvirial ∧
    DekelZhao_enclosed_mass realFnsC8 pDekC8
        (calc_rvir realFnsC8 pDekC8.toHaloPars) =
      realFnsC8.tenPow pDekC8.mvirial ∧
    LinearNFW_enclosed_mass realFnsC8 pLinC8
        (calc_rvir realFnsC8 pLinC8.toHaloPars) = pLinC8.mvirial :=
  halo_enclosed_mass_rvir_roundtrip realFnsC8 pLinC8 pTwoC8 pBurC8 pEinC8
    pDekC8 pLinC8
    (by norm_num [realFnsC8, pLinC8, haloParsC8])
    (by norm_num [calc_rvir, realFnsC8])
    (by norm_num [pLinC8, haloParsC8])
    (by norm_num [realFnsC8])
    (by norm_num [pLinC8, haloParsC8, realFnsC8])
    (by norm_num [calc_rvir, realFnsC8])
    (by norm_num [pTwoC8, haloParsC8, realFnsC8])
    (by norm_num [realFnsC8])
    (by norm_num [Burkert_I, calc_rvir, realFnsC8, pBurC8, haloParsC8])
    (by norm_num [calc_rvir, realFnsC8])
    (by norm_num [pEinC8, haloParsC8])
    (by norm_num [realFnsC8])
    (by norm_num [calc_rvir, realFnsC8, pEinC8, haloParsC8])
    (by norm_num [realFnsC8])
    (by norm_num [calc_rvir, realFnsC8])
    (by norm_num [DekelZhao_calc_a_c, realFnsC8, pDekC8, haloParsC8])
    (by norm_num [DekelZhao_calc_a_c, realFnsC8, pDekC8, haloParsC8])
    (by norm_num [calc_rvir, realFnsC8])
    (by norm_num [pLinC8, haloParsC8])
    (by norm_num [realFnsC8])
    (by norm_num [pLinC8, haloParsC8, realFnsC8])

/-! ## ModelSet.simulate_cube: grid dimensions, spectral axis, and the
geometry-shift bookkeeping (models.py lines 1913-2304) -/

/-- The oversampled grid dimensions of `simulate_cube` (models.py lines
1935-1943): `n{x,y}_sky_samp = n{x,y}_sky * oversample * oversize`, each
incremented by one when the base size is odd and `oversize` is even and
greater than one. -/
def simulate_cube_dims (nx_sky ny_sky oversample oversize : ℕ) : ℕ × ℕ :=
  let nx_sky_samp := nx_sky * oversample * oversize
  let ny_sky_samp := ny_sky * oversample * oversize
  let nx_sky_samp := if nx_sky % 2 = 1 ∧ oversize % 2 = 0 ∧ oversize > 1 then
    nx_sky_samp + 1 else nx_sky_samp
  let ny_sky_samp := if ny_sky % 2 = 1 ∧ oversize % 2 = 0 ∧ oversize > 1 then
    ny_sky_samp + 1 else ny_sky_samp
  (nx_sky_samp, ny_sky_samp)

/-- The returned spectral axis `spec = np.arange(nspec) * spec_step +
spec_start` (models.py line 1956). -/
def simulate_cube_spec (spec_start spec_step : ℚ) (nspec : ℕ) : List ℚ :=
  (List.range nspec).map fun i : ℕ => (i : ℚ) * spec_step + spec_start

/-- Shape of the returned cube: `cube_final = np.zeros((nspec, ny_sky_samp,
nx_sky_samp))` (models.py line 1967); every later contribution is added
with `+=` of an equal-shape array (or indexed assignment), so the returned
cube keeps this shape `(spectral, y, x)`. -/
def simulate_cube_shape (nx_sky ny_sky oversample oversize nspec : ℕ) :
    ℕ × ℕ × ℕ :=
  (nspec, (simulate_cube_dims nx_sky ny_sky oversample oversize).2,
   (simulate_cube_dims nx_sky ny_sky oversample oversize).1)

/-- Galaxy-geometry shift bookkeeping of `simulate_cube`: when mass
components are present, the stored shifts are scaled by `oversample` on
entry to the mass-component block (models.py lines 1999-2000 for `direct`,
2012-2013 for `rotate`) and divided by `oversample` again at the end of the
block (lines 2176-2177); with no mass components the block is skipped. -/
def simulate_cube_geom_shifts (xshift yshift : ℚ) (oversample : ℕ)
    (hasMassComponents : Bool) : ℚ × ℚ :=
  if hasMassComponents then
    (xshift * (oversample : ℚ) / (oversample : ℚ),
     yshift * (oversample : ℚ) / (oversample : ℚ))
  else (xshift, yshift)

/-- C9: with `oversample = 1` and `oversize = 1`, `simulate_cube` returns a
cube of shape `(nspec, ny_sky, nx_sky)` and a spectral axis whose `i`-th
element is `spec_start + i * spec_step`; in particular shape
`(101, 50, 50)` for the `nspec = 101`, `nx_sky = ny_sky = 50` scenario. -/
theorem simulate_cube_shape_and_spec (nx_sky ny_sky nspec : ℕ)
    (spec_start spec_step : ℚ) :
    simulate_cube_shape nx_sky ny_sky 1 1 nspec = (nspec, ny_sky, nx_sky) ∧
    (simulate_cube_spec spec_start spec_step nspec).length = nspec ∧
    (∀ i, i < nspec →
      (simulate_cube_spec spec_start spec_step nspec).getD i 0 =
        spec_start + (i : ℚ) * spec_step) ∧
    simulate_cube_shape 50 50 1 1 101 = (101, 50, 50) := by
  refine ⟨?_, ?_, ?_, by norm_num [simulate_cube_shape, simulate_cube_dims]⟩
  · simp [simulate_cube_shape, simulate_cube_dims]
  · rw [simulate_cube_spec, List.length_map, List.length_range]
  · intro i hi
    rw [simulate_cube_spec, List.getD_eq_getElem _ _
      (by rw [List.length_map, List.length_range]; exact hi)]
    rw [List.getElem_map, List.getElem_range]
    ring

/-- Witness for C9 at the spec's end-to-end scenario (`nspec = 101`,
`spec_start = -500`, `spec_step = 10`), with the axis checked at channel 3. -/
theorem simulate_cube_shape_and_spec_witness :
    simulate_cube_shape 50 50 1 1 101 = (101, 50, 50) ∧
    (simulate_cube_spec (-500) 10 101).length = 101 ∧
    (simulate_cube_spec (-500) 10 101).getD 3 0 = -500 + ((3 : ℕ) : ℚ) * 10 :=
  ⟨(simulate_cube_shape_and_spec 50 50 101 (-500) 10).1,
   (simulate_cube_shape_and_spec 50 50 101 (-500) 10).2.1,
   (simulate_cube_shape_and_spec 50 50 101 (-500) 10).2.2.1 3 (by norm_num)⟩

/-- C10: a successful `simulate_cube` call restores the galaxy geometry's
`xshift` and `yshift` to their pre-call values before returning (exactly,
in exact arithmetic: the temporary scaling by `oversample` is inverted by
the final division). -/
theorem simulate_cube_geom_shifts_restored (xshift yshift : ℚ)
    (oversample : ℕ) (hasMassComponents : Bool) (h : 1 ≤ oversample) :
    simulate_cube_geom_shifts xshift yshift oversample hasMassComponents =
      (xshift, yshift) := by
  have ho : (oversample : ℚ) ≠ 0 := by
    simpa using Nat.cast_ne_zero.mpr (Nat.one_le_iff_ne_zero.mp h)
  cases hasMassComponents <;>
    simp [simulate_cube_geom_shifts, mul_div_assoc, div_self ho]

/-- Witness for C10 at concrete shifts and oversample factor 3. -/
theorem simulate_cube_geom_shifts_restored_witness :
    simulate_cube_geom_shifts (3 / 2) (-7) 3 true = (3 / 2, -7) :=
  simulate_cube_geom_shifts_restored (3 / 2) (-7) 3 true (by norm_num)

/-! ## ModelSet parameter bookkeeping (models.py lines 890-1282)

Python keys the per-component dictionaries (`fixed`, `tied`, `_param_keys`)
by parameter name; the parameter names of a component are distinct
attributes, so the embedding stores them as lists aligned with
`param_names`.  A tied entry is `False` or a callable receiving the whole
`ModelSet`; the callable's observable input is the model's mutable
parameter state, embedded as the concatenated parameter vector.  Operations
that raise in Python (`KeyError`, `ValueError`, numpy `IndexError`) return
`none`. -/

/-- A tied-parameter function (`function(ModelSet) -> float`), reading the
concatenated parameter vector. -/
def TiedFn : Type := List ℚ → ℚ

/-- One model component as the `ModelSet` bookkeeping sees it. -/
structure DysmalComponent where
  name : String
  param_names : List String
  values : List ℚ
  fixed : List Bool
  tied : List (Option TiedFn)

/-- `ntied` of `_add_comp`: the number of truthy `tied` entries. -/
def DysmalComponent.ntied (c : DysmalComponent) : ℕ :=
  (c.tied.filter Option.isSome).length

/-- `sum(model.fixed.values())` of `_add_comp`. -/
def DysmalComponent.nfixed (c : DysmalComponent) : ℕ :=
  c.fixed.count true

/-- The `ModelSet` bookkeeping state: the ordered component dictionary, the
concatenated parameter vector, `_param_keys` (name to list of global
indices, aligned with `param_names`), and the three counters.
`nparams_free` is an integer: `set_parameter_fixed` decrements it without
any guard, so it can go negative. -/
structure ModelSet where
  components : List DysmalComponent
  parameters : List ℚ
  param_keys : List (String × List ℕ)
  nparams : ℕ
  nparams_free : ℤ
  nparams_tied : ℕ

/-- A freshly constructed `ModelSet` (components empty, `parameters =
None` standing for the empty vector). -/
def ModelSet.empty : ModelSet := ⟨[], [], [], 0, 0, 0⟩

/-- Python-dict insertion for the component dictionary: overwrite in place
if the key exists (keeping its position), else append. -/
def dictInsertComp (l : List DysmalComponent) (c : DysmalComponent) :
    List DysmalComponent :=
  if l.any fun c0 => c0.name = c.name then
    l.map fun c0 => if c0.name = c.name then c else c0
  else l ++ [c]

/-- Python-dict insertion for `_param_keys`. -/
def dictInsertKeys (l : List (String × List ℕ)) (e : String × List ℕ) :
    List (String × List ℕ) :=
  if l.any fun p => p.1 = e.1 then l.map fun p => if p.1 = e.1 then e else p
  else l ++ [e]

/-- `ModelSet._add_comp` (models.py lines 1075-1113): append the component,
concatenate its parameter array, record the global indices
`i + self.nparams`, and update the three counters
(`nparams_free += len - nfixed - ntied`). -/
def ModelSet._add_comp (ms : ModelSet) (model : DysmalComponent) : ModelSet :=
  { components := dictInsertComp ms.components model
    parameters := ms.parameters ++ model.values
    param_keys := dictInsertKeys ms.param_keys
      (model.name, (List.range model.param_names.length).map fun i => i + ms.nparams)
    nparams := ms.nparams + model.param_names.length
    nparams_free := ms.nparams_free + (model.param_names.length : ℤ) -
      (model.nfixed : ℤ) - (model.ntied : ℤ)
    nparams_tied := ms.nparams_tied + model.ntied }

/-- `self.components[model_name]` (raising `KeyError` when absent). -/
def ModelSet.findComp (ms : ModelSet) (name : String) :
    Option DysmalComponent :=
  ms.components.find? fun c => c.name = name

/-- `self._param_keys[model_name]`. -/
def ModelSet.findKeys (ms : ModelSet) (name : String) : Option (List ℕ) :=
  (ms.param_keys.find? fun p => p.1 = name).map Prod.snd

/-- The body of `ModelSet.set_parameter_value` (models.py lines 1115-1142)
without the trailing tied-parameter update: look up the component
(`KeyError`), the parameter index (`ValueError`), set the component's own
copy and the slot `_param_keys[model_name][param_name]` of the concatenated
vector (numpy `IndexError` when out of range). -/
def ModelSet.setParamValueRaw (ms : ModelSet) (model_name param_name : String)
    (value : ℚ) : Option ModelSet :=
  match ms.findComp model_name with
  | none => none
  | some comp =>
    match comp.param_names.findIdx? fun pn => pn = param_name with
    | none => none
    | some i =>
      match ms.findKeys model_name with
      | none => none
      | some ks =>
        match ks[i]? with
        | none => none
        | some gi =>
          if gi < ms.parameters.length then
            some { ms with
              components := ms.components.map fun c =>
                if c.name = model_name then
                  { c with values := c.values.set i value } else c
              parameters := ms.parameters.set gi value }
          else none

/-- The iteration schedule of `_update_tied_parameters` (models.py lines
1214-1228): `for cmp in self.tied: for pp in self.tied[cmp]: if
self.tied[cmp][pp]`.  The loop mutates only parameter values, never the
dictionaries themselves, so the schedule can be read off the entry state. -/
def ModelSet.tiedSchedule (ms : ModelSet) : List (String × String × TiedFn) :=
  ms.components.flatMap fun c =>
    (c.param_names.zip c.tied).filterMap fun pt =>
      match pt.2 with
      | some f => some (c.name, pt.1, f)
      | none => none

/-- `ModelSet._update_tied_parameters` (models.py lines 1214-1228): when any
tied parameters exist, each tied entry's function is applied to the current
state and the result stored via `set_parameter_value(...,
skip_updated_tied=True)`. -/
def ModelSet._update_tied_parameters (ms : ModelSet) : Option ModelSet :=
  if ms.nparams_tied > 0 then
    ms.tiedSchedule.foldlM
      (fun acc e => acc.setParamValueRaw e.1 e.2.1 (e.2.2 acc.parameters)) ms
  else some ms

/-- `ModelSet.set_parameter_value` (models.py lines 1115-1146). -/
def ModelSet.set_parameter_value (ms : ModelSet)
    (model_name param_name : String) (value : ℚ)
    (skip_updated_tied : Bool) : Option ModelSet :=
  match ms.setParamValueRaw model_name param_name value with
  | none => none
  | some ms1 => if skip_updated_tied then some ms1
    else ms1._update_tied_parameters

/-- `ModelSet.set_parameter_fixed` (models.py lines 1148-1180): set the flag
on the component (and the aliased ModelSet dictionary) and unconditionally
decrement or increment `nparams_free`. -/
def ModelSet.set_parameter_fixed (ms : ModelSet)
    (model_name param_name : String) (fix : Bool) : Option ModelSet :=
  match ms.findComp model_name with
  | none => none
  | some comp =>
    match comp.param_names.findIdx? fun pn => pn = param_name with
    | none => none
    | some i =>
      some { ms with
        components := ms.components.map fun c =>
          if c.name = model_name then
            { c with fixed := c.fixed.set i fix } else c
        nparams_free := if fix then ms.nparams_free - 1
          else ms.nparams_free + 1 }

/-- The per-parameter iteration records of one component: `(name, fixed
flag, tied entry)` in parameter order. -/
def DysmalComponent.paramTriples (c : DysmalComponent) :
    List (String × Bool × Option TiedFn) :=
  c.param_names.zip (c.fixed.zip c.tied)

/-- Inner loop of `_get_free_parameters` over one component's parameters:
`idx` is the position within the component (the `_param_keys` lookup),
`j` the running free index.  Free parameters contribute their current
concatenated-vector value and their index `j`; fixed-or-tied ones get key
`-99`. -/
def gfpCompAux (params : List ℚ) (ks : List ℕ) :
    ℕ → List (String × Bool × Option TiedFn) → ℕ →
    Option (List ℚ × List (String × ℤ) × ℕ)
  | _, [], j => some ([], [], j)
  | idx, t :: rest, j =>
    if t.2.1 = true ∨ (t.2.2).isSome then
      match gfpCompAux params ks (idx + 1) rest j with
      | none => none
      | some (vals, keys, jf) => some (vals, (t.1, (-99 : ℤ)) :: keys, jf)
    else
      match ks[idx]? with
      | none => none
      | some gi =>
        if h : gi < params.length then
          match gfpCompAux params ks (idx + 1) rest (j + 1) with
          | none => none
          | some (vals, keys, jf) =>
            some (params[gi] :: vals, (t.1, (j : ℤ)) :: keys, jf)
        else none

/-- Outer loop of `_get_free_parameters` over the component dictionary in
insertion order. -/
def gfpComps (ms : ModelSet) :
    List DysmalComponent → ℕ →
    Option (List ℚ × List (String × List (String × ℤ)) × ℕ)
  | [], j => some ([], [], j)
  | c :: rest, j =>
    match ms.findKeys c.name with
    | none => none
    | some ks =>
      match gfpCompAux ms.parameters ks 0 c.paramTriples j with
      | none => none
      | some (vals, keys, j1) =>
        match gfpComps ms rest j1 with
        | none => none
        | some (vals2, keys2, j2) =>
          some (vals ++ vals2, (c.name, keys) :: keys2, j2)

/-- `ModelSet._get_free_parameters` (models.py lines 1232-1257): the free
values are written into `p = np.zeros(self.nparams_free)` (a negative size
or a write past the end raises; unwritten trailing entries stay zero), and
the key dictionary records each free parameter's index or `-99`. -/
def ModelSet._get_free_parameters (ms : ModelSet) :
    Option (List ℚ × List (String × List (String × ℤ))) :=
  if ms.nparams_free < 0 then none
  else
    match gfpComps ms ms.components 0 with
    | none => none
    | some (vals, keys, _) =>
      if vals.length ≤ ms.nparams_free.toNat then
        some (vals ++ List.replicate (ms.nparams_free.toNat - vals.length) 0,
          keys)
      else none

/-- `ModelSet.get_free_parameters_values` (models.py lines 1259-1269). -/
def ModelSet.get_free_parameters_values (ms : ModelSet) : Option (List ℚ) :=
  ms._get_free_parameters.map Prod.fst

/-- `ModelSet.get_free_parameter_keys` (models.py lines 1271-1282). -/
def ModelSet.get_free_parameter_keys (ms : ModelSet) :
    Option (List (String × List (String × ℤ))) :=
  ms._get_free_parameters.map Prod.snd

/-- Inner assignment loop of `update_parameters` for one component:
`for pp in pfree_keys[cmp]: if ind != -99: set_parameter_value(cmp, pp,
theta[ind], skip_updated_tied=True)`. -/
def applyFreeEntries (theta : List ℚ) (cname : String) :
    ModelSet → List (String × ℤ) → Option ModelSet
  | ms, [] => some ms
  | ms, e :: rest =>
    if e.2 ≠ -99 then
      match ms.setParamValueRaw cname e.1 (theta.getD e.2.toNat 0) with
      | none => none
      | some ms1 => applyFreeEntries theta cname ms1 rest
    else applyFreeEntries theta cname ms rest

/-- Outer assignment loop of `update_parameters` over `pfree_keys`. -/
def applyFreeKeys (theta : List ℚ) :
    ModelSet → List (String × List (String × ℤ)) → Option ModelSet
  | ms, [] => some ms
  | ms, e :: rest =>
    match applyFreeEntries theta e.1 ms e.2 with
    | none => none
    | some ms1 => applyFreeKeys theta ms1 rest

/-- `ModelSet.update_parameters` (models.py lines 1182-1211): reject a
`theta` whose length differs from `nparams_free`, assign every free
parameter following the `_get_free_parameters` key order, then resolve the
tied parameters once. -/
def ModelSet.update_parameters (ms : ModelSet) (theta : List ℚ) :
    Option ModelSet :=
  if (theta.length : ℤ) ≠ ms.nparams_free then none
  else
    match ms._get_free_parameters with
    | none => none
    | some pk =>
      match applyFreeKeys theta ms pk.2 with
      | none => none
      | some ms1 => ms1._update_tied_parameters

/-! ### ModelSet wellformedness

The bookkeeping invariants that hold of every state reachable through the
construction/mutation API, and a flat (slot-indexed) view of the parameter
vector used to state and prove the round-trip theorems. -/

/-- Total number of parameter slots of a component list. -/
def totalLen (l : List DysmalComponent) : ℕ :=
  (l.map fun c => c.param_names.length).sum

/-- The positional `_param_keys` of a component list laid out from global
offset `n`: component `k` gets indices `offset k + 0, ..., offset k +
len-1` exactly as `_add_comp` records them. -/
def offsetsFrom (n : ℕ) : List DysmalComponent → List (String × List ℕ)
  | [] => []
  | c :: rest =>
    (c.name, (List.range c.param_names.length).map fun i => i + n) ::
      offsetsFrom (n + c.param_names.length) rest

/-- Number of free (neither fixed nor tied) parameters of a component. -/
def DysmalComponent.freeCount (c : DysmalComponent) : ℕ :=
  (c.fixed.zip c.tied).countP fun ft => !ft.1 && !ft.2.isSome

/-- Total free-slot count of a component list. -/
def freeCountTotal (l : List DysmalComponent) : ℕ :=
  (l.map DysmalComponent.freeCount).sum

/-- Total tied-slot count of a component list. -/
def tiedCountTotal (l : List DysmalComponent) : ℕ :=
  (l.map DysmalComponent.ntied).sum

/-- Aligned lengths and distinct parameter names of one component (true of
every astropy model: the parameter arrays parallel `param_names`, which
are distinct attribute names). -/
structure DysmalComponent.CWF (c : DysmalComponent) : Prop where
  values_len : c.values.length = c.param_names.length
  fixed_len : c.fixed.length = c.param_names.length
  tied_len : c.tied.length = c.param_names.length
  nodup : c.param_names.Nodup

/-- Bookkeeping consistency of a `ModelSet`. -/
structure ModelSet.WF (ms : ModelSet) : Prop where
  comps : ∀ c ∈ ms.components, c.CWF
  names : (ms.components.map DysmalComponent.name).Nodup
  keys : ms.param_keys = offsetsFrom 0 ms.components
  params_len : ms.parameters.length = totalLen ms.components
  free_eq : ms.nparams_free = (freeCountTotal ms.components : ℤ)

/-- The parameter vector and each component's own parameter array agree
(kept in lock-step on every mutation). -/
def ModelSet.LockStep (ms : ModelSet) : Prop :=
  ms.parameters = ms.components.flatMap DysmalComponent.values

/-- The free-slot mask of a component's parameters, in order. -/
def DysmalComponent.freeMask (c : DysmalComponent) : List Bool :=
  (c.fixed.zip c.tied).map fun ft => !ft.1 && !ft.2.isSome

/-- The free-slot mask of the whole concatenated parameter vector. -/
def ModelSet.freeMask (ms : ModelSet) : List Bool :=
  ms.components.flatMap DysmalComponent.freeMask

/-- Scatter: replace the values at the `true` positions of `mask` by the
elements of `theta`, in order, leaving other positions as in the base
list. -/
def maskScatter : List Bool → List ℚ → List ℚ → List ℚ
  | m :: mrest, b :: brest, theta =>
    if m then
      match theta with
      | [] => b :: maskScatter mrest brest []
      | t :: trest => t :: maskScatter mrest brest trest
    else b :: maskScatter mrest brest theta
  | _, bs, _ => bs

theorem maskScatter_length (m : List Bool) (b theta : List ℚ) :
    (maskScatter m b theta).length = b.length := by
  induction m generalizing b theta with
  | nil => rfl
  | cons x mrest ih =>
    cases b with
    | nil => rfl
    | cons b0 brest =>
      by_cases hx : x = true
      · subst hx
        cases theta <;> simp [maskScatter, ih]
      · simp at hx
        subst hx
        simp [maskScatter, ih]

theorem selectMask_length (m : List Bool) (b : List ℚ)
    (hb : b.length = m.length) :
    (selectMask m b).length = m.count true := by
  induction m generalizing b with
  | nil => cases b <;> simp [selectMask]
  | cons x mrest ih =>
    cases b with
    | nil => simp at hb
    | cons b0 brest =>
      cases x <;>
        simp_all [selectMask, List.count_cons, ih brest (by simpa using hb)]

theorem selectMask_maskScatter (m : List Bool) (b theta : List ℚ)
    (hb : b.length = m.length) (ht : theta.length = m.count true) :
    selectMask m (maskScatter m b theta) = theta := by
  induction m generalizing b theta with
  | nil =>
    cases b <;> cases theta <;> simp_all [selectMask, maskScatter]
  | cons x mrest ih =>
    cases b with
    | nil => simp at hb
    | cons b0 brest =>
      cases x with
      | false =>
        simp only [List.count_cons, cond_false] at ht
        simpa [maskScatter, selectMask] using
          ih brest theta (by simpa using hb) (by simpa using ht)
      | true =>
        simp only [List.count_cons] at ht
        cases theta with
        | nil => simp at ht
        | cons t trest =>
          simpa [maskScatter, selectMask] using
            ih brest trest (by simpa using hb) (by simpa using ht)

theorem selectMask_cons (x : Bool) (m : List Bool) (b : ℚ) (bs : List ℚ) :
    selectMask (x :: m) (b :: bs) =
      if x then b :: selectMask m bs else selectMask m bs := by
  cases x <;> simp [selectMask]

/-- Writes at positions where the mask is `false` do not change the
selection. -/
theorem selectMask_set_of_not_mask (m : List Bool) (b : List ℚ) (g : ℕ)
    (v : ℚ) (hg : m.getD g false = false) :
    selectMask m (b.set g v) = selectMask m b := by
  induction m generalizing b g with
  | nil => cases b <;> simp [selectMask]
  | cons x mrest ih =>
    cases b with
    | nil => simp
    | cons b0 brest =>
      cases g with
      | zero =>
        simp only [List.getD_cons_zero] at hg
        subst hg
        simp [selectMask_cons, List.set]
      | succ g0 =>
        simp only [List.getD_cons_succ] at hg
        simp only [List.set]
        rw [selectMask_cons, selectMask_cons, ih brest g0 hg]

theorem selectMask_append (m1 m2 : List Bool) (b1 b2 : List ℚ)
    (h : b1.length = m1.length) :
    selectMask (m1 ++ m2) (b1 ++ b2) = selectMask m1 b1 ++ selectMask m2 b2 := by
  induction m1 generalizing b1 with
  | nil => cases b1 <;> simp_all [selectMask]
  | cons x mrest ih =>
    cases b1 with
    | nil => simp at h
    | cons b0 brest =>
      cases x <;> simp_all [selectMask, ih brest]

theorem set_append_right (pre suf : List ℚ) (i : ℕ) (v : ℚ) :
    (pre ++ suf).set (pre.length + i) v = pre ++ suf.set i v := by
  induction pre with
  | nil => simp
  | cons p ps ih => simp [List.set, Nat.succ_add, ih]

/-! ### Structure view and lookup resolution

Mutating operations touch only parameter values; the `strip` view (name,
parameter names, fixed flags, tied entries) is invariant, and all masks,
schedules and key tables factor through it. -/

/-- Everything of a component except its parameter values. -/
def DysmalComponent.strip (c : DysmalComponent) :
    String × List String × List Bool × List (Option TiedFn) :=
  (c.name, c.param_names, c.fixed, c.tied)

theorem strip_name {a b : DysmalComponent} (h : a.strip = b.strip) :
    a.name = b.name := congrArg (fun s => s.1) h

theorem strip_param_names {a b : DysmalComponent} (h : a.strip = b.strip) :
    a.param_names = b.param_names := congrArg (fun s => s.2.1) h

theorem strip_fixed {a b : DysmalComponent} (h : a.strip = b.strip) :
    a.fixed = b.fixed := congrArg (fun s => s.2.2.1) h

theorem strip_tied {a b : DysmalComponent} (h : a.strip = b.strip) :
    a.tied = b.tied := congrArg (fun s => s.2.2.2) h

theorem strip_freeMask {a b : DysmalComponent} (h : a.strip = b.strip) :
    a.freeMask = b.freeMask := by
  unfold DysmalComponent.freeMask
  rw [strip_fixed h, strip_tied h]

/-- `find?` on a component list resolves, up to `strip`, like on any
strip-equal list whose prefix avoids the name. -/
theorem find?_strip_eq (C L1 L2 : List DysmalComponent) (c : DysmalComponent)
    (h : C.map DysmalComponent.strip =
      (L1 ++ c :: L2).map DysmalComponent.strip)
    (hf : ∀ c0 ∈ L1, c0.name ≠ c.name) :
    ∃ c', (C.find? fun c0 => c0.name = c.name) = some c' ∧
      c'.strip = c.strip := by
  induction L1 generalizing C with
  | nil =>
    cases C with
    | nil => simp at h
    | cons c0 Crest =>
      simp only [List.map_cons, List.nil_append, List.cons.injEq] at h
      refine ⟨c0, ?_, h.1⟩
      rw [List.find?_cons_of_pos]
      simp [strip_name h.1]
  | cons d L1rest ih =>
    cases C with
    | nil => simp at h
    | cons c0 Crest =>
      simp only [List.map_cons, List.cons_append, List.cons.injEq] at h
      obtain ⟨h0, hrest⟩ := h
      obtain ⟨c', hfind, hstrip⟩ := ih Crest hrest
        (fun c0 hc0 => hf c0 (List.mem_cons_of_mem _ hc0))
      refine ⟨c', ?_, hstrip⟩
      rw [List.find?_cons_of_neg, hfind]
      have : c0.name = d.name := strip_name h0
      simp [this, hf d (List.mem_cons_self _ _)]

theorem totalLen_cons (c : DysmalComponent) (l : List DysmalComponent) :
    totalLen (c :: l) = c.param_names.length + totalLen l := by
  simp [totalLen]

/-- Lookup in the positional key table: the component after prefix `L1`
gets the indices `i + (n + totalLen L1)`. -/
theorem offsetsFrom_find (n : ℕ) (L1 L2 : List DysmalComponent)
    (c : DysmalComponent) (hf : ∀ c0 ∈ L1, c0.name ≠ c.name) :
    ((offsetsFrom n (L1 ++ c :: L2)).find? fun p => p.1 = c.name) =
      some (c.name,
        (List.range c.param_names.length).map fun i => i + (n + totalLen L1)) := by
  induction L1 generalizing n with
  | nil =>
    simp only [List.nil_append, offsetsFrom]
    rw [List.find?_cons_of_pos]
    · simp [totalLen]
    · simp
  | cons d L1rest ih =>
    simp only [List.cons_append, offsetsFrom]
    rw [List.find?_cons_of_neg]
    · simp only [List.append_eq]
      rw [ih (n + d.param_names.length)
        (fun c0 hc0 => hf c0 (List.mem_cons_of_mem _ hc0))]
      have : n + d.param_names.length + totalLen L1rest =
          n + totalLen (d :: L1rest) := by
        rw [totalLen_cons]; omega
      rw [this]
    · simp [hf d (List.mem_cons_self _ _)]

/-- `list.index(x)` on a duplicate-free list returns the position of `x`. -/
theorem findIdx?_of_nodup (names : List String) (hnd : names.Nodup) (i : ℕ)
    (h : i < names.length) :
    (names.findIdx? fun pn => pn = names[i]) = some i := by
  induction names generalizing i with
  | nil => simp at h
  | cons nm rest ih =>
    cases i with
    | zero => simp [List.findIdx?_cons]
    | succ i0 =>
      have hi0 : i0 < rest.length := by simpa using h
      have hmem : rest[i0] ∈ rest := List.getElem_mem hi0
      have hne : nm ≠ rest[i0] := by
        intro heq
        exact (List.nodup_cons.mp hnd).1 (heq ▸ hmem)
      rw [List.findIdx?_cons]
      simp only [List.getElem_cons_succ]
      rw [if_neg (by simp [hne])]
      rw [show (0 : ℕ) + 1 = 0 + 1 from rfl, List.findIdx?_succ,
        ih (List.nodup_cons.mp hnd).2 i0 hi0]
      rfl

/-- Unfolding `setParamValueRaw` when every lookup succeeds. -/
theorem setParamValueRaw_eq (ms : ModelSet) (cname pname : String) (v : ℚ)
    (c : DysmalComponent) (i gi : ℕ) (ks : List ℕ)
    (hfind : ms.findComp cname = some c)
    (hidx : (c.param_names.findIdx? fun pn => pn = pname) = some i)
    (hks : ms.findKeys cname = some ks)
    (hgi : ks[i]? = some gi)
    (hlt : gi < ms.parameters.length) :
    ms.setParamValueRaw cname pname v = some { ms with
      components := ms.components.map fun c0 =>
        if c0.name = cname then { c0 with values := c0.values.set i v } else c0
      parameters := ms.parameters.set gi v } := by
  simp only [ModelSet.setParamValueRaw, hfind, hidx, hks, hgi]
  rw [if_pos hlt]

/-- In a duplicate-free component list, names in the prefix differ from the
split-out component's name. -/
theorem names_fresh_of_nodup (L1 L2 : List DysmalComponent)
    (c : DysmalComponent)
    (h : ((L1 ++ c :: L2).map DysmalComponent.name).Nodup) :
    ∀ c0 ∈ L1, c0.name ≠ c.name := by
  intro c0 hc0
  rw [List.map_append] at h
  have hdisj := List.disjoint_of_nodup_append h
  intro heq
  exact hdisj (List.mem_map_of_mem _ hc0) (by simp [heq])

/-- `findKeys` of a current state sharing the original `_param_keys`
resolves to the positional indices of the named component. -/
theorem findKeys_resolve (msC ms : ModelSet) (hwf : ms.WF)
    (L1 L2 : List DysmalComponent) (c : DysmalComponent)
    (hsplit : ms.components = L1 ++ c :: L2)
    (hkeys : msC.param_keys = ms.param_keys) :
    msC.findKeys c.name =
      some ((List.range c.param_names.length).map fun i => i + totalLen L1) := by
  have hfresh : ∀ c0 ∈ L1, c0.name ≠ c.name :=
    names_fresh_of_nodup L1 L2 c (by rw [← hsplit]; exact hwf.names)
  unfold ModelSet.findKeys
  rw [hkeys, hwf.keys, hsplit, offsetsFrom_find 0 L1 L2 c hfresh]
  simp

theorem range_map_getElem? (n off i : ℕ) (h : i < n) :
    ((List.range n).map fun k => k + off)[i]? = some (i + off) := by
  simp [List.getElem?_map, List.getElem?_range, h]

theorem getElem?_append_middle (pre : List ℚ) (x : ℚ) (post : List ℚ) :
    (pre ++ x :: post)[pre.length]? = some x := by
  rw [List.getElem?_append_right (le_refl _)]
  simp

/-! ### Closed forms for `_get_free_parameters` -/

/-- The free/not-free mask of a triple list. -/
def maskTriples (ts : List (String × Bool × Option TiedFn)) : List Bool :=
  ts.map fun t => !t.2.1 && !t.2.2.isSome

/-- The free count of a triple list. -/
def countFreeT (ts : List (String × Bool × Option TiedFn)) : ℕ :=
  ts.countP fun t => !t.2.1 && !t.2.2.isSome

/-- Closed form of the inner key assignment of `_get_free_parameters`. -/
def freeKeysCompSpec : List (String × Bool × Option TiedFn) → ℕ →
    List (String × ℤ)
  | [], _ => []
  | t :: ts, j =>
    if t.2.1 = true ∨ (t.2.2).isSome then
      (t.1, (-99 : ℤ)) :: freeKeysCompSpec ts j
    else
      (t.1, (j : ℤ)) :: freeKeysCompSpec ts (j + 1)

/-- Closed form of the `_get_free_parameters` key dictionary: components in
insertion order, consecutive indices for free parameters, `-99` otherwise. -/
def freeKeysSpec : List DysmalComponent → ℕ →
    List (String × List (String × ℤ))
  | [], _ => []
  | c :: rest, j =>
    (c.name, freeKeysCompSpec c.paramTriples j) ::
      freeKeysSpec rest (j + c.freeCount)

theorem gfpCompAux_spec (post : List ℚ) (ks : List ℕ) (lenc off : ℕ)
    (hks : ks = (List.range lenc).map fun k => k + off) :
    ∀ (ts : List (String × Bool × Option TiedFn)) (idx : ℕ)
      (pre seg : List ℚ) (j : ℕ),
    pre.length = off + idx → seg.length = ts.length →
    idx + ts.length ≤ lenc →
    gfpCompAux (pre ++ seg ++ post) ks idx ts j =
      some (selectMask (maskTriples ts) seg, freeKeysCompSpec ts j,
        j + countFreeT ts) := by
  intro ts
  induction ts with
  | nil =>
    intro idx pre seg j hpre hseg hbound
    rw [List.length_nil] at hseg
    rw [List.eq_nil_of_length_eq_zero hseg]
    simp [gfpCompAux, maskTriples, freeKeysCompSpec, countFreeT, selectMask]
  | cons t ts ih =>
    intro idx pre seg j hpre hseg hbound
    cases seg with
    | nil => simp at hseg
    | cons s0 seg1 =>
      have hidxlt : idx < lenc := by
        simp only [List.length_cons] at hbound; omega
      have hkidx : ks[idx]? = some (idx + off) := by
        rw [hks]; exact range_map_getElem? lenc off idx hidxlt
      have hseg1 : seg1.length = ts.length := by simpa using hseg
      have hbound1 : (idx + 1) + ts.length ≤ lenc := by
        simp only [List.length_cons] at hbound; omega
      have hassoc : pre ++ (s0 :: seg1) ++ post =
          (pre ++ [s0]) ++ seg1 ++ post := by simp
      have hpre1 : (pre ++ [s0]).length = off + (idx + 1) := by
        simp [hpre]; omega
      by_cases hfree : t.2.1 = true ∨ (t.2.2).isSome
      · have hnf : (!t.2.1 && !(t.2.2).isSome) = false := by
          rcases hfree with h | h
          · simp [h]
          · rcases ht : t.2.2 with _ | f
            · rw [ht] at h; simp at h
            · simp [ht]
        have hmt : maskTriples (t :: ts) = false :: maskTriples ts := by
          simp only [maskTriples, List.map_cons]
          rw [hnf]
        have hcf : countFreeT (t :: ts) = countFreeT ts := by
          simp only [countFreeT, List.countP_cons]
          rw [hnf]
          simp [countFreeT]
        simp only [gfpCompAux, if_pos hfree]
        rw [hassoc, ih (idx + 1) (pre ++ [s0]) seg1 j hpre1 hseg1 hbound1]
        rw [hmt, hcf, selectMask_cons]
        simp [freeKeysCompSpec, if_pos hfree]
      · have hgilt : idx + off < (pre ++ (s0 :: seg1) ++ post).length := by
          simp [hpre]; omega
        have hread : (pre ++ (s0 :: seg1) ++ post)[idx + off] = s0 := by
          have h1 : (pre ++ (s0 :: (seg1 ++ post)))[pre.length]? = some s0 :=
            getElem?_append_middle pre s0 (seg1 ++ post)
          have h2 : (pre ++ (s0 :: seg1) ++ post)[idx + off]? = some s0 := by
            rw [show pre ++ (s0 :: seg1) ++ post =
              pre ++ (s0 :: (seg1 ++ post)) by simp, show idx + off =
              pre.length by omega]
            exact h1
          rw [List.getElem?_eq_getElem hgilt] at h2
          exact Option.some.inj h2
        have ihres : gfpCompAux (pre ++ (s0 :: seg1) ++ post) ks (idx + 1) ts
            (j + 1) = some (selectMask (maskTriples ts) seg1,
              freeKeysCompSpec ts (j + 1), (j + 1) + countFreeT ts) := by
          rw [hassoc]
          exact ih (idx + 1) (pre ++ [s0]) seg1 (j + 1) hpre1 hseg1 hbound1
        have hnotfree : t.2.1 = false ∧ (t.2.2).isSome = false := by
          push_neg at hfree
          exact ⟨by simpa using hfree.1, by simpa using hfree.2⟩
        have hmt : maskTriples (t :: ts) = true :: maskTriples ts := by
          simp only [maskTriples, List.map_cons]
          rw [show (!t.2.1 && !(t.2.2).isSome) = true by
            simp [hnotfree.1, hnotfree.2]]
        have hcf : countFreeT (t :: ts) = countFreeT ts + 1 := by
          simp only [countFreeT, List.countP_cons]
          rw [show (!t.2.1 && !(t.2.2).isSome) = true by
            simp [hnotfree.1, hnotfree.2]]
          simp [countFreeT]
        simp only [gfpCompAux, if_neg hfree, hkidx]
        split
        · rw [ihres, hmt, hcf, selectMask_cons, hread]
          simp only [freeKeysCompSpec, if_neg hfree, if_true]
          rw [show j + 1 + countFreeT ts = j + (countFreeT ts + 1) by omega]
        · omega

theorem totalLen_append (a b : List DysmalComponent) :
    totalLen (a ++ b) = totalLen a + totalLen b := by
  simp [totalLen]

theorem strip_paramTriples {a b : DysmalComponent} (h : a.strip = b.strip) :
    a.paramTriples = b.paramTriples := by
  unfold DysmalComponent.paramTriples
  rw [strip_param_names h, strip_fixed h, strip_tied h]

theorem paramTriples_length (c : DysmalComponent) (hc : c.CWF) :
    c.paramTriples.length = c.param_names.length := by
  simp [DysmalComponent.paramTriples, List.length_zip, hc.fixed_len,
    hc.tied_len]

theorem maskTriples_paramTriples (c : DysmalComponent) (hc : c.CWF) :
    maskTriples c.paramTriples = c.freeMask := by
  unfold maskTriples DysmalComponent.paramTriples DysmalComponent.freeMask
  have hlen : (c.fixed.zip c.tied).length ≤ c.param_names.length := by
    simp [List.length_zip, hc.fixed_len, hc.tied_len]
  calc (c.param_names.zip (c.fixed.zip c.tied)).map
        (fun t => !t.2.1 && !t.2.2.isSome)
      = ((c.param_names.zip (c.fixed.zip c.tied)).map Prod.snd).map
        (fun ft => !ft.1 && !ft.2.isSome) := by rw [List.map_map]; rfl
    _ = (c.fixed.zip c.tied).map (fun ft => !ft.1 && !ft.2.isSome) := by
        rw [List.map_snd_zip _ _ hlen]

theorem countFreeT_paramTriples (c : DysmalComponent) (hc : c.CWF) :
    countFreeT c.paramTriples = c.freeCount := by
  unfold countFreeT DysmalComponent.paramTriples DysmalComponent.freeCount
  have hlen : (c.fixed.zip c.tied).length ≤ c.param_names.length := by
    simp [List.length_zip, hc.fixed_len, hc.tied_len]
  calc (c.param_names.zip (c.fixed.zip c.tied)).countP
        (fun t => !t.2.1 && !t.2.2.isSome)
      = ((c.param_names.zip (c.fixed.zip c.tied)).map Prod.snd).countP
        (fun ft => !ft.1 && !ft.2.isSome) := by rw [List.countP_map]; rfl
    _ = (c.fixed.zip c.tied).countP (fun ft => !ft.1 && !ft.2.isSome) := by
        rw [List.map_snd_zip _ _ hlen]

theorem freeMask_length (c : DysmalComponent) (hc : c.CWF) :
    c.freeMask.length = c.param_names.length := by
  simp [DysmalComponent.freeMask, List.length_zip, hc.fixed_len, hc.tied_len]

theorem freeCountTotal_cons (c : DysmalComponent) (l : List DysmalComponent) :
    freeCountTotal (c :: l) = c.freeCount + freeCountTotal l := by
  simp [freeCountTotal]

/-- Closed form of the outer `_get_free_parameters` loop: on any state
sharing the wellformed original's key table and parameter-vector length,
reading the (strip-equal) component suffix after prefix `L1` yields the
free values of the corresponding parameter segment, the spec keys, and the
updated free counter. -/
theorem gfpComps_spec (msC ms : ModelSet) (hwf : ms.WF)
    (hkeys : msC.param_keys = ms.param_keys)
    (hplen : msC.parameters.length = ms.parameters.length) :
    ∀ (CL2 L2 L1 : List DysmalComponent) (j : ℕ),
    ms.components = L1 ++ L2 →
    CL2.map DysmalComponent.strip = L2.map DysmalComponent.strip →
    gfpComps msC CL2 j = some
      (selectMask (L2.flatMap DysmalComponent.freeMask)
        (msC.parameters.drop (totalLen L1)),
       freeKeysSpec L2 j, j + freeCountTotal L2) := by
  intro CL2
  induction CL2 with
  | nil =>
    intro L2 L1 j hsplit hstrips
    have : L2 = [] := by
      cases L2 with
      | nil => rfl
      | cons x xs => simp at hstrips
    subst this
    simp [gfpComps, selectMask, freeKeysSpec, freeCountTotal]
  | cons c' CL2' ih =>
    intro L2 L1 j hsplit hstrips
    cases L2 with
    | nil => simp at hstrips
    | cons c L2' =>
      simp only [List.map_cons, List.cons.injEq] at hstrips
      obtain ⟨hstrip0, hstrips'⟩ := hstrips
      have hcwf : c.CWF := hwf.comps c (by rw [hsplit]; simp)
      have hname : c'.name = c.name := strip_name hstrip0
      have hkres : msC.findKeys c'.name =
          some ((List.range c.param_names.length).map
            fun i => i + totalLen L1) := by
        rw [hname]
        exact findKeys_resolve msC ms hwf L1 L2' c hsplit hkeys
      have hlen_ms : msC.parameters.length = totalLen L1 +
          (c.param_names.length + totalLen L2') := by
        rw [hplen, hwf.params_len, hsplit, totalLen_append, totalLen_cons]
      set P := msC.parameters with hP
      have hdecomp : P = P.take (totalLen L1) ++
          ((P.drop (totalLen L1)).take c.param_names.length ++
            (P.drop (totalLen L1)).drop c.param_names.length) := by
        rw [List.take_append_drop, List.take_append_drop]
      have hpre_len : (P.take (totalLen L1)).length = totalLen L1 + 0 := by
        rw [List.length_take]
        omega
      have hseg_len : ((P.drop (totalLen L1)).take c.param_names.length).length
          = c.paramTriples.length := by
        rw [paramTriples_length c hcwf, List.length_take, List.length_drop]
        omega
      have haux := gfpCompAux_spec
        ((P.drop (totalLen L1)).drop c.param_names.length)
        ((List.range c.param_names.length).map fun i => i + totalLen L1)
        c.param_names.length (totalLen L1) rfl
        c.paramTriples 0 (P.take (totalLen L1))
        ((P.drop (totalLen L1)).take c.param_names.length) j
        hpre_len hseg_len (by rw [paramTriples_length c hcwf]; omega)
      rw [List.append_assoc, ← hdecomp] at haux
      have htrip : c'.paramTriples = c.paramTriples := strip_paramTriples hstrip0
      simp only [gfpComps, hkres, htrip, haux,
        ih L2' (L1 ++ [c]) (j + countFreeT c.paramTriples) (by
          rw [hsplit]; simp) hstrips']
      have hTL : totalLen (L1 ++ [c]) = totalLen L1 + c.param_names.length := by
        rw [totalLen_append, totalLen_cons]
        simp [totalLen]
      have hdropdrop : P.drop (totalLen (L1 ++ [c])) =
          (P.drop (totalLen L1)).drop c.param_names.length := by
        rw [hTL, ← List.drop_drop]
      have hsel : selectMask ((c :: L2').flatMap DysmalComponent.freeMask)
          (P.drop (totalLen L1)) =
          selectMask (maskTriples c.paramTriples)
            ((P.drop (totalLen L1)).take c.param_names.length) ++
          selectMask (L2'.flatMap DysmalComponent.freeMask)
            (P.drop (totalLen (L1 ++ [c]))) := by
        rw [maskTriples_paramTriples c hcwf, hdropdrop]
        rw [show (c :: L2').flatMap DysmalComponent.freeMask =
          c.freeMask ++ L2'.flatMap DysmalComponent.freeMask from by simp]
        conv_lhs => rw [show P.drop (totalLen L1) =
          (P.drop (totalLen L1)).take c.param_names.length ++
          (P.drop (totalLen L1)).drop c.param_names.length from
          (List.take_append_drop _ _).symm]
        exact selectMask_append _ _ _ _ (by
          rw [List.length_take, freeMask_length c hcwf, List.length_drop]
          omega)
      rw [← hsel]
      have hcnt : countFreeT c.paramTriples = c.freeCount :=
        countFreeT_paramTriples c hcwf
      simp only [freeKeysSpec, freeCountTotal_cons, hname, hcnt, htrip]
      rw [show j + c.freeCount + freeCountTotal L2' =
        j + (c.freeCount + freeCountTotal L2') by omega]

theorem count_true_map {α : Type} (p : α → Bool) (l : List α) :
    (l.map p).count true = l.countP p := by
  induction l with
  | nil => simp
  | cons a l ih => simp [List.count_cons, List.countP_cons, ih]

theorem count_true_freeMask (C : List DysmalComponent) :
    (C.flatMap DysmalComponent.freeMask).count true = freeCountTotal C := by
  induction C with
  | nil => simp [freeCountTotal]
  | cons c rest ih =>
    rw [List.flatMap_cons, List.count_append, ih, freeCountTotal_cons]
    congr 1
    exact count_true_map _ _

theorem freeMask_total_length (C : List DysmalComponent)
    (h : ∀ c ∈ C, c.CWF) :
    (C.flatMap DysmalComponent.freeMask).length = totalLen C := by
  induction C with
  | nil => simp [totalLen]
  | cons c rest ih =>
    rw [List.flatMap_cons, List.length_append, totalLen_cons,
      freeMask_length c (h c (by simp)),
      ih fun c0 hc0 => h c0 (List.mem_cons_of_mem _ hc0)]

/-- Closed form of `_get_free_parameters` on any state agreeing with a
wellformed `ModelSet` in everything except parameter values: the free
values are the free-mask selection of the current concatenated parameter
vector, and the keys are the insertion-order index assignment. -/
theorem get_free_parameters_spec_rel (msC ms : ModelSet) (hwf : ms.WF)
    (hstrip : msC.components.map DysmalComponent.strip =
      ms.components.map DysmalComponent.strip)
    (hkeys : msC.param_keys = ms.param_keys)
    (hplen : msC.parameters.length = ms.parameters.length)
    (hfree : msC.nparams_free = ms.nparams_free) :
    msC._get_free_parameters =
      some (selectMask ms.freeMask msC.parameters,
        freeKeysSpec ms.components 0) := by
  have hcomps := gfpComps_spec msC ms hwf hkeys hplen msC.components
    ms.components [] 0 (by simp) hstrip
  have hmasklen : ms.freeMask.length = totalLen ms.components :=
    freeMask_total_length ms.components hwf.comps
  have hvalslen : (selectMask ms.freeMask msC.parameters).length =
      freeCountTotal ms.components := by
    rw [selectMask_length _ _ (by rw [hplen, hwf.params_len, hmasklen]),
      ← count_true_freeMask]
    rfl
  have htoNat : msC.nparams_free.toNat = freeCountTotal ms.components := by
    rw [hfree, hwf.free_eq]
    exact Int.toNat_natCast _
  have hlen' : (selectMask (ms.components.flatMap DysmalComponent.freeMask)
      msC.parameters).length = freeCountTotal ms.components := hvalslen
  have hnneg : ¬msC.nparams_free < 0 := by
    rw [hfree, hwf.free_eq]
    exact not_lt.mpr (Int.natCast_nonneg _)
  unfold ModelSet._get_free_parameters
  rw [if_neg hnneg]
  rw [show totalLen [] = 0 from rfl] at hcomps
  rw [List.drop_zero] at hcomps
  simp only [hcomps]
  rw [if_pos (by rw [hlen', htoNat])]
  rw [htoNat, hlen']
  simp [ModelSet.freeMask]

/-- Closed form of `_get_free_parameters` on a wellformed `ModelSet`. -/
theorem get_free_parameters_spec (ms : ModelSet) (hwf : ms.WF) :
    ms._get_free_parameters =
      some (selectMask ms.freeMask ms.parameters,
        freeKeysSpec ms.components 0) :=
  get_free_parameters_spec_rel ms ms hwf rfl rfl rfl rfl

/-! ### Closed form for the free-parameter assignment pass -/

/-- The effect of the free-parameter assignment on one component's
parameter segment: free slots receive consecutive `theta` entries from
index `j`, other slots are untouched. -/
def scatterSeg (theta : List ℚ) :
    List (String × Bool × Option TiedFn) → List ℚ → ℕ → List ℚ
  | [], seg, _ => seg
  | _ :: _, [], _ => []
  | t :: ts, s0 :: seg, j =>
    if t.2.1 = true ∨ (t.2.2).isSome then s0 :: scatterSeg theta ts seg j
    else theta.getD j 0 :: scatterSeg theta ts seg (j + 1)

theorem scatterSeg_length (theta : List ℚ)
    (ts : List (String × Bool × Option TiedFn)) (seg : List ℚ) (j : ℕ) :
    (scatterSeg theta ts seg j).length = seg.length := by
  induction ts generalizing seg j with
  | nil => rfl
  | cons t ts ih =>
    cases seg with
    | nil => rfl
    | cons s0 seg' =>
      by_cases hfree : t.2.1 = true ∨ (t.2.2).isSome <;>
        simp [scatterSeg, hfree, ih]

/-- Reading back the free slots of a scattered segment returns the `theta`
slice that was written. -/
theorem selectMask_scatterSeg (theta : List ℚ)
    (ts : List (String × Bool × Option TiedFn)) (seg : List ℚ) (j : ℕ)
    (hseg : seg.length = ts.length)
    (hbound : j + countFreeT ts ≤ theta.length) :
    selectMask (maskTriples ts) (scatterSeg theta ts seg j) =
      (theta.drop j).take (countFreeT ts) := by
  induction ts generalizing seg j with
  | nil =>
    rw [List.eq_nil_of_length_eq_zero hseg]
    simp [maskTriples, scatterSeg, countFreeT, selectMask]
  | cons t ts' ih =>
    cases seg with
    | nil => simp at hseg
    | cons s0 seg' =>
      by_cases hfree : t.2.1 = true ∨ (t.2.2).isSome
      · have hnf : (!t.2.1 && !(t.2.2).isSome) = false := by
          rcases hfree with h | h
          · simp [h]
          · rcases ht : t.2.2 with _ | f
            · rw [ht] at h; simp at h
            · simp [ht]
        have hcf : countFreeT (t :: ts') = countFreeT ts' := by
          simp only [countFreeT, List.countP_cons]
          rw [hnf]
          simp [countFreeT]
        have hmt : maskTriples (t :: ts') = false :: maskTriples ts' := by
          simp only [maskTriples, List.map_cons]
          rw [hnf]
        rw [hcf] at hbound ⊢
        simp only [scatterSeg, if_pos hfree]
        rw [hmt, selectMask_cons]
        simp only [Bool.false_eq_true, reduceIte]
        exact ih seg' j (by simpa using hseg) hbound
      · have hnotfree : t.2.1 = false ∧ (t.2.2).isSome = false := by
          push_neg at hfree
          exact ⟨by simpa using hfree.1, by simpa using hfree.2⟩
        have htt : (!t.2.1 && !(t.2.2).isSome) = true := by
          simp [hnotfree.1, hnotfree.2]
        have hcf : countFreeT (t :: ts') = countFreeT ts' + 1 := by
          simp only [countFreeT, List.countP_cons]
          rw [htt]
          simp [countFreeT]
        have hjlt : j < theta.length := by rw [hcf] at hbound; omega
        have hmt : maskTriples (t :: ts') = true :: maskTriples ts' := by
          simp only [maskTriples, List.map_cons]
          rw [htt]
        simp only [scatterSeg, if_neg hfree]
        rw [hmt, selectMask_cons]
        simp only [reduceIte]
        rw [ih seg' (j + 1) (by simpa using hseg) (by rw [hcf] at hbound; omega)]
        rw [hcf]
        rw [List.drop_eq_getElem_cons hjlt, List.take_succ_cons]
        rw [List.getD_eq_getElem _ _ hjlt]

/-- Updating values in the component dictionary leaves the strip view
unchanged. -/
theorem map_strip_set_values (C : List DysmalComponent) (cname : String)
    (i : ℕ) (v : ℚ) :
    (C.map fun c0 => if c0.name = cname then
        { c0 with values := c0.values.set i v } else c0).map
      DysmalComponent.strip = C.map DysmalComponent.strip := by
  induction C with
  | nil => rfl
  | cons c0 rest ih =>
    simp only [List.map_cons, ih]
    congr 1
    split_ifs <;> rfl

/-- The inner assignment loop writes exactly the scatter of `theta` into
the component's parameter segment, preserving structure; all lookups
resolve through the wellformed original. -/
theorem applyFreeEntries_spec (ms : ModelSet) (hwf : ms.WF)
    (L1 L2 : List DysmalComponent) (c : DysmalComponent)
    (hsplit : ms.components = L1 ++ c :: L2) (theta : List ℚ) :
    ∀ (ts : List (String × Bool × Option TiedFn)) (idx j : ℕ)
      (msC : ModelSet) (pre seg post : List ℚ),
    msC.components.map DysmalComponent.strip =
      ms.components.map DysmalComponent.strip →
    msC.param_keys = ms.param_keys →
    msC.parameters = pre ++ seg ++ post →
    pre.length = totalLen L1 + idx →
    seg.length = ts.length →
    idx + ts.length ≤ c.param_names.length →
    ts = c.paramTriples.drop idx →
    ∃ msN,
      applyFreeEntries theta c.name msC (freeKeysCompSpec ts j) = some msN ∧
      msN.components.map DysmalComponent.strip =
        ms.components.map DysmalComponent.strip ∧
      msN.param_keys = ms.param_keys ∧
      msN.nparams = msC.nparams ∧
      msN.nparams_free = msC.nparams_free ∧
      msN.nparams_tied = msC.nparams_tied ∧
      msN.parameters = pre ++ scatterSeg theta ts seg j ++ post := by
  intro ts
  induction ts with
  | nil =>
    intro idx j msC pre seg post hstrip hkeys hparams hpre hseg hbound hts
    exact ⟨msC, by simp [freeKeysCompSpec, applyFreeEntries], hstrip, hkeys,
      rfl, rfl, rfl, by rw [hparams]; rfl⟩
  | cons t ts' ih =>
    intro idx j msC pre seg post hstrip hkeys hparams hpre hseg hbound hts
    cases seg with
    | nil => simp at hseg
    | cons s0 seg' =>
      have hidxlt : idx < c.param_names.length := by
        simp only [List.length_cons] at hbound
        omega
      have hcwf : c.CWF := hwf.comps c (by rw [hsplit]; simp)
      have htlen : c.paramTriples.length = c.param_names.length :=
        paramTriples_length c hcwf
      have ht : c.paramTriples[idx]? = some t := by
        have h0 : (c.paramTriples.drop idx)[0]? = some t := by
          rw [← hts]
          simp
        rw [List.getElem?_drop] at h0
        simpa using h0
      have htname : t.1 = c.param_names[idx] := by
        have hidxt : idx < c.paramTriples.length := by omega
        have : c.paramTriples[idx] = t := by
          rw [List.getElem?_eq_getElem hidxt] at ht
          exact Option.some.inj ht
        rw [← this]
        unfold DysmalComponent.paramTriples
        rw [List.getElem_zip]
      have hts' : ts' = c.paramTriples.drop (idx + 1) := by
        have : c.paramTriples.drop (idx + 1) =
            (c.paramTriples.drop idx).drop 1 := by
          rw [List.drop_drop]
        rw [this, ← hts]
        rfl
      have hfreshnames : ∀ c0 ∈ L1, c0.name ≠ c.name :=
        names_fresh_of_nodup L1 L2 c (by rw [← hsplit]; exact hwf.names)
      obtain ⟨c'', hfindC, hstripC⟩ := find?_strip_eq msC.components L1 L2 c
        (by rw [hstrip, hsplit]) hfreshnames
      have hfind : msC.findComp c.name = some c'' := hfindC
      have hidxres : (c''.param_names.findIdx? fun pn => pn = t.1) =
          some idx := by
        rw [strip_param_names hstripC, htname]
        exact findIdx?_of_nodup c.param_names hcwf.nodup idx hidxlt
      have hksres : msC.findKeys c.name =
          some ((List.range c.param_names.length).map
            fun i => i + totalLen L1) :=
        findKeys_resolve msC ms hwf L1 L2 c hsplit hkeys
      have hgi : ((List.range c.param_names.length).map
          fun i => i + totalLen L1)[idx]? = some (idx + totalLen L1) :=
        range_map_getElem? _ _ _ hidxlt
      have hseg' : seg'.length = ts'.length := by simpa using hseg
      have hbound' : (idx + 1) + ts'.length ≤ c.param_names.length := by
        simp only [List.length_cons] at hbound
        omega
      by_cases hfree : t.2.1 = true ∨ (t.2.2).isSome
      · -- fixed or tied: key -99, no write
        obtain ⟨msN, h1, h2, h3, h4, h5, h6, h7⟩ := ih (idx + 1) j msC
          (pre ++ [s0]) seg' post hstrip hkeys (by rw [hparams]; simp)
          (by simp [hpre]; omega) hseg' hbound' hts'
        refine ⟨msN, ?_, h2, h3, h4, h5, h6, ?_⟩
        · simp only [freeKeysCompSpec, if_pos hfree, applyFreeEntries]
          rw [if_neg (by simp)]
          exact h1
        · rw [h7]
          simp only [scatterSeg, if_pos hfree]
          simp
      · -- free: write theta[j]
        have hlt : idx + totalLen L1 < msC.parameters.length := by
          rw [hparams]
          simp only [List.append_assoc, List.length_append, List.length_cons]
          omega
        have hraw := setParamValueRaw_eq msC c.name t.1
          (theta.getD ((j : ℤ)).toNat 0) c'' idx (idx + totalLen L1)
          ((List.range c.param_names.length).map fun i => i + totalLen L1)
          hfind hidxres hksres hgi hlt
        set v := theta.getD ((j : ℤ)).toNat 0 with hv
        set msC1 : ModelSet := { msC with
          components := msC.components.map fun c0 =>
            if c0.name = c.name then
              { c0 with values := c0.values.set idx v } else c0
          parameters := msC.parameters.set (idx + totalLen L1) v } with hmsC1
        have hparams1 : msC1.parameters = (pre ++ [v]) ++ seg' ++ post := by
          show msC.parameters.set (idx + totalLen L1) v =
            (pre ++ [v]) ++ seg' ++ post
          rw [hparams, List.append_assoc,
            show idx + totalLen L1 = pre.length + 0 by omega,
            set_append_right]
          simp
        have hstrip1 : msC1.components.map DysmalComponent.strip =
            ms.components.map DysmalComponent.strip := by
          show (msC.components.map fun c0 => if c0.name = c.name then
            { c0 with values := c0.values.set idx v } else c0).map
              DysmalComponent.strip = _
          rw [map_strip_set_values]
          exact hstrip
        obtain ⟨msN, h1, h2, h3, h4, h5, h6, h7⟩ := ih (idx + 1) (j + 1) msC1
          (pre ++ [v]) seg' post hstrip1 hkeys hparams1
          (by simp [hpre]; omega) hseg' hbound' hts'
        refine ⟨msN, ?_, h2, h3, h4, h5, h6, ?_⟩
        · simp only [freeKeysCompSpec, if_neg hfree, applyFreeEntries]
          rw [if_pos (by omega), hraw]
          exact h1
        · rw [h7]
          simp only [scatterSeg, if_neg hfree]
          rw [show theta.getD j 0 = v by rw [hv, Int.toNat_natCast]]
          simp

/-- The effect of the whole free-parameter assignment pass on the
concatenated parameter vector, component segment by component segment. -/
def scatterComps (theta : List ℚ) : List DysmalComponent → List ℚ → ℕ → List ℚ
  | [], params, _ => params
  | c :: rest, params, j =>
    scatterSeg theta c.paramTriples (params.take c.param_names.length) j ++
      scatterComps theta rest (params.drop c.param_names.length)
        (j + c.freeCount)

/-- The outer assignment loop of `update_parameters` scatters `theta` over
all components' segments in insertion order, preserving everything else. -/
theorem applyFreeKeys_spec (ms : ModelSet) (hwf : ms.WF) (theta : List ℚ) :
    ∀ (L2 L1 : List DysmalComponent) (msC : ModelSet) (pre suf : List ℚ),
    ms.components = L1 ++ L2 →
    msC.components.map DysmalComponent.strip =
      ms.components.map DysmalComponent.strip →
    msC.param_keys = ms.param_keys →
    msC.parameters = pre ++ suf →
    pre.length = totalLen L1 →
    suf.length = totalLen L2 →
    ∀ j : ℕ,
    ∃ msN,
      applyFreeKeys theta msC (freeKeysSpec L2 j) = some msN ∧
      msN.components.map DysmalComponent.strip =
        ms.components.map DysmalComponent.strip ∧
      msN.param_keys = ms.param_keys ∧
      msN.nparams = msC.nparams ∧
      msN.nparams_free = msC.nparams_free ∧
      msN.nparams_tied = msC.nparams_tied ∧
      msN.parameters = pre ++ scatterComps theta L2 suf j := by
  intro L2
  induction L2 with
  | nil =>
    intro L1 msC pre suf hsplit hstrip hkeys hparams hpre hsuf j
    exact ⟨msC, by simp [freeKeysSpec, applyFreeKeys], hstrip, hkeys,
      rfl, rfl, rfl, by rw [hparams]; rfl⟩
  | cons c L2' ih =>
    intro L1 msC pre suf hsplit hstrip hkeys hparams hpre hsuf j
    have hcwf : c.CWF := hwf.comps c (by rw [hsplit]; simp)
    have hsuflen : c.param_names.length ≤ suf.length := by
      rw [hsuf, totalLen_cons]
      omega
    have hparams3 : msC.parameters =
        pre ++ suf.take c.param_names.length ++
          suf.drop c.param_names.length := by
      rw [hparams, List.append_assoc, List.take_append_drop]
    obtain ⟨msN1, he1, he2, he3, he4, he5, he6, he7⟩ :=
      applyFreeEntries_spec ms hwf L1 L2' c hsplit theta c.paramTriples 0 j
        msC pre (suf.take c.param_names.length)
        (suf.drop c.param_names.length) hstrip hkeys hparams3
        (by omega) (by rw [List.length_take, paramTriples_length c hcwf]; omega)
        (by rw [paramTriples_length c hcwf]; omega)
        (by rw [List.drop_zero])
    set seg1 := scatterSeg theta c.paramTriples
      (suf.take c.param_names.length) j with hseg1
    have hpre1 : (pre ++ seg1).length = totalLen (L1 ++ [c]) := by
      rw [List.length_append, totalLen_append, hseg1, scatterSeg_length,
        List.length_take]
      simp [totalLen, hpre]
      omega
    have hsuf1 : (suf.drop c.param_names.length).length = totalLen L2' := by
      rw [List.length_drop, hsuf, totalLen_cons]
      omega
    obtain ⟨msN, hf1, hf2, hf3, hf4, hf5, hf6, hf7⟩ := ih (L1 ++ [c]) msN1
      (pre ++ seg1) (suf.drop c.param_names.length)
      (by rw [hsplit]; simp) he2 he3
      (by rw [he7, List.append_assoc]) hpre1 hsuf1
      (j + c.freeCount)
    refine ⟨msN, ?_, hf2, hf3, by rw [hf4, he4], by rw [hf5, he5],
      by rw [hf6, he6], ?_⟩
    · simp only [freeKeysSpec, applyFreeKeys, he1]
      exact hf1
    · rw [hf7]
      simp only [scatterComps]
      rw [List.append_assoc]

theorem scatterComps_length (theta : List ℚ) :
    ∀ (C : List DysmalComponent) (params : List ℚ) (j : ℕ),
    (scatterComps theta C params j).length = params.length := by
  intro C
  induction C with
  | nil => intro params j; rfl
  | cons c rest ih =>
    intro params j
    simp only [scatterComps, List.length_append, scatterSeg_length, ih,
      List.length_take, List.length_drop]
    omega

/-- Reading back the free slots after the full scatter returns `theta`
(through its prefix from `j`). -/
theorem selectMask_scatterComps (theta : List ℚ) :
    ∀ (C : List DysmalComponent) (params : List ℚ) (j : ℕ),
    (∀ c ∈ C, c.CWF) → params.length = totalLen C →
    j + freeCountTotal C ≤ theta.length →
    selectMask (C.flatMap DysmalComponent.freeMask)
        (scatterComps theta C params j) =
      (theta.drop j).take (freeCountTotal C) := by
  intro C
  induction C with
  | nil =>
    intro params j hcwf hplen hbound
    simp [scatterComps, freeCountTotal, selectMask]
  | cons c rest ih =>
    intro params j hcwf hplen hbound
    have hc : c.CWF := hcwf c (by simp)
    have hlen1 : c.param_names.length ≤ params.length := by
      rw [hplen, totalLen_cons]; omega
    rw [freeCountTotal_cons] at hbound ⊢
    simp only [scatterComps, List.flatMap_cons]
    rw [selectMask_append _ _ _ _ (by
      rw [scatterSeg_length, List.length_take, freeMask_length c hc]; omega)]
    rw [← maskTriples_paramTriples c hc]
    rw [selectMask_scatterSeg theta c.paramTriples _ j
      (by rw [List.length_take, paramTriples_length c hc]; omega)
      (by rw [countFreeT_paramTriples c hc]; omega)]
    rw [ih (params.drop c.param_names.length) (j + c.freeCount)
      (fun c0 h0 => hcwf c0 (List.mem_cons_of_mem _ h0))
      (by rw [List.length_drop, hplen, totalLen_cons]; omega)
      (by omega)]
    rw [countFreeT_paramTriples c hc]
    rw [List.take_add, ← List.drop_drop]

/-! ### The tied-parameter pass -/

/-- The tied entries of one component with their global slot indices:
`((name, param name, function), slot)` in parameter order. -/
def compTiedPairs (cn : String) : ℕ → List String → List (Option TiedFn) →
    List ((String × String × TiedFn) × ℕ)
  | off, pn :: pns, some f :: ts =>
    ((cn, pn, f), off) :: compTiedPairs cn (off + 1) pns ts
  | off, _ :: pns, none :: ts => compTiedPairs cn (off + 1) pns ts
  | _, _, _ => []

/-- All tied entries of a component list with their global slots, laid out
from offset `off`. -/
def tiedPairs (off : ℕ) : List DysmalComponent →
    List ((String × String × TiedFn) × ℕ)
  | [] => []
  | c :: rest =>
    compTiedPairs c.name off c.param_names c.tied ++
      tiedPairs (off + c.param_names.length) rest

/-- The pure effect of the tied pass on the concatenated parameter vector:
each entry stores its function of the *current* vector into its slot, in
schedule order. -/
def sfold : List ((String × String × TiedFn) × ℕ) → List ℚ → List ℚ
  | [], P => P
  | e :: rest, P => sfold rest (P.set e.2 (e.1.2.2 P))

theorem compTiedPairs_sched (cn : String) :
    ∀ (pns : List String) (ts : List (Option TiedFn)) (off : ℕ),
    ((pns.zip ts).filterMap fun pt =>
        match pt.2 with
        | some f => some (cn, pt.1, f)
        | none => none) =
      (compTiedPairs cn off pns ts).map Prod.fst := by
  intro pns
  induction pns with
  | nil => intro ts off; cases ts <;> rfl
  | cons pn pns ih =>
    intro ts off
    cases ts with
    | nil => rfl
    | cons t ts' =>
      cases t with
      | none =>
        simp only [List.zip_cons_cons, List.filterMap_cons, compTiedPairs]
        exact ih ts' (off + 1)
      | some f =>
        simp only [List.zip_cons_cons, List.filterMap_cons, compTiedPairs,
          List.map_cons]
        rw [ih ts' (off + 1)]

/-- The tied schedule is determined by the strip view and equals the
first components of `tiedPairs`. -/
theorem tiedSchedule_eq (msC : ModelSet) (C : List DysmalComponent)
    (hstrip : msC.components.map DysmalComponent.strip =
      C.map DysmalComponent.strip) :
    msC.tiedSchedule = (tiedPairs 0 C).map Prod.fst := by
  unfold ModelSet.tiedSchedule
  have main : ∀ (A B : List DysmalComponent) (off : ℕ),
      A.map DysmalComponent.strip = B.map DysmalComponent.strip →
      (A.flatMap fun c => (c.param_names.zip c.tied).filterMap fun pt =>
        match pt.2 with
        | some f => some (c.name, pt.1, f)
        | none => none) = (tiedPairs off B).map Prod.fst := by
    intro A
    induction A with
    | nil =>
      intro B off h
      cases B with
      | nil => rfl
      | cons b B' => simp at h
    | cons a A' ih =>
      intro B off h
      cases B with
      | nil => simp at h
      | cons b B' =>
        simp only [List.map_cons, List.cons.injEq] at h
        simp only [List.flatMap_cons, tiedPairs, List.map_append]
        rw [strip_name h.1, strip_param_names h.1, strip_tied h.1,
          compTiedPairs_sched b.name b.param_names b.tied off,
          ih B' (off + b.param_names.length) h.2]
  exact main msC.components C 0 hstrip

/-- Membership in a component's tied-pair list determines the parameter
index behind the slot. -/
theorem compTiedPairs_mem (cn : String) :
    ∀ (pns : List String) (ts : List (Option TiedFn)) (off : ℕ)
      (p : (String × String × TiedFn) × ℕ),
    p ∈ compTiedPairs cn off pns ts →
    ∃ i, p.2 = off + i ∧ p.1.1 = cn ∧ pns[i]? = some p.1.2.1 ∧
      ts[i]? = some (some p.1.2.2) := by
  intro pns
  induction pns with
  | nil => intro ts off p hp; cases ts <;> simp [compTiedPairs] at hp
  | cons pn pns ih =>
    intro ts off p hp
    cases ts with
    | nil => simp [compTiedPairs] at hp
    | cons t ts' =>
      cases t with
      | none =>
        obtain ⟨i, h1, h2, h3, h4⟩ := ih ts' (off + 1) p hp
        exact ⟨i + 1, by omega, h2, by simpa using h3, by simpa using h4⟩
      | some f =>
        simp only [compTiedPairs, List.mem_cons] at hp
        rcases hp with hp | hp
        · subst hp
          exact ⟨0, by omega, rfl, by simp, by simp⟩
        · obtain ⟨i, h1, h2, h3, h4⟩ := ih ts' (off + 1) p hp
          exact ⟨i + 1, by omega, h2, by simpa using h3, by simpa using h4⟩

/-- Membership in `tiedPairs` resolves to a component split and a
parameter index; the slot is the global position of that parameter. -/
theorem tiedPairs_mem :
    ∀ (C : List DysmalComponent) (off : ℕ)
      (p : (String × String × TiedFn) × ℕ),
    p ∈ tiedPairs off C →
    ∃ L1 c L2 i, C = L1 ++ c :: L2 ∧ p.1.1 = c.name ∧
      c.param_names[i]? = some p.1.2.1 ∧
      c.tied[i]? = some (some p.1.2.2) ∧
      p.2 = off + totalLen L1 + i := by
  intro C
  induction C with
  | nil => intro off p hp; simp [tiedPairs] at hp
  | cons c C' ih =>
    intro off p hp
    simp only [tiedPairs, List.mem_append] at hp
    rcases hp with hp | hp
    · obtain ⟨i, h1, h2, h3, h4⟩ :=
        compTiedPairs_mem c.name c.param_names c.tied off p hp
      exact ⟨[], c, C', i, rfl, h2, h3, h4, by
        simp only [totalLen, List.map_nil, List.sum_nil]
        omega⟩
    · obtain ⟨L1, c1, L2, i, h1, h2, h3, h4, h5⟩ :=
        ih (off + c.param_names.length) p hp
      exact ⟨c :: L1, c1, L2, i, by rw [h1]; simp, h2, h3, h4, by
        rw [totalLen_cons]; omega⟩

theorem compTiedPairs_slot_bound (cn : String) :
    ∀ (pns : List String) (ts : List (Option TiedFn)) (off : ℕ)
      (p : (String × String × TiedFn) × ℕ),
    p ∈ compTiedPairs cn off pns ts →
    off ≤ p.2 ∧ p.2 < off + pns.length := by
  intro pns
  induction pns with
  | nil => intro ts off p hp; cases ts <;> simp [compTiedPairs] at hp
  | cons pn pns ih =>
    intro ts off p hp
    cases ts with
    | nil => simp [compTiedPairs] at hp
    | cons t ts' =>
      cases t with
      | none =>
        have := ih ts' (off + 1) p hp
        simp only [List.length_cons]
        omega
      | some f =>
        simp only [compTiedPairs, List.mem_cons] at hp
        rcases hp with hp | hp
        · subst hp
          simp only [List.length_cons]
          omega
        · have := ih ts' (off + 1) p hp
          simp only [List.length_cons]
          omega

theorem tiedPairs_slot_lb :
    ∀ (C : List DysmalComponent) (off : ℕ)
      (p : (String × String × TiedFn) × ℕ),
    p ∈ tiedPairs off C → off ≤ p.2 := by
  intro C
  induction C with
  | nil => intro off p hp; simp [tiedPairs] at hp
  | cons c C' ih =>
    intro off p hp
    simp only [tiedPairs, List.mem_append] at hp
    rcases hp with hp | hp
    · exact (compTiedPairs_slot_bound c.name c.param_names c.tied off p hp).1
    · have := ih (off + c.param_names.length) p hp
      omega

theorem compTiedPairs_slots_sorted (cn : String) :
    ∀ (pns : List String) (ts : List (Option TiedFn)) (off : ℕ),
    ((compTiedPairs cn off pns ts).map Prod.snd).Pairwise (· < ·) := by
  intro pns
  induction pns with
  | nil => intro ts off; cases ts <;> simp [compTiedPairs]
  | cons pn pns ih =>
    intro ts off
    cases ts with
    | nil => simp [compTiedPairs]
    | cons t ts' =>
      cases t with
      | none => exact ih ts' (off + 1)
      | some f =>
        simp only [compTiedPairs, List.map_cons, List.pairwise_cons]
        refine ⟨?_, ih ts' (off + 1)⟩
        intro s hs
        simp only [List.mem_map] at hs
        obtain ⟨p, hp, hps⟩ := hs
        have := compTiedPairs_slot_bound cn pns ts' (off + 1) p hp
        omega

theorem tiedPairs_slots_sorted :
    ∀ (C : List DysmalComponent) (off : ℕ),
    ((tiedPairs off C).map Prod.snd).Pairwise (· < ·) := by
  intro C
  induction C with
  | nil => intro off; simp [tiedPairs]
  | cons c C' ih =>
    intro off
    simp only [tiedPairs, List.map_append]
    rw [List.pairwise_append]
    refine ⟨compTiedPairs_slots_sorted c.name c.param_names c.tied off,
      ih (off + c.param_names.length), ?_⟩
    intro a ha b hb
    simp only [List.mem_map] at ha hb
    obtain ⟨p, hp, hpa⟩ := ha
    obtain ⟨q, hq, hqb⟩ := hb
    have h1 := compTiedPairs_slot_bound c.name c.param_names c.tied off p hp
    have h2 := tiedPairs_slot_lb C' (off + c.param_names.length) q hq
    omega

theorem tiedPairs_slots_nodup (C : List DysmalComponent) (off : ℕ) :
    ((tiedPairs off C).map Prod.snd).Nodup :=
  (tiedPairs_slots_sorted C off).imp Nat.ne_of_lt

/-- The tied-slot mask of the concatenated parameter vector. -/
def tiedMask (C : List DysmalComponent) : List Bool :=
  C.flatMap fun c => c.tied.map Option.isSome

theorem tiedMask_length (C : List DysmalComponent) (h : ∀ c ∈ C, c.CWF) :
    (tiedMask C).length = totalLen C := by
  induction C with
  | nil => simp [tiedMask, totalLen]
  | cons c rest ih =>
    simp only [tiedMask, List.flatMap_cons, List.length_append,
      List.length_map, totalLen_cons, (h c (by simp)).tied_len]
    rw [show rest.flatMap (fun c => c.tied.map Option.isSome) =
      tiedMask rest from rfl,
      ih fun c0 h0 => h c0 (List.mem_cons_of_mem _ h0)]

/-- A tied slot is not free in the global free mask. -/
theorem freeMask_getD_tied (C : List DysmalComponent) (hcwf : ∀ c ∈ C, c.CWF)
    (L1 : List DysmalComponent) (c : DysmalComponent)
    (L2 : List DysmalComponent) (hsplit : C = L1 ++ c :: L2) (i : ℕ)
    (f : TiedFn) (htied : c.tied[i]? = some (some f)) :
    (C.flatMap DysmalComponent.freeMask).getD (totalLen L1 + i) false =
      false := by
  have hc : c.CWF := hcwf c (by rw [hsplit]; simp)
  have hcwf1 : ∀ c0 ∈ L1, c0.CWF := fun c0 h0 =>
    hcwf c0 (by rw [hsplit]; exact List.mem_append_left _ h0)
  have hi : i < c.tied.length := by
    by_contra hge
    rw [List.getElem?_eq_none (by omega)] at htied
    exact Option.noConfusion htied
  have hifm : i < c.freeMask.length := by
    have := hc.tied_len
    rw [freeMask_length c hc]
    omega
  have hflat : C.flatMap DysmalComponent.freeMask =
      L1.flatMap DysmalComponent.freeMask ++
        (c.freeMask ++ L2.flatMap DysmalComponent.freeMask) := by
    rw [hsplit]
    simp
  have hlen1 : (L1.flatMap DysmalComponent.freeMask).length = totalLen L1 :=
    freeMask_total_length L1 hcwf1
  have hfmi : c.freeMask[i]? = some false := by
    rw [List.getElem?_eq_getElem hifm]
    unfold DysmalComponent.freeMask
    have hiz : i < (c.fixed.zip c.tied).length := by
      have h2 := hc.tied_len
      rw [List.length_zip, hc.fixed_len]
      omega
    rw [List.getElem_map _]
    rw [List.getElem_zip]
    have : c.tied[i] = some f := by
      rw [List.getElem?_eq_getElem hi] at htied
      exact Option.some.inj htied
    simp [this]
  have hread : (C.flatMap DysmalComponent.freeMask)[totalLen L1 + i]? =
      some false := by
    rw [hflat, List.getElem?_append_right (by omega), hlen1]
    rw [show totalLen L1 + i - totalLen L1 = i by omega]
    rw [List.getElem?_append_left hifm]
    exact hfmi
  rw [List.getD_eq_getElem?_getD, hread]
  rfl

/-- A tied slot is tied in the global tied mask. -/
theorem tiedMask_getD_tied (C : List DysmalComponent) (hcwf : ∀ c ∈ C, c.CWF)
    (L1 : List DysmalComponent) (c : DysmalComponent)
    (L2 : List DysmalComponent) (hsplit : C = L1 ++ c :: L2) (i : ℕ)
    (f : TiedFn) (htied : c.tied[i]? = some (some f)) :
    (tiedMask C).getD (totalLen L1 + i) false = true := by
  have hcwf1 : ∀ c0 ∈ L1, c0.CWF := fun c0 h0 =>
    hcwf c0 (by rw [hsplit]; exact List.mem_append_left _ h0)
  have hi : i < c.tied.length := by
    by_contra hge
    rw [List.getElem?_eq_none (by omega)] at htied
    exact Option.noConfusion htied
  have hflat : tiedMask C =
      tiedMask L1 ++ (c.tied.map Option.isSome ++ tiedMask L2) := by
    rw [hsplit]
    simp [tiedMask]
  have hlen1 : (tiedMask L1).length = totalLen L1 :=
    tiedMask_length L1 hcwf1
  have hmi : (c.tied.map Option.isSome)[i]? = some true := by
    rw [List.getElem?_map, htied]
    rfl
  have hread : (tiedMask C)[totalLen L1 + i]? = some true := by
    rw [hflat, List.getElem?_append_right (by omega), hlen1]
    rw [show totalLen L1 + i - totalLen L1 = i by omega]
    rw [List.getElem?_append_left (by rw [List.length_map]; omega)]
    exact hmi
  rw [List.getD_eq_getElem?_getD, hread]
  rfl

/-- The tied-update fold resolves every scheduled write at its global
slot and acts on the parameter vector exactly as `sfold`. -/
theorem tied_fold_spec (ms : ModelSet) (hwf : ms.WF) :
    ∀ (sched : List ((String × String × TiedFn) × ℕ)) (msC : ModelSet),
    (∀ p ∈ sched, ∃ L1 c L2 i, ms.components = L1 ++ c :: L2 ∧
      p.1.1 = c.name ∧ c.param_names[i]? = some p.1.2.1 ∧
      c.tied[i]? = some (some p.1.2.2) ∧ p.2 = totalLen L1 + i) →
    msC.components.map DysmalComponent.strip =
      ms.components.map DysmalComponent.strip →
    msC.param_keys = ms.param_keys →
    msC.parameters.length = ms.parameters.length →
    ∃ msN,
      (sched.map Prod.fst).foldlM
        (fun acc e => acc.setParamValueRaw e.1 e.2.1 (e.2.2 acc.parameters))
        msC = some msN ∧
      msN.components.map DysmalComponent.strip =
        ms.components.map DysmalComponent.strip ∧
      msN.param_keys = ms.param_keys ∧
      msN.nparams = msC.nparams ∧
      msN.nparams_free = msC.nparams_free ∧
      msN.nparams_tied = msC.nparams_tied ∧
      msN.parameters = sfold sched msC.parameters := by
  intro sched
  induction sched with
  | nil =>
    intro msC hres hstrip hkeys hplen
    exact ⟨msC, by simp, hstrip, hkeys, rfl, rfl, rfl, rfl⟩
  | cons p rest ih =>
    intro msC hres hstrip hkeys hplen
    obtain ⟨L1, c, L2, i, hsplit, hname, hpn, htf, hslot⟩ :=
      hres p (List.mem_cons_self _ _)
    have hi : i < c.param_names.length := by
      by_contra hge
      rw [List.getElem?_eq_none (by omega)] at hpn
      exact Option.noConfusion hpn
    have hcwf : c.CWF := hwf.comps c (by rw [hsplit]; simp)
    have hfreshnames : ∀ c0 ∈ L1, c0.name ≠ c.name :=
      names_fresh_of_nodup L1 L2 c (by rw [← hsplit]; exact hwf.names)
    obtain ⟨c'', hfindC, hstripC⟩ := find?_strip_eq msC.components L1 L2 c
      (by rw [hstrip, hsplit]) hfreshnames
    have hfind : msC.findComp p.1.1 = some c'' := by
      rw [hname]
      exact hfindC
    have hpni : c.param_names[i] = p.1.2.1 := by
      rw [List.getElem?_eq_getElem hi] at hpn
      exact Option.some.inj hpn
    have hidxres : (c''.param_names.findIdx? fun pn => pn = p.1.2.1) =
        some i := by
      rw [strip_param_names hstripC, ← hpni]
      exact findIdx?_of_nodup c.param_names hcwf.nodup i hi
    have hksres : msC.findKeys p.1.1 =
        some ((List.range c.param_names.length).map
          fun k => k + totalLen L1) := by
      rw [hname]
      exact findKeys_resolve msC ms hwf L1 L2 c hsplit hkeys
    have hgi : ((List.range c.param_names.length).map
        fun k => k + totalLen L1)[i]? = some p.2 := by
      rw [range_map_getElem? _ _ _ hi, hslot, Nat.add_comm]
    have hlt : p.2 < msC.parameters.length := by
      rw [hplen, hwf.params_len, hsplit, totalLen_append, totalLen_cons]
      omega
    have hraw := setParamValueRaw_eq msC p.1.1 p.1.2.1
      (p.1.2.2 msC.parameters) c'' i p.2
      ((List.range c.param_names.length).map fun k => k + totalLen L1)
      hfind hidxres hksres hgi hlt
    set msC1 : ModelSet := { msC with
      components := msC.components.map fun c0 =>
        if c0.name = p.1.1 then
          { c0 with values := c0.values.set i (p.1.2.2 msC.parameters) }
        else c0
      parameters := msC.parameters.set p.2 (p.1.2.2 msC.parameters) }
      with hmsC1
    have hstrip1 : msC1.components.map DysmalComponent.strip =
        ms.components.map DysmalComponent.strip := by
      show (msC.components.map fun c0 => if c0.name = p.1.1 then
        { c0 with values := c0.values.set i (p.1.2.2 msC.parameters) }
        else c0).map DysmalComponent.strip = _
      rw [map_strip_set_values]
      exact hstrip
    have hplen1 : msC1.parameters.length = ms.parameters.length := by
      show (msC.parameters.set p.2 (p.1.2.2 msC.parameters)).length = _
      rw [List.length_set]
      exact hplen
    obtain ⟨msN, h1, h2, h3, h4, h5, h6, h7⟩ := ih msC1
      (fun q hq => hres q (List.mem_cons_of_mem _ hq)) hstrip1 hkeys hplen1
    refine ⟨msN, ?_, h2, h3, h4, h5, h6, h7⟩
    simp only [List.map_cons, List.foldlM_cons, hraw, Option.bind_eq_bind,
      Option.bind_some]
    exact h1

theorem compTiedPairs_nil_of_no_tied (cn : String) :
    ∀ (pns : List String) (ts : List (Option TiedFn)) (off : ℕ),
    (ts.filter Option.isSome).length = 0 →
    compTiedPairs cn off pns ts = [] := by
  intro pns
  induction pns with
  | nil => intro ts off h; cases ts <;> rfl
  | cons pn pns ih =>
    intro ts off h
    cases ts with
    | nil => rfl
    | cons t ts' =>
      cases t with
      | none =>
        simp only [List.filter_cons] at h
        exact ih ts' (off + 1) (by simpa using h)
      | some f => simp [List.filter_cons] at h

theorem tiedPairs_nil_of_no_tied :
    ∀ (C : List DysmalComponent) (off : ℕ),
    tiedCountTotal C = 0 → tiedPairs off C = [] := by
  intro C
  induction C with
  | nil => intro off h; rfl
  | cons c C' ih =>
    intro off h
    simp only [tiedCountTotal, List.map_cons, List.sum_cons] at h
    simp only [tiedPairs]
    rw [compTiedPairs_nil_of_no_tied c.name c.param_names c.tied off
      (by simp only [DysmalComponent.ntied] at h; omega),
      ih (off + c.param_names.length) (by
        simp only [tiedCountTotal]; omega)]
    rfl

/-- `sfold` writes only at its scheduled slots; a selection along a mask
that is `false` at every scheduled slot is unchanged. -/
theorem sfold_selectMask (mask : List Bool) :
    ∀ (L : List ((String × String × TiedFn) × ℕ)) (P : List ℚ),
    (∀ p ∈ L, mask.getD p.2 false = false) →
    selectMask mask (sfold L P) = selectMask mask P := by
  intro L
  induction L with
  | nil => intro P h; rfl
  | cons p rest ih =>
    intro P h
    show selectMask mask (sfold rest (P.set p.2 (p.1.2.2 P))) = _
    rw [ih _ fun q hq => h q (List.mem_cons_of_mem _ hq),
      selectMask_set_of_not_mask mask P p.2 _ (h p (List.mem_cons_self _ _))]

/-- Every slot scheduled by `tiedPairs` is non-free. -/
theorem tiedPairs_slots_not_free (ms : ModelSet) (hwf : ms.WF) :
    ∀ p ∈ tiedPairs 0 ms.components, ms.freeMask.getD p.2 false = false := by
  intro p hp
  obtain ⟨L1, c, L2, i, hsplit, hname, hpn, htf, hslot⟩ :=
    tiedPairs_mem ms.components 0 p hp
  rw [show p.2 = totalLen L1 + i by omega]
  exact freeMask_getD_tied ms.components hwf.comps L1 c L2 hsplit i
    p.1.2.2 htf

/-- Resolution data for every `tiedPairs` entry, in the form consumed by
the fold lemma. -/
theorem tiedPairs_resolution (ms : ModelSet) :
    ∀ p ∈ tiedPairs 0 ms.components,
    ∃ L1 c L2 i, ms.components = L1 ++ c :: L2 ∧
      p.1.1 = c.name ∧ c.param_names[i]? = some p.1.2.1 ∧
      c.tied[i]? = some (some p.1.2.2) ∧ p.2 = totalLen L1 + i := by
  intro p hp
  obtain ⟨L1, c, L2, i, hsplit, hname, hpn, htf, hslot⟩ :=
    tiedPairs_mem ms.components 0 p hp
  exact ⟨L1, c, L2, i, hsplit, hname, hpn, htf, by omega⟩

/-- `_update_tied_parameters` on any state structurally agreeing with a
wellformed original whose tied counter matches its components: it succeeds
and maps the parameter vector through `sfold` of the tied schedule. -/
theorem update_tied_spec (ms : ModelSet) (hwf : ms.WF) (msC : ModelSet)
    (hstrip : msC.components.map DysmalComponent.strip =
      ms.components.map DysmalComponent.strip)
    (hkeys : msC.param_keys = ms.param_keys)
    (hplen : msC.parameters.length = ms.parameters.length)
    (htc : msC.nparams_tied = tiedCountTotal ms.components) :
    ∃ msN, msC._update_tied_parameters = some msN ∧
      msN.components.map DysmalComponent.strip =
        ms.components.map DysmalComponent.strip ∧
      msN.param_keys = ms.param_keys ∧
      msN.nparams = msC.nparams ∧
      msN.nparams_free = msC.nparams_free ∧
      msN.nparams_tied = msC.nparams_tied ∧
      msN.parameters = sfold (tiedPairs 0 ms.components) msC.parameters := by
  by_cases hpos : msC.nparams_tied > 0
  · obtain ⟨msN, h1, h2, h3, h4, h5, h6, h7⟩ := tied_fold_spec ms hwf
      (tiedPairs 0 ms.components) msC (tiedPairs_resolution ms)
      hstrip hkeys hplen
    refine ⟨msN, ?_, h2, h3, h4, h5, h6, h7⟩
    unfold ModelSet._update_tied_parameters
    rw [if_pos hpos, tiedSchedule_eq msC ms.components hstrip]
    exact h1
  · have hzero : tiedCountTotal ms.components = 0 := by omega
    refine ⟨msC, ?_, hstrip, hkeys, rfl, rfl, rfl, ?_⟩
    · unfold ModelSet._update_tied_parameters
      rw [if_neg hpos]
    · rw [tiedPairs_nil_of_no_tied ms.components 0 hzero]
      rfl

theorem sfold_length :
    ∀ (L : List ((String × String × TiedFn) × ℕ)) (P : List ℚ),
    (sfold L P).length = P.length := by
  intro L
  induction L with
  | nil => intro P; rfl
  | cons p rest ih =>
    intro P
    show (sfold rest (P.set p.2 (p.1.2.2 P))).length = _
    rw [ih, List.length_set]

/-- `_update_tied_parameters` succeeds on any structurally agreeing state
and leaves the free-slot selection of the parameter vector unchanged. -/
theorem update_tied_select (ms : ModelSet) (hwf : ms.WF) (msC : ModelSet)
    (hstrip : msC.components.map DysmalComponent.strip =
      ms.components.map DysmalComponent.strip)
    (hkeys : msC.param_keys = ms.param_keys)
    (hplen : msC.parameters.length = ms.parameters.length) :
    ∃ msN, msC._update_tied_parameters = some msN ∧
      msN.components.map DysmalComponent.strip =
        ms.components.map DysmalComponent.strip ∧
      msN.param_keys = ms.param_keys ∧
      msN.nparams = msC.nparams ∧
      msN.nparams_free = msC.nparams_free ∧
      msN.nparams_tied = msC.nparams_tied ∧
      msN.parameters.length = msC.parameters.length ∧
      selectMask ms.freeMask msN.parameters =
        selectMask ms.freeMask msC.parameters := by
  by_cases hpos : msC.nparams_tied > 0
  · obtain ⟨msN, h1, h2, h3, h4, h5, h6, h7⟩ := tied_fold_spec ms hwf
      (tiedPairs 0 ms.components) msC (tiedPairs_resolution ms)
      hstrip hkeys hplen
    refine ⟨msN, ?_, h2, h3, h4, h5, h6, by rw [h7, sfold_length], ?_⟩
    · unfold ModelSet._update_tied_parameters
      rw [if_pos hpos, tiedSchedule_eq msC ms.components hstrip]
      exact h1
    · rw [h7]
      exact sfold_selectMask ms.freeMask (tiedPairs 0 ms.components)
        msC.parameters (tiedPairs_slots_not_free ms hwf)
  · refine ⟨msC, ?_, hstrip, hkeys, rfl, rfl, rfl, rfl, rfl⟩
    unfold ModelSet._update_tied_parameters
    rw [if_neg hpos]

/-- C1.  On a wellformed `ModelSet`, `update_parameters` with a `theta` of
length `nparams_free` succeeds, and reading the free parameters back with
`get_free_parameters_values` returns exactly `theta`; the key table
returned by `get_free_parameter_keys` is the insertion-order assignment
`freeKeysSpec`: components in the order they were added, and within each
component consecutive `theta` indices over its free parameters in
parameter order. -/
theorem update_parameters_roundtrip (ms : ModelSet) (hwf : ms.WF)
    (theta : List ℚ) (hlen : (theta.length : ℤ) = ms.nparams_free) :
    ∃ ms', ms.update_parameters theta = some ms' ∧
      ms'.get_free_parameters_values = some theta ∧
      ms'.get_free_parameter_keys =
        some (freeKeysSpec ms.components 0) := by
  have hfree_nat : theta.length = freeCountTotal ms.components := by
    have h2 := hwf.free_eq
    omega
  obtain ⟨ms1, hak, hs1, hk1, hn1, hf1, ht1, hp1⟩ :=
    applyFreeKeys_spec ms hwf theta ms.components [] ms []
      ms.parameters (by simp) rfl rfl (by simp)
      (by simp [totalLen]) hwf.params_len 0
  have hplen1 : ms1.parameters.length = ms.parameters.length := by
    rw [hp1]
    simp only [List.nil_append]
    rw [scatterComps_length]
  obtain ⟨ms', hut, hs2, hk2, hn2, hf2, ht2, hpl2, hsel2⟩ :=
    update_tied_select ms hwf ms1 hs1 hk1 hplen1
  have hread : ms'._get_free_parameters =
      some (selectMask ms.freeMask ms'.parameters,
        freeKeysSpec ms.components 0) :=
    get_free_parameters_spec_rel ms' ms hwf hs2 hk2
      (by rw [hpl2, hplen1]) (by rw [hf2, hf1])
  have hscat : selectMask ms.freeMask ms1.parameters = theta := by
    rw [hp1]
    simp only [List.nil_append]
    show selectMask (ms.components.flatMap DysmalComponent.freeMask) _ = _
    rw [selectMask_scatterComps theta ms.components ms.parameters 0
      hwf.comps hwf.params_len (by omega)]
    rw [List.drop_zero, hfree_nat.symm, List.take_length]
  have hsel : selectMask ms.freeMask ms'.parameters = theta := by
    rw [hsel2, hscat]
  refine ⟨ms', ?_, ?_, ?_⟩
  · unfold ModelSet.update_parameters
    rw [if_neg (not_ne_iff.mpr hlen)]
    simp only [get_free_parameters_spec ms hwf, hak]
    exact hut
  · unfold ModelSet.get_free_parameters_values
    rw [hread, hsel]
    rfl
  · unfold ModelSet.get_free_parameter_keys
    rw [hread]
    rfl

/-- A concrete two-component model: a disk with a free and a fixed
parameter, then a halo with one free parameter. -/
def diskW : DysmalComponent :=
  ⟨"disk", ["a", "b"], [1, 2], [false, true], [none, none]⟩

def haloW : DysmalComponent :=
  ⟨"halo", ["m"], [3], [false], [none]⟩

def msW1 : ModelSet :=
  ⟨[diskW, haloW], [1, 2, 3], [("disk", [0, 1]), ("halo", [2])], 3, 2, 0⟩

theorem msW1_wf : msW1.WF := by
  refine ⟨?_, ?_, ?_, ?_, ?_⟩
  · intro c hc
    simp only [msW1, List.mem_cons, List.not_mem_nil, or_false] at hc
    rcases hc with h | h <;> subst h <;>
      exact ⟨rfl, rfl, rfl, by decide⟩
  · decide
  · show msW1.param_keys = offsetsFrom 0 [diskW, haloW]
    simp [msW1, offsetsFrom, diskW, haloW, totalLen, List.range_succ]
  · simp [msW1, totalLen, diskW, haloW]
  · decide

/-- C1 witness: the round-trip at the concrete two-component model with
`theta = [10, 20]`. -/
theorem update_parameters_roundtrip_witness :
    ∃ ms', msW1.update_parameters [10, 20] = some ms' ∧
      ms'.get_free_parameters_values = some [10, 20] ∧
      ms'.get_free_parameter_keys =
        some (freeKeysSpec msW1.components 0) :=
  update_parameters_roundtrip msW1 msW1_wf [10, 20] (by decide)

theorem sfold_get_untouched :
    ∀ (L : List ((String × String × TiedFn) × ℕ)) (P : List ℚ) (g : ℕ),
    (∀ p ∈ L, p.2 ≠ g) → (sfold L P)[g]? = P[g]? := by
  intro L
  induction L with
  | nil => intro P g h; rfl
  | cons e rest ih =>
    intro P g h
    show (sfold rest (P.set e.2 (e.1.2.2 P)))[g]? = _
    rw [ih _ _ fun q hq => h q (List.mem_cons_of_mem _ hq),
      List.getElem?_set_ne (h e (List.mem_cons_self _ _))]

theorem sfold_agree_mask (mask : List Bool) :
    ∀ (L : List ((String × String × TiedFn) × ℕ)) (P : List ℚ),
    (∀ p ∈ L, mask.getD p.2 false = true) →
    ∀ g : ℕ, mask.getD g false = false → (sfold L P)[g]? = P[g]? := by
  intro L
  induction L with
  | nil => intro P h g hg; rfl
  | cons e rest ih =>
    intro P h g hg
    show (sfold rest (P.set e.2 (e.1.2.2 P)))[g]? = _
    rw [ih _ (fun q hq => h q (List.mem_cons_of_mem _ hq)) g hg,
      List.getElem?_set_ne (by
        intro heq
        have hb2 := h e (List.mem_cons_self _ _)
        rw [heq, hg] at hb2
        exact Bool.noConfusion hb2)]

/-- After the full tied fold, every scheduled slot holds its function of
the *final* vector, provided the slots are distinct and each function
only reads untied slots. -/
theorem sfold_reads (mask : List Bool) :
    ∀ (L : List ((String × String × TiedFn) × ℕ)) (P : List ℚ),
    ((L.map Prod.snd).Nodup) →
    (∀ p ∈ L, p.2 < P.length) →
    (∀ p ∈ L, mask.getD p.2 false = true) →
    (∀ p ∈ L, ∀ x y : List ℚ, x.length = y.length →
      (∀ g : ℕ, mask.getD g false = false → x[g]? = y[g]?) →
      p.1.2.2 x = p.1.2.2 y) →
    ∀ p ∈ L, (sfold L P)[p.2]? = some (p.1.2.2 (sfold L P)) := by
  intro L
  induction L with
  | nil => intro P hnd hlt hmask hins p hp; simp at hp
  | cons e rest ih =>
    intro P hnd hlt hmask hins p hp
    have hlen1 : (P.set e.2 (e.1.2.2 P)).length = P.length :=
      List.length_set P _ _
    rcases List.mem_cons.mp hp with hpe | hpr
    · subst hpe
      have hslots : p.2 ∉ rest.map Prod.snd := by
        simp only [List.map_cons, List.nodup_cons] at hnd
        exact hnd.1
      have hne : ∀ q ∈ rest, q.2 ≠ p.2 := by
        intro q hq heq
        exact hslots (heq ▸ List.mem_map_of_mem Prod.snd hq)
      show (sfold rest (P.set p.2 (p.1.2.2 P)))[p.2]? = _
      rw [sfold_get_untouched rest _ p.2 hne,
        List.getElem?_set_self (hlt p (List.mem_cons_self _ _))]
      refine congrArg some ?_
      refine hins p (List.mem_cons_self _ _) P
        (sfold rest (P.set p.2 (p.1.2.2 P)))
        (by rw [sfold_length, hlen1]) ?_
      intro g hg
      rw [sfold_agree_mask mask rest _
        (fun q hq => hmask q (List.mem_cons_of_mem _ hq)) g hg,
        List.getElem?_set_ne (by
          intro heq
          have hm := hmask p (List.mem_cons_self _ _)
          rw [heq, hg] at hm
          exact Bool.noConfusion hm)]
    · show (sfold rest (P.set e.2 (e.1.2.2 P)))[p.2]? = _
      exact ih (P.set e.2 (e.1.2.2 P))
        (by simp only [List.map_cons, List.nodup_cons] at hnd; exact hnd.2)
        (fun q hq => by rw [hlen1]; exact hlt q (List.mem_cons_of_mem _ hq))
        (fun q hq => hmask q (List.mem_cons_of_mem _ hq))
        (fun q hq => hins q (List.mem_cons_of_mem _ hq)) p hpr

/-- A tied parameter's key entry in the per-component key list is `-99`. -/
theorem freeKeysCompSpec_tied :
    ∀ (ts : List (String × Bool × Option TiedFn)) (j i : ℕ)
      (t : String × Bool × Option TiedFn),
    ts[i]? = some t → (t.2.2).isSome →
    (freeKeysCompSpec ts j)[i]? = some (t.1, (-99 : ℤ)) := by
  intro ts
  induction ts with
  | nil => intro j i t h ht; simp at h
  | cons t0 ts' ih =>
    intro j i t h ht
    cases i with
    | zero =>
      have ht0 : t0 = t := by simpa using h
      subst ht0
      rw [show freeKeysCompSpec (t0 :: ts') j =
        (t0.1, (-99 : ℤ)) :: freeKeysCompSpec ts' j by
          simp only [freeKeysCompSpec]
          rw [if_pos (Or.inr ht)]]
      simp
    | succ i0 =>
      have h' : ts'[i0]? = some t := by simpa using h
      by_cases hfree : t0.2.1 = true ∨ (t0.2.2).isSome
      · simp only [freeKeysCompSpec, if_pos hfree, List.getElem?_cons_succ]
        exact ih j i0 t h' ht
      · simp only [freeKeysCompSpec, if_neg hfree, List.getElem?_cons_succ]
        exact ih (j + 1) i0 t h' ht

/-- The key table lists the components positionally, each with its
`freeKeysCompSpec` entry list. -/
theorem freeKeysSpec_getElem :
    ∀ (C : List DysmalComponent) (j k : ℕ) (c : DysmalComponent),
    C[k]? = some c →
    ∃ j', (freeKeysSpec C j)[k]? =
      some (c.name, freeKeysCompSpec c.paramTriples j') := by
  intro C
  induction C with
  | nil => intro j k c h; simp at h
  | cons c0 C' ih =>
    intro j k c h
    cases k with
    | zero =>
      have hc0 : c0 = c := by simpa using h
      subst hc0
      exact ⟨j, by simp [freeKeysSpec]⟩
    | succ k0 =>
      obtain ⟨j', hj'⟩ := ih (j + c0.freeCount) k0 c (by simpa using h)
      exact ⟨j', by simpa [freeKeysSpec] using hj'⟩

/-- C6 (amended).  Tied parameters are excluded from the free-parameter
key table: the table is the positional `freeKeysSpec` assignment and every
tied parameter's entry is `-99` rather than a `theta` index.  And after
`update_parameters`, every tied parameter's slot holds its tying function
applied to the final state — PROVIDED each tying function only reads
untied slots of the parameter vector: the single in-order update pass of
`_update_tied_parameters` (models.py 1214-1228) does not re-run earlier
entries, so a tying function that reads another tied slot can be left
stale (see the counterexample). -/
theorem tied_parameters_keys_and_update (ms : ModelSet) (hwf : ms.WF)
    (htc : ms.nparams_tied = tiedCountTotal ms.components)
    (theta : List ℚ) (hlen : (theta.length : ℤ) = ms.nparams_free)
    (hins : ∀ p ∈ tiedPairs 0 ms.components, ∀ x y : List ℚ,
      x.length = y.length →
      (∀ g : ℕ, (tiedMask ms.components).getD g false = false →
        x[g]? = y[g]?) →
      p.1.2.2 x = p.1.2.2 y) :
    (ms.get_free_parameter_keys = some (freeKeysSpec ms.components 0) ∧
     ∀ (k : ℕ) (c : DysmalComponent), ms.components[k]? = some c →
       ∃ j, (freeKeysSpec ms.components 0)[k]? =
           some (c.name, freeKeysCompSpec c.paramTriples j) ∧
         ∀ (i : ℕ) (t : String × Bool × Option TiedFn),
           c.paramTriples[i]? = some t → (t.2.2).isSome →
           (freeKeysCompSpec c.paramTriples j)[i]? =
             some (t.1, (-99 : ℤ))) ∧
    ∃ ms', ms.update_parameters theta = some ms' ∧
      ∀ p ∈ tiedPairs 0 ms.components,
        ms'.parameters[p.2]? = some (p.1.2.2 ms'.parameters) := by
  refine ⟨⟨?_, ?_⟩, ?_⟩
  · unfold ModelSet.get_free_parameter_keys
    rw [get_free_parameters_spec ms hwf]
    rfl
  · intro k c hk
    obtain ⟨j, hj⟩ := freeKeysSpec_getElem ms.components 0 k c hk
    exact ⟨j, hj, fun i t hit hts => freeKeysCompSpec_tied _ j i t hit hts⟩
  · obtain ⟨ms1, hak, hs1, hk1, hn1, hf1, ht1, hp1⟩ :=
      applyFreeKeys_spec ms hwf theta ms.components [] ms []
        ms.parameters (by simp) rfl rfl (by simp)
        (by simp [totalLen]) hwf.params_len 0
    have hplen1 : ms1.parameters.length = ms.parameters.length := by
      rw [hp1]
      simp only [List.nil_append]
      rw [scatterComps_length]
    obtain ⟨ms', hut, hs2, hk2, hn2, hf2, ht2, hp2⟩ :=
      update_tied_spec ms hwf ms1 hs1 hk1 hplen1 (by rw [ht1, htc])
    refine ⟨ms', ?_, ?_⟩
    · unfold ModelSet.update_parameters
      rw [if_neg (not_ne_iff.mpr hlen)]
      simp only [get_free_parameters_spec ms hwf, hak]
      exact hut
    · intro p hp
      rw [hp2]
      refine sfold_reads (tiedMask ms.components)
        (tiedPairs 0 ms.components) ms1.parameters
        (tiedPairs_slots_nodup _ 0) ?_ ?_ hins p hp
      · intro q hq
        obtain ⟨L1, c, L2, i, hsplit, hname, hpn, htf, hslot⟩ :=
          tiedPairs_resolution ms q hq
        have hi : i < c.param_names.length := by
          by_contra hge
          rw [List.getElem?_eq_none (by omega)] at hpn
          exact Option.noConfusion hpn
        rw [hplen1, hwf.params_len, hsplit, totalLen_append, totalLen_cons]
        omega
      · intro q hq
        obtain ⟨L1, c, L2, i, hsplit, hname, hpn, htf, hslot⟩ :=
          tiedPairs_resolution ms q hq
        rw [hslot]
        exact tiedMask_getD_tied ms.components hwf.comps L1 c L2 hsplit i
          q.1.2.2 htf

/-- A tying function that reads another tied slot (slot 2). -/
def fn1C6 : TiedFn := fun ps => ps.getD 2 0

/-- A constant tying function. -/
def fn2C6 : TiedFn := fun _ => 5

def cX : DysmalComponent :=
  ⟨"c", ["p0", "p1", "p2"], [0, 0, 0], [false, false, false],
    [none, some fn1C6, some fn2C6]⟩

def msX : ModelSet := ⟨[cX], [0, 0, 0], [("c", [0, 1, 2])], 3, 1, 2⟩

/-- C6 counterexample: with `p1` tied to the value of `p2` and `p2` tied
to the constant 5, `update_parameters [3]` updates `p1` before `p2` in the
single pass, leaving `p1 = 0` while its tying function evaluated on the
final state gives 5: a tied parameter's stored value does NOT always equal
its tying function of the post-update `ModelSet`. -/
theorem tied_parameters_update_counterexample :
    (msX.update_parameters [3]).map ModelSet.parameters = some [3, 0, 5] ∧
    [(3 : ℚ), 0, 5].getD 1 0 = 0 ∧
    fn1C6 [3, 0, 5] = 5 ∧
    (0 : ℚ) ≠ 5 :=
  ⟨rfl, rfl, rfl, by norm_num⟩

/-- A tying function reading only the untied slot 0. -/
def fnW6 : TiedFn := fun ps => ps.getD 0 0 + 1

def cW6 : DysmalComponent :=
  ⟨"c", ["a", "b"], [0, 0], [false, false], [none, some fnW6]⟩

def msW6 : ModelSet := ⟨[cW6], [0, 0], [("c", [0, 1])], 2, 1, 1⟩

theorem msW6_wf : msW6.WF := by
  refine ⟨?_, ?_, ?_, ?_, ?_⟩
  · intro c hc
    simp only [msW6, List.mem_cons, List.not_mem_nil, or_false] at hc
    subst hc
    exact ⟨rfl, rfl, rfl, by decide⟩
  · decide
  · show msW6.param_keys = offsetsFrom 0 [cW6]
    simp [msW6, offsetsFrom, cW6, totalLen, List.range_succ]
  · simp [msW6, totalLen, cW6]
  · decide

/-- C6 witness: the amended statement at the concrete one-component model
whose tying function reads only the untied slot. -/
theorem tied_parameters_keys_and_update_witness :
    (msW6.get_free_parameter_keys =
        some (freeKeysSpec msW6.components 0) ∧
     ∀ (k : ℕ) (c : DysmalComponent), msW6.components[k]? = some c →
       ∃ j, (freeKeysSpec msW6.components 0)[k]? =
           some (c.name, freeKeysCompSpec c.paramTriples j) ∧
         ∀ (i : ℕ) (t : String × Bool × Option TiedFn),
           c.paramTriples[i]? = some t → (t.2.2).isSome →
           (freeKeysCompSpec c.paramTriples j)[i]? =
             some (t.1, (-99 : ℤ))) ∧
    ∃ ms', msW6.update_parameters [7] = some ms' ∧
      ∀ p ∈ tiedPairs 0 msW6.components,
        ms'.parameters[p.2]? = some (p.1.2.2 ms'.parameters) :=
  tied_parameters_keys_and_update msW6 msW6_wf (by decide) [7] (by decide)
    (by
      intro p hp x y hxy hagree
      have hpmem : p = ((cW6.name, "b", fnW6), 1) := by
        simp only [msW6, tiedPairs, cW6, compTiedPairs, List.append_nil,
          List.mem_cons, List.not_mem_nil, or_false] at hp
        exact hp
      subst hpmem
      show fnW6 x = fnW6 y
      have h0 : x[0]? = y[0]? := hagree 0 (by decide)
      simp only [fnW6, List.getD_eq_getElem?_getD, h0])

/-! ### Bookkeeping invariants of the mutation API -/

/-- Total number of explicitly fixed parameters of a component list. -/
def nfixedTotal (l : List DysmalComponent) : ℕ :=
  (l.map DysmalComponent.nfixed).sum

/-- The bookkeeping invariants of `ModelSet`, plus the structural facts
needed to preserve them across mutations. -/
structure ModelSet.Invariants (ms : ModelSet) : Prop where
  wfc : ∀ c ∈ ms.components, c.CWF
  names : (ms.components.map DysmalComponent.name).Nodup
  keys : ms.param_keys = offsetsFrom 0 ms.components
  npar : ms.nparams = totalLen ms.components
  counters : ms.nparams_free + (ms.nparams_tied : ℤ) +
    (nfixedTotal ms.components : ℤ) = (ms.nparams : ℤ)
  lock : ms.parameters = ms.components.flatMap DysmalComponent.values

/-- The name and parameter-count view of a component: everything
`offsetsFrom` and the length bookkeeping read. -/
def nameLen (c : DysmalComponent) : String × ℕ :=
  (c.name, c.param_names.length)

theorem offsetsFrom_congr (C D : List DysmalComponent)
    (h : C.map nameLen = D.map nameLen) :
    ∀ n : ℕ, offsetsFrom n C = offsetsFrom n D := by
  induction C generalizing D with
  | nil =>
    cases D with
    | nil => intro n; rfl
    | cons d D' => simp at h
  | cons c C' ih =>
    cases D with
    | nil => simp at h
    | cons d D' =>
      intro n
      simp only [List.map_cons, List.cons.injEq] at h
      have hn : c.name = d.name := congrArg Prod.fst h.1
      have hl : c.param_names.length = d.param_names.length :=
        congrArg Prod.snd h.1
      simp only [offsetsFrom, hn, hl, ih D' h.2]

theorem totalLen_congr (C D : List DysmalComponent)
    (h : C.map nameLen = D.map nameLen) : totalLen C = totalLen D := by
  induction C generalizing D with
  | nil => cases D with
    | nil => rfl
    | cons d D' => simp at h
  | cons c C' ih =>
    cases D with
    | nil => simp at h
    | cons d D' =>
      simp only [List.map_cons, List.cons.injEq] at h
      have hl : c.param_names.length = d.param_names.length :=
        congrArg Prod.snd h.1
      rw [totalLen_cons, totalLen_cons, hl, ih D' h.2]

/-- Updating a component in place (keeping its name and parameter names)
preserves the name-and-length view. -/
theorem map_nameLen_update (C : List DysmalComponent) (cn : String)
    (F : DysmalComponent → DysmalComponent)
    (hF : ∀ c, (F c).name = c.name ∧ (F c).param_names = c.param_names) :
    ((C.map fun c0 => if c0.name = cn then F c0 else c0).map nameLen) =
      C.map nameLen := by
  induction C with
  | nil => rfl
  | cons c C' ih =>
    simp only [List.map_cons, ih]
    congr 1
    split_ifs with hname
    · simp [nameLen, (hF c).1, (hF c).2]
    · rfl

theorem map_name_update (C : List DysmalComponent) (cn : String)
    (F : DysmalComponent → DysmalComponent)
    (hF : ∀ c, (F c).name = c.name) :
    ((C.map fun c0 => if c0.name = cn then F c0 else c0).map
      DysmalComponent.name) = C.map DysmalComponent.name := by
  induction C with
  | nil => rfl
  | cons c C' ih =>
    simp only [List.map_cons, ih]
    congr 1
    split_ifs with hname
    · exact hF c
    · rfl

theorem map_if_id (L : List DysmalComponent) (cn : String)
    (F : DysmalComponent → DysmalComponent)
    (h : ∀ c0 ∈ L, c0.name ≠ cn) :
    (L.map fun c0 => if c0.name = cn then F c0 else c0) = L := by
  induction L with
  | nil => rfl
  | cons c0 L' ih =>
    rw [List.map_cons, if_neg (h c0 (by simp)),
      ih fun c1 h1 => h c1 (List.mem_cons_of_mem _ h1)]

/-- When every other component's name differs, the in-place update of the
component dictionary rewrites exactly the split-out component. -/
theorem map_update_at_name (L1 L2 : List DysmalComponent)
    (c : DysmalComponent) (cn : String)
    (F : DysmalComponent → DysmalComponent) (hc : c.name = cn)
    (h1 : ∀ c0 ∈ L1, c0.name ≠ cn) (h2 : ∀ c0 ∈ L2, c0.name ≠ cn) :
    ((L1 ++ c :: L2).map fun c0 => if c0.name = cn then F c0 else c0) =
      L1 ++ F c :: L2 := by
  rw [List.map_append, List.map_cons, map_if_id L1 cn F h1,
    map_if_id L2 cn F h2, if_pos hc]

/-- Both sides of a duplicate-free split avoid the split-out name. -/
theorem name_unique_of_split (L1 L2 : List DysmalComponent)
    (c : DysmalComponent)
    (h : ((L1 ++ c :: L2).map DysmalComponent.name).Nodup) :
    (∀ c0 ∈ L1, c0.name ≠ c.name) ∧ ∀ c0 ∈ L2, c0.name ≠ c.name := by
  refine ⟨names_fresh_of_nodup L1 L2 c h, ?_⟩
  rw [List.map_append, List.nodup_append] at h
  have hcons : ((c :: L2).map DysmalComponent.name).Nodup := h.2.1
  rw [List.map_cons, List.nodup_cons] at hcons
  intro c0 hc0 heq
  exact hcons.1 (heq ▸ List.mem_map_of_mem _ hc0)

theorem values_total_length (C : List DysmalComponent)
    (h : ∀ c ∈ C, c.CWF) :
    (C.flatMap DysmalComponent.values).length = totalLen C := by
  induction C with
  | nil => simp [totalLen]
  | cons c rest ih =>
    rw [List.flatMap_cons, List.length_append, totalLen_cons,
      (h c (by simp)).values_len,
      ih fun c0 h0 => h c0 (List.mem_cons_of_mem _ h0)]

theorem set_append_left_q (l1 l2 : List ℚ) (i : ℕ) (v : ℚ)
    (h : i < l1.length) :
    (l1 ++ l2).set i v = l1.set i v ++ l2 :=
  List.set_append_left _ _ h

theorem count_true_set (l : List Bool) :
    ∀ (i : ℕ) (a b : Bool), l[i]? = some a →
    (l.set i b).count true + (if a = true then 1 else 0) =
      l.count true + (if b = true then 1 else 0) := by
  induction l with
  | nil => intro i a b h; simp at h
  | cons x xs ih =>
    intro i a b h
    cases i with
    | zero =>
      have hxa : x = a := by simpa using h
      subst hxa
      cases x <;> cases b <;> simp [List.count_cons]
    | succ i0 =>
      have h' : xs[i0]? = some a := by simpa using h
      have := ih i0 a b h'
      simp only [List.set_cons_succ, List.count_cons]
      cases x <;> simp <;> omega

theorem nfixedTotal_update (C : List DysmalComponent) (cn : String)
    (F : DysmalComponent → DysmalComponent)
    (hF : ∀ c, (F c).fixed = c.fixed) :
    nfixedTotal (C.map fun c0 => if c0.name = cn then F c0 else c0) =
      nfixedTotal C := by
  induction C with
  | nil => rfl
  | cons c C' ih =>
    simp only [List.map_cons, nfixedTotal, List.sum_cons, List.map_cons]
    simp only [nfixedTotal] at ih
    rw [ih]
    congr 1
    split_ifs with hname
    · simp [DysmalComponent.nfixed, hF c]
    · rfl

/-- `setParamValueRaw` preserves every bookkeeping invariant: it writes
the same value to the component's own array and to the matching global
slot of the concatenated vector. -/
theorem setParamValueRaw_invariants (ms ms' : ModelSet) (cn pn : String)
    (v : ℚ) (hinv : ms.Invariants)
    (h : ms.setParamValueRaw cn pn v = some ms') : ms'.Invariants := by
  unfold ModelSet.setParamValueRaw at h
  cases hfc : ms.findComp cn with
  | none => simp [hfc] at h
  | some comp =>
  simp only [hfc] at h
  cases hidx : comp.param_names.findIdx? fun s => s = pn with
  | none => simp [hidx] at h
  | some i =>
  simp only [hidx] at h
  cases hks : ms.findKeys cn with
  | none => simp [hks] at h
  | some ks =>
  simp only [hks] at h
  cases hgi : ks[i]? with
  | none => simp [hgi] at h
  | some gi =>
  simp only [hgi] at h
  by_cases hlt : gi < ms.parameters.length
  swap
  · rw [if_neg hlt] at h
    exact Option.noConfusion h
  rw [if_pos hlt] at h
  have hrec := (Option.some.inj h).symm
  subst hrec
  have hfc' : ms.components.find? (fun c => c.name = cn) = some comp := hfc
  have hmem : comp ∈ ms.components := List.mem_of_find?_eq_some hfc'
  have hp := List.find?_some hfc'
  have hname : comp.name = cn := by simpa using hp
  obtain ⟨L1, L2, hsplit⟩ := List.append_of_mem hmem
  obtain ⟨hfr1, hfr2⟩ := name_unique_of_split L1 L2 comp
    (by rw [← hsplit]; exact hinv.names)
  have hfr1' : ∀ c0 ∈ L1, c0.name ≠ cn := fun c0 h0 => hname ▸ hfr1 c0 h0
  have hfr2' : ∀ c0 ∈ L2, c0.name ≠ cn := fun c0 h0 => hname ▸ hfr2 c0 h0
  have hks' : ms.findKeys cn = some
      ((List.range comp.param_names.length).map
        fun k => k + (0 + totalLen L1)) := by
    unfold ModelSet.findKeys
    rw [hinv.keys, hsplit, ← hname, offsetsFrom_find 0 L1 L2 comp hfr1]
    simp
  have hkseq : ks = (List.range comp.param_names.length).map
      fun k => k + (0 + totalLen L1) :=
    Option.some.inj ((hks.symm).trans hks')
  rw [hkseq] at hgi
  have hilen : i < comp.param_names.length := by
    by_contra hge
    rw [List.getElem?_eq_none (by simp; omega)] at hgi
    exact Option.noConfusion hgi
  rw [range_map_getElem? _ _ _ hilen] at hgi
  have hgieq : gi = i + (0 + totalLen L1) := (Option.some.inj hgi).symm
  have hcomp_cwf : comp.CWF := hinv.wfc comp hmem
  have hCmap : (ms.components.map fun c0 => if c0.name = cn then
      { c0 with values := c0.values.set i v } else c0) =
      L1 ++ { comp with values := comp.values.set i v } :: L2 := by
    rw [hsplit]
    exact map_update_at_name L1 L2 comp cn _ hname hfr1' hfr2'
  refine ⟨?_, ?_, ?_, ?_, ?_, ?_⟩
  · intro c hc
    simp only [hCmap] at hc
    rw [List.mem_append, List.mem_cons] at hc
    rcases hc with hc | hc | hc
    · exact hinv.wfc c (by rw [hsplit]; exact List.mem_append_left _ hc)
    · subst hc
      exact ⟨by rw [List.length_set]; exact hcomp_cwf.values_len,
        hcomp_cwf.fixed_len, hcomp_cwf.tied_len, hcomp_cwf.nodup⟩
    · exact hinv.wfc c (by
        rw [hsplit]
        exact List.mem_append_right _ (List.mem_cons_of_mem _ hc))
  · show ((ms.components.map fun c0 => if c0.name = cn then
      { c0 with values := c0.values.set i v } else c0).map
        DysmalComponent.name).Nodup
    rw [map_name_update ms.components cn
      (fun c0 => { c0 with values := c0.values.set i v }) fun c => rfl]
    exact hinv.names
  · show ms.param_keys = offsetsFrom 0 _
    rw [hinv.keys]
    exact (offsetsFrom_congr _ _
      (map_nameLen_update ms.components cn
        (fun c0 => { c0 with values := c0.values.set i v })
        fun c => ⟨rfl, rfl⟩) 0).symm
  · show ms.nparams = totalLen _
    rw [hinv.npar]
    exact (totalLen_congr _ _
      (map_nameLen_update ms.components cn
        (fun c0 => { c0 with values := c0.values.set i v })
        fun c => ⟨rfl, rfl⟩)).symm
  · show ms.nparams_free + (ms.nparams_tied : ℤ) +
      (nfixedTotal _ : ℤ) = (ms.nparams : ℤ)
    rw [nfixedTotal_update ms.components cn
      (fun c0 => { c0 with values := c0.values.set i v }) fun c => rfl]
    exact hinv.counters
  · show ms.parameters.set gi v =
      (ms.components.map fun c0 => if c0.name = cn then
        { c0 with values := c0.values.set i v } else c0).flatMap
          DysmalComponent.values
    rw [hCmap, hinv.lock, hsplit]
    have hA : (L1.flatMap DysmalComponent.values).length = totalLen L1 :=
      values_total_length L1 fun c0 h0 => hinv.wfc c0
        (by rw [hsplit]; exact List.mem_append_left _ h0)
    rw [List.flatMap_append, List.flatMap_cons, List.flatMap_append,
      List.flatMap_cons]
    rw [show gi = (L1.flatMap DysmalComponent.values).length + i by
      rw [hA]; omega]
    rw [set_append_right, set_append_left_q _ _ _ _ (by
      rw [hcomp_cwf.values_len]; omega)]

theorem foldlM_raw_invariants :
    ∀ (sched : List (String × String × TiedFn)) (ms msN : ModelSet),
    ms.Invariants →
    sched.foldlM (fun acc e =>
      acc.setParamValueRaw e.1 e.2.1 (e.2.2 acc.parameters)) ms =
      some msN →
    msN.Invariants := by
  intro sched
  induction sched with
  | nil =>
    intro ms msN hinv h
    have heq : ms = msN := by simpa using h
    exact heq ▸ hinv
  | cons e rest ih =>
    intro ms msN hinv h
    rw [List.foldlM_cons] at h
    rcases Option.bind_eq_some.mp h with ⟨ms1, h1, h2⟩
    exact ih ms1 msN (setParamValueRaw_invariants ms ms1 _ _ _ hinv h1) h2

theorem update_tied_invariants (ms ms' : ModelSet) (hinv : ms.Invariants)
    (h : ms._update_tied_parameters = some ms') : ms'.Invariants := by
  unfold ModelSet._update_tied_parameters at h
  split at h
  · exact foldlM_raw_invariants ms.tiedSchedule ms ms' hinv h
  · exact (Option.some.inj h) ▸ hinv

theorem set_parameter_value_invariants (ms ms' : ModelSet)
    (cn pn : String) (v : ℚ) (skip : Bool) (hinv : ms.Invariants)
    (h : ms.set_parameter_value cn pn v skip = some ms') :
    ms'.Invariants := by
  unfold ModelSet.set_parameter_value at h
  cases hraw : ms.setParamValueRaw cn pn v with
  | none => simp [hraw] at h
  | some ms1 =>
    simp only [hraw] at h
    have hinv1 := setParamValueRaw_invariants ms ms1 cn pn v hinv hraw
    split at h
    · exact (Option.some.inj h) ▸ hinv1
    · exact update_tied_invariants ms1 ms' hinv1 h

theorem applyFreeEntries_invariants (theta : List ℚ) (cname : String) :
    ∀ (entries : List (String × ℤ)) (ms msN : ModelSet),
    ms.Invariants → applyFreeEntries theta cname ms entries = some msN →
    msN.Invariants := by
  intro entries
  induction entries with
  | nil =>
    intro ms msN hinv h
    have heq : ms = msN := by simpa [applyFreeEntries] using h
    exact heq ▸ hinv
  | cons e rest ih =>
    intro ms msN hinv h
    simp only [applyFreeEntries] at h
    split at h
    · cases hraw : ms.setParamValueRaw cname e.1
        (theta.getD e.2.toNat 0) with
      | none => rw [hraw] at h; exact Option.noConfusion h
      | some ms1 =>
        rw [hraw] at h
        exact ih ms1 msN
          (setParamValueRaw_invariants ms ms1 _ _ _ hinv hraw) h
    · exact ih ms msN hinv h

theorem applyFreeKeys_invariants (theta : List ℚ) :
    ∀ (pk : List (String × List (String × ℤ))) (ms msN : ModelSet),
    ms.Invariants → applyFreeKeys theta ms pk = some msN →
    msN.Invariants := by
  intro pk
  induction pk with
  | nil =>
    intro ms msN hinv h
    have heq : ms = msN := by simpa [applyFreeKeys] using h
    exact heq ▸ hinv
  | cons e rest ih =>
    intro ms msN hinv h
    simp only [applyFreeKeys] at h
    cases he : applyFreeEntries theta e.1 ms e.2 with
    | none => rw [he] at h; exact Option.noConfusion h
    | some ms1 =>
      rw [he] at h
      exact ih ms1 msN
        (applyFreeEntries_invariants theta e.1 e.2 ms ms1 hinv he) h

theorem update_parameters_invariants (ms ms' : ModelSet) (theta : List ℚ)
    (hinv : ms.Invariants)
    (h : ms.update_parameters theta = some ms') : ms'.Invariants := by
  unfold ModelSet.update_parameters at h
  split at h
  · exact Option.noConfusion h
  · cases hg : ms._get_free_parameters with
    | none => rw [hg] at h; exact Option.noConfusion h
    | some pk =>
      simp only [hg] at h
      cases ha : applyFreeKeys theta ms pk.2 with
      | none => simp [ha] at h
      | some ms1 =>
        simp only [ha] at h
        exact update_tied_invariants ms1 ms'
          (applyFreeKeys_invariants theta pk.2 ms ms1 hinv ha) h

theorem offsetsFrom_mem_name :
    ∀ (C : List DysmalComponent) (n : ℕ) (p : String × List ℕ),
    p ∈ offsetsFrom n C → ∃ c0 ∈ C, p.1 = c0.name := by
  intro C
  induction C with
  | nil => intro n p hp; simp [offsetsFrom] at hp
  | cons c C' ih =>
    intro n p hp
    simp only [offsetsFrom, List.mem_cons] at hp
    rcases hp with hp | hp
    · exact ⟨c, by simp, by rw [hp]⟩
    · obtain ⟨c0, hc0, hn⟩ := ih (n + c.param_names.length) p hp
      exact ⟨c0, List.mem_cons_of_mem _ hc0, hn⟩

theorem offsetsFrom_append (A B : List DysmalComponent) :
    ∀ n : ℕ, offsetsFrom n (A ++ B) =
      offsetsFrom n A ++ offsetsFrom (n + totalLen A) B := by
  induction A with
  | nil => intro n; simp [offsetsFrom, totalLen]
  | cons a A' ih =>
    intro n
    simp only [List.cons_append, offsetsFrom, List.append_eq, totalLen_cons]
    rw [ih (n + a.param_names.length), Nat.add_assoc]

/-- `_add_comp` of a wellformed fresh component preserves the
invariants. -/
theorem add_comp_invariants (ms : ModelSet) (c : DysmalComponent)
    (hinv : ms.Invariants) (hc : c.CWF)
    (hfresh : ∀ c0 ∈ ms.components, c0.name ≠ c.name) :
    (ms._add_comp c).Invariants := by
  have hcomps : dictInsertComp ms.components c = ms.components ++ [c] := by
    unfold dictInsertComp
    rw [if_neg]
    simp only [List.any_eq_true, not_exists]
    intro c0
    rw [not_and]
    intro hc0
    simp [hfresh c0 hc0]
  have hkeysfresh : ∀ p ∈ ms.param_keys, p.1 ≠ c.name := by
    intro p hp
    rw [hinv.keys] at hp
    obtain ⟨c0, hc0, hn⟩ := offsetsFrom_mem_name ms.components 0 p hp
    rw [hn]
    exact hfresh c0 hc0
  have hkeys : dictInsertKeys ms.param_keys
      (c.name, (List.range c.param_names.length).map
        fun i => i + ms.nparams) =
      ms.param_keys ++ [(c.name, (List.range c.param_names.length).map
        fun i => i + ms.nparams)] := by
    unfold dictInsertKeys
    rw [if_neg]
    simp only [List.any_eq_true, not_exists]
    intro p
    rw [not_and]
    intro hp
    simp [hkeysfresh p hp]
  refine ⟨?_, ?_, ?_, ?_, ?_, ?_⟩
  · intro c0 hc0
    have hc0' : c0 ∈ ms.components ++ [c] := by
      rw [← hcomps]
      exact hc0
    rw [List.mem_append, List.mem_cons] at hc0'
    rcases hc0' with hc0 | hc0 | hc0
    · exact hinv.wfc c0 hc0
    · exact hc0 ▸ hc
    · simp at hc0
  · show ((dictInsertComp ms.components c).map DysmalComponent.name).Nodup
    rw [hcomps, List.map_append]
    rw [List.nodup_append]
    refine ⟨hinv.names, by simp, ?_⟩
    intro a ha hb
    simp only [List.map_cons, List.map_nil, List.mem_cons,
      List.not_mem_nil, or_false] at hb
    obtain ⟨c0, hc0, hn⟩ := List.mem_map.mp ha
    exact hfresh c0 hc0 (hn.trans hb)
  · show dictInsertKeys _ _ = offsetsFrom 0 (dictInsertComp ms.components c)
    rw [hcomps, hkeys, hinv.keys, offsetsFrom_append]
    congr 1
    simp only [offsetsFrom]
    rw [hinv.npar]
    simp
  · show ms.nparams + c.param_names.length =
      totalLen (dictInsertComp ms.components c)
    rw [hcomps, totalLen_append, hinv.npar]
    simp [totalLen]
  · show ms.nparams_free + (c.param_names.length : ℤ) - (c.nfixed : ℤ) -
        (c.ntied : ℤ) + ((ms.nparams_tied + c.ntied : ℕ) : ℤ) +
        (nfixedTotal (dictInsertComp ms.components c) : ℤ) =
      ((ms.nparams + c.param_names.length : ℕ) : ℤ)
    rw [hcomps]
    have hnf : nfixedTotal (ms.components ++ [c]) =
        nfixedTotal ms.components + c.nfixed := by
      simp [nfixedTotal]
    rw [hnf]
    have hcount := hinv.counters
    push_cast
    push_cast at hcount
    omega
  · show ms.parameters ++ c.values =
      (dictInsertComp ms.components c).flatMap DysmalComponent.values
    rw [hcomps, List.flatMap_append, hinv.lock]
    simp

/-- `set_parameter_fixed` preserves the invariants whenever the requested
flag actually differs from the current one (a genuine free/fixed
toggle). -/
theorem set_parameter_fixed_invariants (ms ms' : ModelSet)
    (cn pn : String) (fix : Bool) (hinv : ms.Invariants)
    (hcond : ∀ c ∈ ms.components, c.name = cn →
      ∀ i : ℕ, (c.param_names.findIdx? fun s => s = pn) = some i →
        c.fixed[i]? = some (!fix))
    (h : ms.set_parameter_fixed cn pn fix = some ms') : ms'.Invariants := by
  unfold ModelSet.set_parameter_fixed at h
  cases hfc : ms.findComp cn with
  | none => simp [hfc] at h
  | some comp =>
  simp only [hfc] at h
  cases hidx : comp.param_names.findIdx? fun s => s = pn with
  | none => simp [hidx] at h
  | some i =>
  simp only [hidx] at h
  have hrec := (Option.some.inj h).symm
  subst hrec
  have hfc' : ms.components.find? (fun c => c.name = cn) = some comp := hfc
  have hmem : comp ∈ ms.components := List.mem_of_find?_eq_some hfc'
  have hp := List.find?_some hfc'
  have hname : comp.name = cn := by simpa using hp
  have hfix : comp.fixed[i]? = some (!fix) :=
    hcond comp hmem hname i hidx
  obtain ⟨L1, L2, hsplit⟩ := List.append_of_mem hmem
  obtain ⟨hfr1, hfr2⟩ := name_unique_of_split L1 L2 comp
    (by rw [← hsplit]; exact hinv.names)
  have hfr1' : ∀ c0 ∈ L1, c0.name ≠ cn := fun c0 h0 => hname ▸ hfr1 c0 h0
  have hfr2' : ∀ c0 ∈ L2, c0.name ≠ cn := fun c0 h0 => hname ▸ hfr2 c0 h0
  have hcomp_cwf : comp.CWF := hinv.wfc comp hmem
  have hCmap : (ms.components.map fun c0 => if c0.name = cn then
      { c0 with fixed := c0.fixed.set i fix } else c0) =
      L1 ++ { comp with fixed := comp.fixed.set i fix } :: L2 := by
    rw [hsplit]
    exact map_update_at_name L1 L2 comp cn _ hname hfr1' hfr2'
  refine ⟨?_, ?_, ?_, ?_, ?_, ?_⟩
  · intro c hc
    simp only [hCmap] at hc
    rw [List.mem_append, List.mem_cons] at hc
    rcases hc with hc | hc | hc
    · exact hinv.wfc c (by rw [hsplit]; exact List.mem_append_left _ hc)
    · subst hc
      exact ⟨hcomp_cwf.values_len,
        by rw [List.length_set]; exact hcomp_cwf.fixed_len,
        hcomp_cwf.tied_len, hcomp_cwf.nodup⟩
    · exact hinv.wfc c (by
        rw [hsplit]
        exact List.mem_append_right _ (List.mem_cons_of_mem _ hc))
  · show ((ms.components.map fun c0 => if c0.name = cn then
      { c0 with fixed := c0.fixed.set i fix } else c0).map
        DysmalComponent.name).Nodup
    rw [map_name_update ms.components cn
      (fun c0 => { c0 with fixed := c0.fixed.set i fix }) fun c => rfl]
    exact hinv.names
  · show ms.param_keys = offsetsFrom 0 _
    rw [hinv.keys]
    exact (offsetsFrom_congr _ _
      (map_nameLen_update ms.components cn
        (fun c0 => { c0 with fixed := c0.fixed.set i fix })
        fun c => ⟨rfl, rfl⟩) 0).symm
  · show ms.nparams = totalLen _
    rw [hinv.npar]
    exact (totalLen_congr _ _
      (map_nameLen_update ms.components cn
        (fun c0 => { c0 with fixed := c0.fixed.set i fix })
        fun c => ⟨rfl, rfl⟩)).symm
  · show (if fix then ms.nparams_free - 1 else ms.nparams_free + 1) +
        (ms.nparams_tied : ℤ) + (nfixedTotal _ : ℤ) = (ms.nparams : ℤ)
    have hnf : nfixedTotal ((ms.components.map fun c0 =>
        if c0.name = cn then
          { c0 with fixed := c0.fixed.set i fix } else c0)) =
        nfixedTotal L1 +
          ((comp.fixed.set i fix).count true + nfixedTotal L2) := by
      rw [hCmap]
      simp [nfixedTotal, DysmalComponent.nfixed]
    have hold : nfixedTotal ms.components =
        nfixedTotal L1 + (comp.fixed.count true + nfixedTotal L2) := by
      rw [hsplit]
      simp [nfixedTotal, DysmalComponent.nfixed]
    have hcnt := count_true_set comp.fixed i (!fix) fix hfix
    have hcounters := hinv.counters
    rw [hold] at hcounters
    rw [hnf]
    cases fix <;> simp only [Bool.not_false, Bool.not_true] at hcnt <;>
      simp only [if_true, if_false, Bool.false_eq_true, reduceIte] <;>
      push_cast at hcounters hcnt ⊢ <;> omega
  · show ms.parameters =
      (ms.components.map fun c0 => if c0.name = cn then
        { c0 with fixed := c0.fixed.set i fix } else c0).flatMap
          DysmalComponent.values
    rw [hCmap, hinv.lock, hsplit]
    simp

theorem empty_invariants : ModelSet.empty.Invariants := by
  refine ⟨?_, ?_, ?_, ?_, ?_, ?_⟩ <;>
    simp [ModelSet.empty, totalLen, nfixedTotal, offsetsFrom]

/-- The states reachable through the mutation API, with
`set_parameter_fixed` restricted to genuine flag toggles (the fix flag
must differ from the parameter's current one). -/
inductive ModelSet.ReachableW : ModelSet → Prop
  | empty : ReachableW ModelSet.empty
  | add (ms : ModelSet) (c : DysmalComponent) : ReachableW ms → c.CWF →
      (∀ c0 ∈ ms.components, c0.name ≠ c.name) →
      ReachableW (ms._add_comp c)
  | setval (ms ms' : ModelSet) (cn pn : String) (v : ℚ) (skip : Bool) :
      ReachableW ms → ms.set_parameter_value cn pn v skip = some ms' →
      ReachableW ms'
  | setfix (ms ms' : ModelSet) (cn pn : String) (fix : Bool) :
      ReachableW ms →
      (∀ c ∈ ms.components, c.name = cn →
        ∀ i : ℕ, (c.param_names.findIdx? fun s => s = pn) = some i →
          c.fixed[i]? = some (!fix)) →
      ms.set_parameter_fixed cn pn fix = some ms' →
      ReachableW ms'
  | update (ms ms' : ModelSet) (theta : List ℚ) :
      ReachableW ms → ms.update_parameters theta = some ms' →
      ReachableW ms'

theorem reachable_invariants (ms : ModelSet)
    (h : ModelSet.ReachableW ms) : ms.Invariants := by
  induction h with
  | empty => exact empty_invariants
  | add ms c hr hc hfresh ih => exact add_comp_invariants ms c ih hc hfresh
  | setval ms ms' cn pn v skip hr hs ih =>
    exact set_parameter_value_invariants ms ms' cn pn v skip ih hs
  | setfix ms ms' cn pn fix hr hcond hs ih =>
    exact set_parameter_fixed_invariants ms ms' cn pn fix ih hcond hs
  | update ms ms' theta hr hs ih =>
    exact update_parameters_invariants ms ms' theta ih hs

/-- C7 (amended).  Along every sequence of API operations — `_add_comp` of
a fresh wellformed component, `set_parameter_value`, `update_parameters`,
and `set_parameter_fixed` restricted to genuine flag toggles — the
bookkeeping invariants hold: `nparams` is the total parameter count,
`nparams_free + nparams_tied + (number of explicitly fixed parameters)`
equals `nparams`, and the concatenated parameter vector is exactly the
concatenation of the components' own arrays.  Unrestricted
`set_parameter_fixed` breaks the counter identity (the code decrements
`nparams_free` even when the flag does not change, models.py 1148-1180):
see the counterexample. -/
theorem modelset_bookkeeping_invariants (ms : ModelSet)
    (h : ModelSet.ReachableW ms) :
    ms.nparams = totalLen ms.components ∧
    ms.nparams_free + (ms.nparams_tied : ℤ) +
      (nfixedTotal ms.components : ℤ) = (ms.nparams : ℤ) ∧
    ms.parameters = ms.components.flatMap DysmalComponent.values := by
  have hinv := reachable_invariants ms h
  exact ⟨hinv.npar, hinv.counters, hinv.lock⟩

/-- C7 counterexample: fixing the same (already fixed) parameter twice is
a legal call sequence, but the second call decrements `nparams_free`
again, driving it to `-1` and breaking
`nparams_free + nparams_tied + n_fixed = nparams`. -/
theorem set_parameter_fixed_counters_counterexample :
    ∃ ms1 ms2,
      (ModelSet.empty._add_comp haloW).set_parameter_fixed "halo" "m" true
        = some ms1 ∧
      ms1.set_parameter_fixed "halo" "m" true = some ms2 ∧
      ms2.nparams_free + (ms2.nparams_tied : ℤ) +
        (nfixedTotal ms2.components : ℤ) ≠ (ms2.nparams : ℤ) :=
  ⟨_, _, rfl, rfl, by decide⟩

/-- C7 witness: the invariants at a concrete reachable state (empty, add
a fresh component, genuinely fix its free parameter). -/
theorem modelset_bookkeeping_invariants_witness :
    (ModelSet.empty._add_comp haloW).nparams =
      totalLen (ModelSet.empty._add_comp haloW).components ∧
    (ModelSet.empty._add_comp haloW).nparams_free +
      ((ModelSet.empty._add_comp haloW).nparams_tied : ℤ) +
      (nfixedTotal (ModelSet.empty._add_comp haloW).components : ℤ) =
      ((ModelSet.empty._add_comp haloW).nparams : ℤ) ∧
    (ModelSet.empty._add_comp haloW).parameters =
      (ModelSet.empty._add_comp haloW).components.flatMap
        DysmalComponent.values :=
  modelset_bookkeeping_invariants (ModelSet.empty._add_comp haloW)
    (ModelSet.ReachableW.add ModelSet.empty haloW
      ModelSet.ReachableW.empty ⟨rfl, rfl, rfl, by decide⟩
      (by intro c0 hc0; simp [ModelSet.empty] at hc0))

end Dysmalpy
